import Mathlib

/-!
# Email template checker: rules engine and scoring

A shallow embedding of `src/rules.js` (class `EmailRulesEngine`) and of the
engine part of `src/checker.js` (class `EmailTemplateChecker`).

Conventions of the embedding

* A JavaScript string that holds document text is a `Text`, a list of
  characters; every element stands for one UTF-16 code unit, so `length`,
  quantifier counts and indices agree with JavaScript on every document of
  the Basic Multilingual Plane.
* Regular expressions are values of `Re`, run by a backtracking matcher that
  follows the ECMAScript matching rules (ordered alternation, greedy and lazy
  quantifiers with the empty-iteration check, captures, negative lookahead,
  word boundary, anchors, the `i` flag on ASCII letters).
* A JavaScript number is a rational that `toNumber` leaves unchanged.  The
  arithmetic of `calculateScore` rounds every product, sum and difference to
  the nearest IEEE 754 double (53 significant bits, a tie going to the even
  significand), and a decimal literal denotes the double nearest to it.  The
  exponent range is not limited: overflow, subnormal numbers, `NaN` and the
  infinities are outside the embedding.  The ratios of the rule tests
  (`count / total >= 0.8`) are compared exactly, which gives the answer of the
  doubles for every count below `2 ^ 50`.
* A test that returns `null` (for example `m && m.length > 0` with no match)
  is recorded as `false`: only the truthiness of `passed` is ever observed.
-/

namespace EmailChecker

/-! ## Text primitives (String.prototype) -/

/-- Document text: a list of UTF-16 code units. -/
abbrev Text := List Char

/-- The double quote character. -/
def dq : Char := Char.ofNat 34

/-- The single quote character. -/
def sq : Char := Char.ofNat 39

/-- Line feed. -/
def nl : Char := Char.ofNat 10

/-- The method `String.prototype.startsWith`. -/
def startsWith : Text → Text → Bool
  | _, [] => true
  | [], _ :: _ => false
  | c :: s, p :: ps => c == p && startsWith s ps

/-- The method `String.prototype.includes`: the pattern occurs at some index. -/
def includes : Text → Text → Bool
  | [], p => startsWith [] p
  | c :: s, p => startsWith (c :: s) p || includes s p

/-- White space and line terminators of ECMAScript (the set of `\s` and of `trim`). -/
def isSpace (c : Char) : Bool :=
  let n := c.toNat
  n == 9 || n == 10 || n == 11 || n == 12 || n == 13 || n == 32 || n == 160 ||
  n == 0x1680 || (0x2000 ≤ n && n ≤ 0x200A) || n == 0x2028 || n == 0x2029 ||
  n == 0x202F || n == 0x205F || n == 0x3000 || n == 0xFEFF

/-- Line terminators, which `.` does not match. -/
def isLineTerminator (c : Char) : Bool :=
  let n := c.toNat
  n == 10 || n == 13 || n == 0x2028 || n == 0x2029

/-- Word characters for `\b`: letters, digits and the underscore. -/
def isWordChar (c : Char) : Bool :=
  let n := c.toNat
  (48 ≤ n && n ≤ 57) || (65 ≤ n && n ≤ 90) || (97 ≤ n && n ≤ 122) || n == 95

/-- The method `String.prototype.trim`. -/
def trim (s : Text) : Text :=
  ((s.dropWhile isSpace).reverse.dropWhile isSpace).reverse

/-- The call `s.replace(pat, rep)` with a string pattern: the first occurrence only. -/
def replaceFirst (pat rep : Text) : Text → Text
  | [] => if pat.isEmpty then rep else []
  | c :: s =>
    if startsWith (c :: s) pat then rep ++ (c :: s).drop pat.length
    else c :: replaceFirst pat rep s

/-- Worker of `split`: the current piece is kept reversed. -/
def splitGo (sep : Char) : Text → Text → List Text
  | [], cur => [cur.reverse]
  | c :: s, cur => if c == sep then cur.reverse :: splitGo sep s [] else splitGo sep s (c :: cur)

/-- The call `s.split(sep)` for a one-character separator. -/
def split (sep : Char) (s : Text) : List Text := splitGo sep s []

/-! ## Regular expressions -/

/-- Character sets of the patterns. -/
inductive CSet where
  | any
  | dot
  | chr (c : Char)
  | range (lo hi : Char)
  | space
  | digit
  | union (a b : CSet)
  | neg (a : CSet)

/-- Canonical form of a code unit under the `i` flag.  The patterns hold ASCII
characters only, and a code unit of 128 or more never canonicalizes to an ASCII
one, so upper-casing ASCII letters decides every comparison. -/
def canon (c : Char) : Char := c.toUpper

/-- Membership of a code unit in a character set; `ci` is the `i` flag. -/
def CSet.mem (ci : Bool) : CSet → Char → Bool
  | .any, _ => true
  | .dot, c => !isLineTerminator c
  | .chr p, c => if ci then canon c == canon p else c == p
  | .range lo hi, c =>
    let inR := fun (x : Char) => lo.toNat ≤ x.toNat && x.toNat ≤ hi.toNat
    inR c || (ci && (inR c.toLower || inR c.toUpper))
  | .space, c => isSpace c
  | .digit, c => 48 ≤ c.toNat && c.toNat ≤ 57
  | .union a b, c => a.mem ci c || b.mem ci c
  | .neg a, c => !(a.mem ci c)

/-- Regular expression terms. -/
inductive Re where
  | eps
  | set (cs : CSet)
  | seq (a b : Re)
  | alt (a b : Re)
  | rep (greedy : Bool) (min : Nat) (max : Option Nat) (r : Re)
  | group (i : Nat) (r : Re)
  | notAhead (r : Re)
  | wordB
  | bos
  | eos

/-- Captures: group number and captured text, the latest first. -/
abbrev Caps := List (Nat × Text)

/-- Outcome of a match attempt: the text left after the match and the captures. -/
abbrev MRes := Option (Text × Caps)

/-- Continuation of the matcher: previous code unit, remaining text, captures. -/
abbrev MCont := Option Char → Text → Caps → MRes

/-- The abstract operation RepeatMatcher.  An iteration that leaves the position
unchanged is rejected once `min` is exhausted; `fuel` bounds the number of
iterations (each one consumes input or lowers `min`). -/
def repGo (body : Option Char → Text → Caps → MCont → MRes) (greedy : Bool) :
    Nat → Nat → Option Nat → Option Char → Text → Caps → MCont → MRes
  | 0, _, _, _, _, _, _ => none
  | fuel + 1, min, max, prev, s, caps, k =>
    if max = some 0 then k prev s caps
    else
      let d : MCont := fun p1 s1 c1 =>
        if min = 0 ∧ s1.length = s.length then none
        else repGo body greedy fuel (min - 1) (max.map (· - 1)) p1 s1 c1 k
      if min ≠ 0 then body prev s caps d
      else if greedy then
        match body prev s caps d with
        | some r => some r
        | none => k prev s caps
      else
        match k prev s caps with
        | some r => some r
        | none => body prev s caps d

/-- The backtracking matcher: `matchRe r ci prev s caps k` matches `r` at the
position whose previous code unit is `prev` and whose remaining text is `s`,
then calls `k`. -/
def matchRe : Re → Bool → Option Char → Text → Caps → MCont → MRes
  | .eps, _, prev, s, caps, k => k prev s caps
  | .set cs, ci, _, s, caps, k =>
    match s with
    | [] => none
    | c :: t => if cs.mem ci c then k (some c) t caps else none
  | .seq a b, ci, prev, s, caps, k =>
    matchRe a ci prev s caps (fun p1 s1 c1 => matchRe b ci p1 s1 c1 k)
  | .alt a b, ci, prev, s, caps, k =>
    match matchRe a ci prev s caps k with
    | some r => some r
    | none => matchRe b ci prev s caps k
  | .rep greedy min max r, ci, prev, s, caps, k =>
    repGo (matchRe r ci) greedy (min + s.length + 2) min max prev s caps k
  | .group i r, ci, prev, s, caps, k =>
    matchRe r ci prev s caps
      (fun p1 s1 c1 => k p1 s1 ((i, s.take (s.length - s1.length)) :: c1))
  | .notAhead r, ci, prev, s, caps, k =>
    match matchRe r ci prev s caps (fun _ s1 c1 => some (s1, c1)) with
    | some _ => none
    | none => k prev s caps
  | .wordB, _, prev, s, caps, k =>
    let a := match prev with
      | some c => isWordChar c
      | none => false
    let b := match s with
      | c :: _ => isWordChar c
      | [] => false
    if a != b then k prev s caps else none
  | .bos, _, prev, s, caps, k => if prev.isNone then k prev s caps else none
  | .eos, _, prev, s, caps, k => if s.isEmpty then k prev s caps else none

/-- A regular expression object: the pattern and its `i` flag (the `g` flag
selects the operation at the call site). -/
structure RegExp where
  re : Re
  ignoreCase : Bool

/-- One match attempt at a fixed position. -/
def execAt (r : RegExp) (prev : Option Char) (s : Text) : MRes :=
  matchRe r.re r.ignoreCase prev s [] (fun _ s1 c1 => some (s1, c1))

/-- A successful match: matched text and captures. -/
structure Match where
  text : Text
  caps : Caps

/-- The text matched when `rest` is what remains of `s`. -/
def matchedText (s rest : Text) : Text := s.take (s.length - rest.length)

/-- The first match at or after the current position. -/
def searchFrom (r : RegExp) : Option Char → Text → Option Match
  | prev, [] =>
    match execAt r prev [] with
    | some (_, caps) => some ⟨[], caps⟩
    | none => none
  | prev, c :: s =>
    match execAt r prev (c :: s) with
    | some (rest, caps) => some ⟨matchedText (c :: s) rest, caps⟩
    | none => searchFrom r (some c) s

/-- The call `s.match(re)` for a pattern without the `g` flag (`none` is `null`). -/
def jsMatch (r : RegExp) (s : Text) : Option Match := searchFrom r none s

/-- The call `re.test(s)` on a fresh pattern object (`lastIndex` is 0). -/
def regexTest (r : RegExp) (s : Text) : Bool := (searchFrom r none s).isSome

/-- Worker of the global operations: `skip` code units of the last match are
still to be passed over. -/
def matchAllGo (r : RegExp) : Nat → Option Char → Text → List Match
  | _, prev, [] =>
    match execAt r prev [] with
    | some (_, caps) => [⟨[], caps⟩]
    | none => []
  | skip + 1, _, c :: s => matchAllGo r skip (some c) s
  | 0, prev, c :: s =>
    match execAt r prev (c :: s) with
    | none => matchAllGo r 0 (some c) s
    | some (rest, caps) =>
      ⟨matchedText (c :: s) rest, caps⟩ ::
        matchAllGo r ((c :: s).length - rest.length - 1) (some c) s

/-- The call `s.match(re)` for a pattern with the `g` flag: all matches from
left to right; the empty list stands for `null`. -/
def matchAll (r : RegExp) (s : Text) : List Match := matchAllGo r 0 none s

/-- Worker of `replaceAll`. -/
def replaceGo (r : RegExp) (f : Match → Text) : Nat → Option Char → Text → Text
  | _, prev, [] =>
    match execAt r prev [] with
    | some (_, caps) => f ⟨[], caps⟩
    | none => []
  | skip + 1, _, c :: s => replaceGo r f skip (some c) s
  | 0, prev, c :: s =>
    match execAt r prev (c :: s) with
    | none => c :: replaceGo r f 0 (some c) s
    | some (rest, caps) =>
      let n := (c :: s).length - rest.length
      f ⟨matchedText (c :: s) rest, caps⟩ ++
        (if n = 0 then c :: replaceGo r f 0 (some c) s
         else replaceGo r f (n - 1) (some c) s)

/-- The call `s.replace(re, f)` for a pattern with the `g` flag; `f` receives
the match and its captures. -/
def replaceAll (r : RegExp) (f : Match → Text) (s : Text) : Text := replaceGo r f 0 none s

/-- Capture `i` of a match as `$i` inserts it: the text of the group, or the
empty text when the group took no part. -/
def Match.cap (m : Match) (i : Nat) : Text :=
  match m.caps.find? (fun p => p.1 == i) with
  | some p => p.2
  | none => []

/-! ### Pattern builders -/

/-- A literal string. -/
def Re.str (s : String) : Re := s.data.foldr (fun c r => Re.seq (.set (.chr c)) r) .eps

/-- Concatenation of a list of terms. -/
def Re.cat (rs : List Re) : Re := rs.foldr Re.seq .eps

/-- Greedy `r*`. -/
def Re.star (r : Re) : Re := .rep true 0 none r

/-- Greedy `r+`. -/
def Re.plus (r : Re) : Re := .rep true 1 none r

/-- The set `[^abc]` for the listed characters. -/
def CSet.noneOf (cs : List Char) : CSet :=
  .neg (cs.foldr (fun c acc => CSet.union (.chr c) acc) (.neg .any))

/-- The term `\s*`. -/
def Re.ws : Re := Re.star (.set .space)

/-- The term `["']`. -/
def Re.quote : Re := .set (.union (.chr dq) (.chr sq))

/-- The term `[^"']*`. -/
def Re.unquoted : Re := Re.star (.set (CSet.noneOf [dq, sq]))

/-- The term `[^c]*` for one excluded character. -/
def Re.upTo (c : Char) : Re := Re.star (.set (CSet.noneOf [c]))

/-- The term `\s+`. -/
def Re.ws1 : Re := Re.plus (.set .space)

/-- The term `name\s*=\s*["'][^"']*["']`: a quoted attribute. -/
def Re.attr (name : String) : Re :=
  Re.cat [Re.str name, Re.ws, Re.str "=", Re.ws, Re.quote, Re.unquoted, Re.quote]

/-- The term `name\s*=\s*["'](pre[^"']*)["']`, the value after `pre` being group 1. -/
def Re.attrCap (name pre : String) : Re :=
  Re.cat [Re.str name, Re.ws, Re.str "=", Re.ws, Re.quote, Re.str pre,
    .group 1 Re.unquoted, Re.quote]

/-- The term `<name[^>]*>`: an opening tag. -/
def Re.openTag (name : String) : Re :=
  Re.cat [Re.str ("<" ++ name), Re.upTo '>', Re.str ">"]

/-- The term `<name[^>]*key=["'][^"']*["'][^>]*>`: a tag with `key=` and a quoted value. -/
def Re.tagWith (name key : String) : Re :=
  Re.cat [Re.str ("<" ++ name), Re.upTo '>', Re.str (key ++ "="), Re.quote, Re.unquoted,
    Re.quote, Re.upTo '>', Re.str ">"]

/-- The term `prop\s*:\s*` that opens a CSS declaration. -/
def Re.decl (prop : String) : Re := Re.cat [Re.str prop, Re.ws, Re.str ":", Re.ws]

/-! ## Data model -/

deriving instance DecidableEq for Except

/-- The `message` of a rule: a static string or a function of `(passed, documentText)`. -/
inductive Message where
  | static (s : String)
  | computed (f : Bool → Text → Except String String)

/-- A rule of the catalogue.  A `test` or `message` that raises returns `.error`. -/
structure Rule where
  id : String
  category : String
  weight : ℚ
  level : String
  description : String
  test : Text → Except String Bool
  message : Message
  fix : Option String
  autoFix : Option (Text → Text)

/-- A category of the engine; the colour is carried for display only. -/
structure Category where
  name : String
  weight : ℚ
  color : String

/-- The evaluation result pushed by `runChecks` for one rule. -/
structure EvalResult where
  id : String
  rule : Rule
  passed : Bool
  message : String
  level : String
  weight : ℚ
  category : String
  fix : Option String
  hasAutoFix : Bool

/-! ## Number values (IEEE 754 doubles) -/

/-- The nearest integer of a rational, a tie going to the even one. -/
def roundHalfEven (x : ℚ) : ℤ :=
  let f := ⌊x⌋
  if x - f < 1 / 2 then f
  else if 1 / 2 < x - f then f + 1
  else if f % 2 = 0 then f else f + 1

/-- Worker of `bitLen`; the first argument bounds the number of halvings. -/
def bitLenGo : Nat → Nat → Nat
  | 0, _ => 0
  | fuel + 1, n => if n = 0 then 0 else bitLenGo fuel (n / 2) + 1

/-- The number of binary digits of `n`. -/
def bitLen (n : Nat) : Nat := bitLenGo n n

/-- The binary exponent of a rational `x` other than zero: the greatest `e` with
`2 ^ e ≤ |x|`.  The digit counts of numerator and denominator leave two candidates. -/
def binExp (x : ℚ) : ℤ :=
  let e : ℤ := (bitLen x.num.natAbs : ℤ) - (bitLen x.den : ℤ)
  if (2 : ℚ) ^ e ≤ |x| then e else e - 1

/-- The Number value of a real number: the nearest double.  With `e` the binary
exponent of `x`, the doubles around `x` are the multiples of `2 ^ (e - 52)`, and `x`
goes to the nearest multiple, a tie going to the even one. -/
def toNumber (x : ℚ) : ℚ :=
  if x = 0 then 0
  else (roundHalfEven (x / 2 ^ (binExp x - 52)) : ℚ) * 2 ^ (binExp x - 52)

/-! ## Scoring (`checker.js`) -/

/-- The function `Math.round`: the nearest integer, a tie going towards plus infinity. -/
def jsRound (x : ℚ) : ℤ := ⌊x + 1 / 2⌋

/-- The method `getSeverityMultiplier`. -/
def getSeverityMultiplier (level : String) : ℚ :=
  if level = "error" then 8 / 10
  else if level = "warning" then 5 / 10
  else if level = "info" then 2 / 10
  else 3 / 10

/-- The method `calculateScore`: the `forEach` accumulates the penalty of every
failed result, then the score is clamped below and rounded.  The product, the sum
and the difference are operations on doubles, and the multiplier is the double of
the literal returned by `getSeverityMultiplier`. -/
def calculateScore (results : List EvalResult) : ℤ :=
  let maxScore : ℚ := 100
  let lostScore : ℚ := results.foldl
    (fun lost result =>
      if !result.passed then
        let penalty := toNumber (result.weight * toNumber (getSeverityMultiplier result.level))
        toNumber (lost + penalty)
      else lost) 0
  max 0 (jsRound (toNumber (maxScore - lostScore)))

/-! ## The rule catalogue (`rules.js`, `initializeRules`) -/

/-- The text of a string literal. -/
def txt (s : String) : Text := s.data

/-- The pattern `/<table[^>]*>/gi` (also used without `g`). -/
def tableTagRe : RegExp := ⟨Re.openTag "table", true⟩

/-- The pattern `/style\s*=\s*["'][^"']*["']/gi`. -/
def styleAttrRe : RegExp := ⟨Re.attr "style", true⟩

/-- The pattern `/<img[^>]*>/gi`. -/
def imgTagRe : RegExp := ⟨Re.openTag "img", true⟩

/-- The lookahead `(?!\s+style)`. -/
def Re.noStyleAhead : Re := .notAhead (Re.cat [Re.ws1, Re.str "style"])

/-- The rule `doctypeRequired`. -/
def doctypeRequired : Rule where
  id := "doctype-required"
  category := "compatibility"
  weight := 10
  level := "error"
  description := "DOCTYPE declaration required"
  test := fun htmlString =>
    .ok (includes htmlString (txt "<!DOCTYPE") || includes htmlString (txt "<!doctype"))
  message := .computed fun passed _ => .ok
    (if passed then "DOCTYPE declaration found ✓"
     else "Missing DOCTYPE declaration. Add <!DOCTYPE html> at the top")
  fix := some "Add <!DOCTYPE html> at the very beginning of your HTML"
  autoFix := some fun html =>
    if !includes html (txt "<!DOCTYPE") && !includes html (txt "<!doctype") then
      txt "<!DOCTYPE html>\n" ++ html
    else html

/-- The rule `htmlTagRequired`. -/
def htmlTagRequired : Rule where
  id := "html-tag-required"
  category := "compatibility"
  weight := 8
  level := "error"
  description := "HTML tag required"
  test := fun htmlString =>
    .ok (includes htmlString (txt "<html") && includes htmlString (txt "</html>"))
  message := .computed fun passed _ => .ok
    (if passed then "HTML tags found ✓"
     else "Missing <html> tags. Wrap your content in <html> tags")
  fix := some "Wrap your content in <html> tags: <html>...</html>"
  autoFix := some fun html =>
    if !includes html (txt "<html") || !includes html (txt "</html>") then
      txt "<html>\n" ++ html ++ txt "\n</html>"
    else html

/-- What `tableLayout.autoFix` puts before the document. -/
def tableWrapOpen : String :=
  "<table width=\"100%\" cellpadding=\"0\" cellspacing=\"0\" border=\"0\" " ++
  "style=\"max-width:600px; margin:0 auto;\">\n  <tr>\n    <td align=\"center\">\n"

/-- What `tableLayout.autoFix` puts after the document. -/
def tableWrapClose : String := "\n    </td>\n  </tr>\n</table>"

/-- The rule `tableLayout`.  Its test returns `null` when nothing matches. -/
def tableLayout : Rule where
  id := "table-layout"
  category := "compatibility"
  weight := 15
  level := "error"
  description := "Table-based layout required for email clients"
  test := fun htmlString =>
    let tableMatch := matchAll tableTagRe htmlString
    .ok (!tableMatch.isEmpty && decide (tableMatch.length > 0))
  message := .computed fun passed htmlString =>
    let tableMatch := matchAll tableTagRe htmlString
    let tableCount := if !tableMatch.isEmpty then tableMatch.length else 0
    .ok (if passed then "Table-based layout found (" ++ toString tableCount ++ " tables) ✓"
      else "No table-based layout found. Email layouts must use tables for compatibility")
  fix := some ("Wrap your layout in a table structure:\n" ++
    "<table width=\"100%\" cellpadding=\"0\" cellspacing=\"0\" border=\"0\">\n" ++
    "  <tr>\n    <td align=\"center\">\n      <!-- Your content here -->\n" ++
    "    </td>\n  </tr>\n</table>")
  autoFix := some fun html =>
    if !regexTest tableTagRe html && decide (html.length > 100) then
      txt tableWrapOpen ++ html ++ txt tableWrapClose
    else html

/-- The replacement list of `inlineStyles.autoFix`: pattern (flag `g`, case
sensitive) and replacement, `$1` being group 1. -/
def inlineStyleReplacements : List (RegExp × (Match → Text)) :=
  [ (⟨Re.cat [Re.str "<p", Re.noStyleAhead], false⟩,
      fun _ => txt "<p style=\"margin:0 0 15px 0; font-family:Arial,sans-serif;\""),
    (⟨Re.cat [Re.str "<h1", Re.noStyleAhead], false⟩,
      fun _ => txt ("<h1 style=\"font-family:Arial,sans-serif; font-size:24px; " ++
        "margin:0 0 15px 0;\"")),
    (⟨Re.cat [Re.str "<h2", Re.noStyleAhead], false⟩,
      fun _ => txt ("<h2 style=\"font-family:Arial,sans-serif; font-size:20px; " ++
        "margin:0 0 12px 0;\"")),
    (⟨Re.cat [Re.str "<a", Re.ws1, Re.str "href=", .group 1 (Re.upTo '>'), Re.str ">"], false⟩,
      fun m => txt "<a href=" ++ m.cap 1 ++
        txt " style=\"color:#3b82f6; text-decoration:none;\">"),
    (⟨Re.cat [Re.str "<td", Re.noStyleAhead,
        .notAhead (Re.cat [Re.ws1, Re.upTo '>', Re.str ">"])], false⟩,
      fun _ => txt "<td style=\"font-family:Arial,sans-serif;\"") ]

/-- The rule `inlineStyles`.  Its test returns `null` when nothing matches. -/
def inlineStyles : Rule where
  id := "inline-css"
  category := "compatibility"
  weight := 12
  level := "error"
  description := "Inline styles required for email clients"
  test := fun htmlString =>
    let styleMatches := matchAll styleAttrRe htmlString
    .ok (!styleMatches.isEmpty && decide (styleMatches.length ≥ 3))
  message := .computed fun passed htmlString =>
    let styleMatches := matchAll styleAttrRe htmlString
    let styleCount := if !styleMatches.isEmpty then styleMatches.length else 0
    .ok (if passed then "Inline styles detected (" ++ toString styleCount ++ " elements) ✓"
      else "Missing inline styles (only " ++ toString styleCount ++
        " found). Use style attributes instead of <style> tags")
  fix := some
    "Add style attributes to elements: <div style=\"font-family: Arial; color: #333;\">"
  autoFix := some fun html =>
    inlineStyleReplacements.foldl (fun fixedHtml pr => replaceAll pr.1 pr.2 fixedHtml) html

/-- The term `display\s*:\s*value`. -/
def Re.display (value : String) : Re := Re.cat [Re.decl "display", Re.str value]

/-- The rule `noFlexGrid`. -/
def noFlexGrid : Rule where
  id := "no-flex-grid"
  category := "compatibility"
  weight := 10
  level := "error"
  description := "Avoid Flexbox and Grid for email compatibility"
  test := fun htmlString =>
    let hasFlexGrid :=
      regexTest ⟨Re.cat [Re.decl "display",
        .group 1 (.alt (Re.str "flex") (.alt (Re.str "inline-flex")
          (.alt (Re.str "grid") (Re.str "inline-flex"))))], true⟩ htmlString ||
      regexTest ⟨Re.str "flex-direction", true⟩ htmlString ||
      regexTest ⟨Re.str "grid-template", true⟩ htmlString
    .ok (!hasFlexGrid)
  message := .computed fun passed _ => .ok
    (if passed then "No Flexbox/Grid detected ✓"
     else "Flexbox or Grid detected. Use tables instead for email compatibility")
  fix := some "Replace Flexbox/Grid with table layouts"
  autoFix := some fun html =>
    replaceAll ⟨Re.display "inline-grid", true⟩ (fun _ => txt "display: inline-block")
      (replaceAll ⟨Re.display "grid", true⟩ (fun _ => txt "display: block")
        (replaceAll ⟨Re.display "inline-flex", true⟩ (fun _ => txt "display: inline-block")
          (replaceAll ⟨Re.display "flex", true⟩ (fun _ => txt "display: block") html)))

/-- The block inserted by `msoSupport.autoFix`. -/
def msoBlock : String :=
  "<!--[if mso]>\n<style type=\"text/css\">\n" ++
  "body, table, td \x7b font-family: Arial, sans-serif !important; \x7d\n" ++
  "</style>\n<![endif]-->\n"

/-- The rule `msoSupport`. -/
def msoSupport : Rule where
  id := "mso-support"
  category := "compatibility"
  weight := 15
  level := "warning"
  description := "Microsoft Outlook conditional comments"
  test := fun htmlString =>
    .ok (includes htmlString (txt "<!--[if mso]") ||
      includes htmlString (txt "[if mso]") ||
      regexTest ⟨Re.cat [Re.str "mso-",
        Re.plus (.set (.union (.range 'a' 'z') (.chr '-'))), Re.str ":"], true⟩ htmlString)
  message := .computed fun passed _ => .ok
    (if passed then "Outlook conditional comments detected ✓"
     else "Missing Outlook support. Add conditional comments for better rendering")
  fix := some ("Add Outlook conditional comments:\n<!--[if mso]>\n" ++
    "<style type=\"text/css\">\n  /* Outlook-specific styles */\n" ++
    "  .outlook-fix \x7b display: none !important; \x7d\n</style>\n<![endif]-->")
  autoFix := some fun html =>
    if !includes html (txt "[if mso]") then
      txt msoBlock ++ html
    else html

/-- The check of one `<img>` tag in `imgAltText`: a quoted `alt` whose value,
trimmed, is longer than 2 (an empty `altMatch[1]` is falsy). -/
def hasValidAlt (imgTag : Text) : Bool :=
  let hasAlt := regexTest ⟨Re.attr "alt", true⟩ imgTag
  if hasAlt then
    match jsMatch ⟨Re.attrCap "alt" "", true⟩ imgTag with
    | some altMatch => !(altMatch.cap 1).isEmpty && decide ((trim (altMatch.cap 1)).length > 2)
    | none => false
  else false

/-- The rule `imgAltText`. -/
def imgAltText : Rule where
  id := "img-alt"
  category := "accessibility"
  weight := 10
  level := "warning"
  description := "Alt text for images"
  test := fun htmlString =>
    let imgs := matchAll imgTagRe htmlString
    if imgs.isEmpty then .ok true
    else
      let validAltCount := (imgs.filter fun imgTag => hasValidAlt imgTag.text).length
      .ok (imgs.length == 0 || decide ((validAltCount : ℚ) / (imgs.length : ℚ) ≥ 8 / 10))
  message := .computed fun passed htmlString =>
    let imgs := matchAll imgTagRe htmlString
    let validAlts := (imgs.filter fun img => hasValidAlt img.text).length
    if imgs.length == 0 then .ok "No images found"
    else .ok (if passed then
        toString validAlts ++ "/" ++ toString imgs.length ++ " images have alt text ✓"
      else toString (imgs.length - validAlts) ++ " images missing alt text")
  fix := some "Add alt attribute to images: <img src=\"image.jpg\" alt=\"Description\">"
  autoFix := some fun html =>
    replaceAll ⟨Re.cat [Re.str "<img", .group 1 (Re.upTo '>'), Re.str ">"], true⟩
      (fun m =>
        if !regexTest ⟨Re.tagWith "img" "alt", true⟩ m.text then
          txt "<img" ++ m.cap 1 ++ txt " alt=\"Image\">"
        else m.text) html

/-- The check of one `<img>` tag in `imgDimensions`. -/
def hasDimensions (imgTag : Text) : Bool :=
  let hasWidth := regexTest ⟨Re.attr "width", true⟩ imgTag
  let hasHeight := regexTest ⟨Re.attr "height", true⟩ imgTag
  hasWidth && hasHeight

/-- The rule `imgDimensions`. -/
def imgDimensions : Rule where
  id := "img-dimensions"
  category := "performance"
  weight := 8
  level := "warning"
  description := "Width and height attributes for images"
  test := fun htmlString =>
    let imgs := matchAll imgTagRe htmlString
    if imgs.isEmpty then .ok true
    else
      let dimensionedCount := (imgs.filter fun imgTag => hasDimensions imgTag.text).length
      .ok (imgs.length == 0 || decide ((dimensionedCount : ℚ) / (imgs.length : ℚ) ≥ 7 / 10))
  message := .computed fun passed htmlString =>
    let imgs := matchAll imgTagRe htmlString
    let dimensioned := (imgs.filter fun img => hasDimensions img.text).length
    if imgs.length == 0 then .ok "No images found"
    else .ok (if passed then
        toString dimensioned ++ "/" ++ toString imgs.length ++ " images have dimensions ✓"
      else toString (imgs.length - dimensioned) ++ " images missing dimensions")
  fix := some
    "Add width and height attributes: <img src=\"image.jpg\" width=\"600\" height=\"300\">"
  autoFix := some fun html =>
    replaceAll ⟨Re.cat [Re.str "<img", .group 1 (Re.upTo '>'), Re.str ">"], true⟩
      (fun m =>
        if !regexTest ⟨Re.tagWith "img" "width", true⟩ m.text then
          txt "<img" ++ m.cap 1 ++ txt " width=\"600\" height=\"auto\">"
        else m.text) html

/-- The denylist of `noForbiddenTags`: tag opener and name, in source order. -/
def forbiddenTags : List (String × String) :=
  [("<script", "script"), ("<form", "form"), ("<video", "video"), ("<iframe", "iframe"),
   ("<audio", "audio"), ("<object", "object"), ("<embed", "embed"), ("<input", "input"),
   ("<textarea", "textarea"), ("<button", "button")]

/-- The pattern `/<name\b[^<]*(?:(?!<\/name>)<[^<]*)*<\/name>/gi`. -/
def pairedTagRe (name : String) : RegExp :=
  ⟨Re.cat [Re.str ("<" ++ name), .wordB, Re.upTo '<',
      Re.star (Re.cat [.notAhead (Re.str ("</" ++ name ++ ">")), Re.str "<", Re.upTo '<']),
      Re.str ("</" ++ name ++ ">")], true⟩

/-- The pattern `/<name[^>]*>[\s\S]*?<\/name>/gi`. -/
def lazyTagRe (name : String) : RegExp :=
  ⟨Re.cat [Re.str ("<" ++ name), Re.upTo '>', Re.str ">", .rep false 0 none (.set .any),
      Re.str ("</" ++ name ++ ">")], true⟩

/-- The removal patterns of `noForbiddenTags.autoFix`, in the order of the chain. -/
def forbiddenRemovals : List RegExp :=
  [pairedTagRe "script", pairedTagRe "iframe", pairedTagRe "form", pairedTagRe "video",
   pairedTagRe "audio", pairedTagRe "object", pairedTagRe "embed",
   ⟨Re.openTag "input", true⟩, lazyTagRe "textarea", lazyTagRe "button"]

/-- The method `Array.prototype.join` on strings. -/
def joinWith (sep : String) : List String → String
  | [] => ""
  | [a] => a
  | a :: b :: rest => a ++ sep ++ joinWith sep (b :: rest)

/-- The rule `noForbiddenTags`. -/
def noForbiddenTags : Rule where
  id := "no-forbidden-tags"
  category := "security"
  weight := 10
  level := "error"
  description := "Remove dangerous tags from email"
  test := fun htmlString =>
    .ok (!forbiddenTags.any fun tag => includes htmlString (txt tag.1))
  message := .computed fun passed htmlString =>
    let foundTags := (forbiddenTags.filter fun t => includes htmlString (txt t.1)).map (·.2)
    if passed then .ok "No forbidden tags detected ✓"
    else .ok ("Found forbidden tags: " ++ joinWith ", " foundTags)
  fix := some ("Remove script, form, video, iframe, audio, object, embed, input, " ++
    "textarea, and button tags")
  autoFix := some fun html =>
    forbiddenRemovals.foldl (fun h re => replaceAll re (fun _ => []) h) html

/-- The pattern `/prop\s*:\s*value[^>]*>[^<]{10,150}</i` of `preheaderText.test`. -/
def hiddenTextRe (prop value : String) : RegExp :=
  ⟨Re.cat [Re.decl prop, Re.str value, Re.upTo '>', Re.str ">",
      .rep true 10 (some 150) (.set (CSet.noneOf ['<'])), Re.str "<"], true⟩

/-- The pattern `/display\s*:\s*none[^>]*>[^<]{10,}/i` of `preheaderText.autoFix`. -/
def hiddenSpanRe : RegExp :=
  ⟨Re.cat [Re.decl "display", Re.str "none", Re.upTo '>', Re.str ">",
      .rep true 10 none (.set (CSet.noneOf ['<']))], true⟩

/-- The rule `preheaderText`. -/
def preheaderText : Rule where
  id := "preheader"
  category := "bestPractice"
  weight := 5
  level := "info"
  description := "Preheader text for email preview"
  test := fun htmlString =>
    let patterns : List RegExp :=
      [⟨Re.str "preheader", true⟩, ⟨Re.str "preview-text", true⟩,
       hiddenTextRe "display" "none", hiddenTextRe "visibility" "hidden",
       hiddenTextRe "font-size" "0", hiddenTextRe "height" "0", hiddenTextRe "opacity" "0"]
    .ok (patterns.any fun pattern => regexTest pattern htmlString)
  message := .computed fun passed _ => .ok
    (if passed then "Preheader text detected ✓"
     else "Consider adding preheader text for better open rates")
  fix := some ("Add hidden preheader text:\n" ++
    "<span style=\"display:none; font-size:0; height:0; opacity:0;\">\n" ++
    "  Your preview text here. This won't be visible in the email body.\n</span>")
  autoFix := some fun html =>
    if !regexTest hiddenSpanRe html then
      txt ("<span style=\"display:none; font-size:0; height:0; opacity:0; " ++
        "visibility:hidden;\">\n  Preview your email here\n</span>\n") ++ html
    else html

/-- The pattern `/<meta[^>]*name\s*=\s*["']viewport["'][^>]*>/i`. -/
def viewportRe : RegExp :=
  ⟨Re.cat [Re.str "<meta", Re.upTo '>', Re.str "name", Re.ws, Re.str "=", Re.ws, Re.quote,
      Re.str "viewport", Re.quote, Re.upTo '>', Re.str ">"], true⟩

/-- The viewport tag inserted by `viewportMeta.autoFix`. -/
def viewportTag : String :=
  "<meta name=\"viewport\" content=\"width=device-width, initial-scale=1\">"

/-- The rule `viewportMeta`. -/
def viewportMeta : Rule where
  id := "viewport-meta"
  category := "bestPractice"
  weight := 3
  level := "info"
  description := "Viewport meta tag for mobile"
  test := fun htmlString => .ok (regexTest viewportRe htmlString)
  message := .computed fun passed _ => .ok
    (if passed then "Viewport meta tag found ✓"
     else "Add viewport meta tag for better mobile rendering")
  fix := some
    "Add: <meta name=\"viewport\" content=\"width=device-width, initial-scale=1\">"
  autoFix := some fun html =>
    if !regexTest viewportRe html then
      if includes html (txt "<head>") then
        replaceFirst (txt "<head>") (txt ("<head>\n  " ++ viewportTag)) html
      else if includes html (txt "<html>") then
        replaceFirst (txt "<html>") (txt ("<html>\n<head>\n  " ++ viewportTag ++ "\n</head>")) html
      else txt (viewportTag ++ "\n") ++ html
    else html

/-- The pattern `/width\s*:\s*(100%|\d+%)/i`. -/
def widthPercentRe : RegExp :=
  ⟨Re.cat [Re.decl "width",
      .group 1 (.alt (Re.str "100%") (Re.cat [Re.plus (.set .digit), Re.str "%"]))], true⟩

/-- The check of one `<table>` tag in `responsiveTables`. -/
def isResponsiveTable (tableTag : Text) : Bool :=
  let hasWidth := regexTest ⟨Re.attr "width", true⟩ tableTag ||
    regexTest widthPercentRe tableTag
  let hasCellpadding := regexTest ⟨Re.attr "cellpadding", true⟩ tableTag ||
    regexTest ⟨Re.str "cellpadding", true⟩ tableTag
  let hasMaxWidth := regexTest ⟨Re.str "max-width", true⟩ tableTag
  hasWidth && (hasCellpadding || hasMaxWidth)

/-- The rule `responsiveTables`. -/
def responsiveTables : Rule where
  id := "responsive-tables"
  category := "compatibility"
  weight := 8
  level := "warning"
  description := "Responsive table design"
  test := fun htmlString =>
    let tables := matchAll tableTagRe htmlString
    if tables.isEmpty || tables.length == 0 then .ok false
    else
      let responsiveCount := (tables.filter fun tableTag => isResponsiveTable tableTag.text).length
      .ok (decide (responsiveCount > 0))
  message := .computed fun passed _ => .ok
    (if passed then "Responsive tables detected ✓" else "Tables may not be mobile-responsive")
  fix := some ("Add: <table width=\"100%\" style=\"max-width:600px;\" cellpadding=\"0\" " ++
    "cellspacing=\"0\">")
  autoFix := some fun html =>
    replaceAll ⟨Re.cat [Re.str "<table", .group 1 (Re.upTo '>'), Re.str ">"], true⟩
      (fun m =>
        if !regexTest ⟨Re.tagWith "table" "width", true⟩ m.text &&
            !regexTest widthPercentRe m.text then
          txt "<table" ++ m.cap 1 ++
            txt " width=\"100%\" cellpadding=\"0\" cellspacing=\"0\" style=\"max-width:600px;\">"
        else m.text) html

/-- The pattern `/font-size\s*:\s*[^;]+/gi`. -/
def fontSizeRe : RegExp :=
  ⟨Re.cat [Re.decl "font-size", Re.plus (.set (CSet.noneOf [';']))], true⟩

/-- The body of the `forEach` of `fontSizeUnits.test` for one declaration: is the
value absolute?  `split(':')[1]` is `undefined` when the declaration has no
colon, and `.trim()` then raises. -/
def isAbsoluteUnit (declaration : Text) : Except String Bool :=
  match (split ':' declaration)[1]? with
  | none => .error "TypeError: Cannot read properties of undefined (reading 'trim')"
  | some part =>
    let value := trim part
    .ok (includes value (txt "px") || includes value (txt "pt") ||
      regexTest ⟨Re.cat [.bos, Re.plus (.set .digit), .eos], false⟩
        (trim (replaceFirst (txt "pt") [] (replaceFirst (txt "px") [] value))))

/-- The rule `fontSizeUnits`. -/
def fontSizeUnits : Rule where
  id := "font-size-units"
  category := "compatibility"
  weight := 6
  level := "warning"
  description := "Use absolute font units"
  test := fun htmlString =>
    let fontSizeMatches := matchAll fontSizeRe htmlString
    if fontSizeMatches.isEmpty then .ok true
    else do
      let absoluteUnits ← fontSizeMatches.foldlM
        (fun (n : Nat) declaration => do
          let ok ← isAbsoluteUnit declaration.text
          pure (if ok then n + 1 else n)) 0
      pure (absoluteUnits == fontSizeMatches.length)
  message := .computed fun passed _ => .ok
    (if passed then "Font sizes use absolute units ✓"
     else "Avoid em/rem units in email. Use px or pt")
  fix := some "Use px or pt: style=\"font-size: 16px;\""
  autoFix := some fun html =>
    replaceAll ⟨Re.cat [Re.decl "font-size",
        .group 1 (Re.plus (.set (.union .digit (.chr '.')))), Re.ws,
        .group 2 (.alt (Re.str "em") (Re.str "rem"))], true⟩
      (fun m => txt "font-size: " ++ m.cap 1 ++ txt "px") html

/-- The check of one `<img>` tag in `secureImages`. -/
def hasSecureSrc (imgTag : Text) : Bool :=
  match jsMatch ⟨Re.attrCap "src" "", true⟩ imgTag with
  | some srcMatch =>
    let src := srcMatch.cap 1
    startsWith src (txt "https://") || startsWith src (txt "data:") || startsWith src (txt "/")
  | none => false

/-- The rule `secureImages`. -/
def secureImages : Rule where
  id := "secure-images"
  category := "security"
  weight := 7
  level := "warning"
  description := "Use HTTPS for images"
  test := fun htmlString =>
    let imgs := matchAll imgTagRe htmlString
    if imgs.isEmpty then .ok true
    else
      let secureCount := (imgs.filter fun imgTag => hasSecureSrc imgTag.text).length
      .ok (imgs.length == 0 || decide ((secureCount : ℚ) / (imgs.length : ℚ) ≥ 8 / 10))
  message := .computed fun passed htmlString =>
    let imgs := matchAll imgTagRe htmlString
    let secureImages := (imgs.filter fun img => hasSecureSrc img.text).length
    if imgs.length == 0 then .ok "No images found"
    else .ok (if passed then
        toString secureImages ++ "/" ++ toString imgs.length ++ " images use HTTPS ✓"
      else toString (imgs.length - secureImages) ++ " images may be insecure (use HTTPS)")
  fix := some "Use HTTPS URLs for images: src=\"https://example.com/image.jpg\""
  autoFix := some fun html =>
    replaceAll ⟨Re.attrCap "src" "http://", true⟩
      (fun m => txt "src=\"https://" ++ m.cap 1 ++ txt "\"") html

/-- The pattern `/<a\s[^>]*href\s*=\s*["'][^"']*["'][^>]*>/gi`. -/
def linkRe : RegExp :=
  ⟨Re.cat [Re.str "<a", .set .space, Re.upTo '>', Re.attr "href", Re.upTo '>', Re.str ">"], true⟩

/-- The check of one `<a>` tag in `linkStyles`. -/
def isStyledLink (linkTag : Text) : Bool :=
  let hasColor :=
    regexTest ⟨Re.cat [Re.decl "color", Re.plus (.set (CSet.noneOf [';']))], true⟩ linkTag
  let hasDecoration :=
    regexTest ⟨Re.cat [Re.decl "text-decoration", Re.plus (.set (CSet.noneOf [';']))], true⟩
      linkTag
  hasColor && hasDecoration

/-- The rule `linkStyles`. -/
def linkStyles : Rule where
  id := "link-styles"
  category := "compatibility"
  weight := 4
  level := "info"
  description := "Proper link styling"
  test := fun htmlString =>
    let links := matchAll linkRe htmlString
    if links.isEmpty then .ok true
    else
      let styledLinks := (links.filter fun linkTag => isStyledLink linkTag.text).length
      .ok (links.length == 0 || decide ((styledLinks : ℚ) / (links.length : ℚ) ≥ 7 / 10))
  message := .computed fun passed _ => .ok
    (if passed then "Links properly styled ✓" else "Style links with color and text-decoration")
  fix := some "Add: <a href=\"#\" style=\"color:#3b82f6; text-decoration:underline;\">"
  autoFix := some fun html =>
    replaceAll ⟨Re.cat [Re.str "<a", Re.ws1,
        .group 1 (Re.cat [Re.upTo '>', Re.attr "href", Re.upTo '>']), Re.str ">"], true⟩
      (fun m =>
        if !includes m.text (txt "style=") then
          txt "<a " ++ m.cap 1 ++ txt " style=\"color:#3b82f6; text-decoration:underline;\">"
        else m.text) html

/-- The object returned by `initializeRules`: property key and rule, in the
order of the object literal. -/
def rules : List (String × Rule) :=
  [("doctypeRequired", doctypeRequired), ("htmlTagRequired", htmlTagRequired),
   ("tableLayout", tableLayout), ("inlineStyles", inlineStyles), ("noFlexGrid", noFlexGrid),
   ("msoSupport", msoSupport), ("imgAltText", imgAltText), ("imgDimensions", imgDimensions),
   ("noForbiddenTags", noForbiddenTags), ("preheaderText", preheaderText),
   ("viewportMeta", viewportMeta), ("responsiveTables", responsiveTables),
   ("fontSizeUnits", fontSizeUnits), ("secureImages", secureImages),
   ("linkStyles", linkStyles)]

/-- The field `categories` set by the constructor. -/
def categories : List (String × Category) :=
  [("compatibility", ⟨"Compatibility", 35, "#3b82f6"⟩),
   ("accessibility", ⟨"Accessibility", 25, "#10b981"⟩),
   ("performance", ⟨"Performance", 20, "#8b5cf6"⟩),
   ("security", ⟨"Security", 10, "#ef4444"⟩),
   ("bestPractice", ⟨"Best Practices", 10, "#f59e0b"⟩)]

/-- The method `getAllRules`: `Object.values(this.rules)`. -/
def getAllRules : List Rule := rules.map (·.2)

/-- The method `getCategories`. -/
def getCategories : List (String × Category) := categories

/-- Property names that every object literal inherits from `Object.prototype`. -/
def objectPrototypeKeys : List String :=
  ["constructor", "__defineGetter__", "__defineSetter__", "hasOwnProperty",
   "__lookupGetter__", "__lookupSetter__", "isPrototypeOf", "propertyIsEnumerable",
   "toString", "valueOf", "__proto__", "toLocaleString"]

/-- The value of the property access `this.rules[id]`. -/
inductive Lookup where
  | undefined
  | rule (r : Rule)
  | inherited (name : String)

/-- The method `getRule`: `this.rules[id]`, a lookup by property key.  An own
property wins, then the members inherited from `Object.prototype`. -/
def getRule (id : String) : Lookup :=
  match rules.find? (fun kv => kv.1 == id) with
  | some kv => .rule kv.2
  | none => if objectPrototypeKeys.contains id then .inherited id else .undefined

/-- The method `applyAutoFix`: `if (rule && rule.autoFix) return rule.autoFix(html)`.
An inherited member is truthy and has no `autoFix` property. -/
def applyAutoFix (ruleId : String) (html : Text) : Text :=
  match getRule ruleId with
  | .rule rule =>
    match rule.autoFix with
    | some autoFix => autoFix html
    | none => html
  | .inherited _ => html
  | .undefined => html

/-! ## The analysis pass (`checker.js`) -/

/-- One entry of the category breakdown. -/
structure CategoryScore where
  passed : Nat
  total : Nat
  weight : ℚ

/-- The method `calculateCategoryScores`: one entry per declared category, then
every result whose category has an entry is counted. -/
def calculateCategoryScores (results : List EvalResult) : List (String × CategoryScore) :=
  let categoryScores : List (String × CategoryScore) :=
    categories.map fun kv => (kv.1, ⟨0, 0, kv.2.weight⟩)
  results.foldl
    (fun scores result =>
      let category := result.rule.category
      scores.map fun kv =>
        if kv.1 == category then
          (kv.1, ⟨if result.passed then kv.2.passed + 1 else kv.2.passed, kv.2.total + 1,
            kv.2.weight⟩)
        else kv)
    categoryScores

/-- The object returned by `runChecks`; `analysisTime` is wall-clock time and is
left out. -/
structure Report where
  score : ℤ
  passedCount : Nat
  totalChecks : Nat
  results : List EvalResult
  categoryScores : List (String × CategoryScore)

/-- The resolution of `rule.message` in `runChecks`. -/
def resolveMessage (m : Message) (passed : Bool) (htmlString : Text) : Except String String :=
  match m with
  | .static s => .ok s
  | .computed f => f passed htmlString

/-- The body of the `forEach` of `runChecks`, on the pair `(results, passedCount)`.
Whatever is raised inside the `try` is caught and only logged. -/
def runRule (htmlString : Text) (st : List EvalResult × Nat) (rule : Rule) :
    List EvalResult × Nat :=
  match rule.test htmlString with
  | .error _ => st
  | .ok passed =>
    let passedCount := if passed then st.2 + 1 else st.2
    match resolveMessage rule.message passed htmlString with
    | .error _ => (st.1, passedCount)
    | .ok message =>
      (st.1 ++ [{ id := rule.id, rule := rule, passed := passed, message := message,
                  level := rule.level, weight := rule.weight, category := rule.category,
                  fix := rule.fix, hasAutoFix := rule.autoFix.isSome }], passedCount)

/-- The method `runChecks` over a given rule list. -/
def runChecksOn (rules : List Rule) (htmlString : Text) : Report :=
  let st := rules.foldl (runRule htmlString) ([], 0)
  { score := calculateScore st.1
    passedCount := st.2
    totalChecks := rules.length
    results := st.1
    categoryScores := calculateCategoryScores st.1 }

/-- The method `runChecks`. -/
def runChecks (htmlString : Text) : Report := runChecksOn getAllRules htmlString

/-- What the page shows after `analyzeContent`: the score and the four counters. -/
structure Display where
  score : ℤ
  errorCount : Nat
  warningCount : Nat
  infoCount : Nat
  passedCount : Nat
deriving DecidableEq

/-- The method `resetDisplay`: `updateScoreDisplay(0)` and every counter set to 0. -/
def resetDisplay : Display := ⟨0, 0, 0, 0, 0⟩

/-- The method `updateIssueCounts`, together with `updateScoreDisplay`. -/
def showReport (r : Report) : Display :=
  { score := r.score
    errorCount := (r.results.filter fun x => !x.passed && x.level == "error").length
    warningCount := (r.results.filter fun x => !x.passed && x.level == "warning").length
    infoCount := (r.results.filter fun x => !x.passed && x.level == "info").length
    passedCount := (r.results.filter fun x => x.passed).length }

/-- The method `analyzeContent` on the value of the text area: an empty or
white-space document resets the display and the rules are not run. -/
def analyzeContent (value : Text) : Display :=
  let html := trim value
  if html.isEmpty then resetDisplay else showReport (runChecks html)

/-- The loop of `applyAllFixes` over a given rule list, on the pair
`(currentHtml, fixedCount)`. -/
def applyAllFixesOn (rules : List Rule) (category : String) (html : Text) : Text × Nat :=
  rules.foldl
    (fun (st : Text × Nat) rule =>
      if rule.category == category then
        match rule.autoFix with
        | some autoFix =>
          let newHtml := autoFix st.1
          if newHtml ≠ st.1 then (newHtml, st.2 + 1) else st
        | none => st
      else st)
    (html, 0)

/-- The method `applyAllFixes` on the value of the text area: the value it
leaves in the text area (written only when `fixedCount > 0`) and `fixedCount`. -/
def applyAllFixes (category : String) (value : Text) : Text × Nat :=
  let st := applyAllFixesOn getAllRules category value
  (if st.2 > 0 then st.1 else value, st.2)

/-! ## Grades and quick fixes (`checker.js`) -/

/-- The object returned by `getGrade`. -/
structure Grade where
  grade : String
  color : String
deriving DecidableEq

/-- The method `getGrade`. -/
def getGrade (score : ℤ) : Grade :=
  if score ≥ 95 then ⟨"A+", "#10b981"⟩
  else if score ≥ 90 then ⟨"A", "#10b981"⟩
  else if score ≥ 85 then ⟨"A-", "#10b981"⟩
  else if score ≥ 80 then ⟨"B+", "#3b82f6"⟩
  else if score ≥ 75 then ⟨"B", "#3b82f6"⟩
  else if score ≥ 70 then ⟨"B-", "#3b82f6"⟩
  else if score ≥ 65 then ⟨"C+", "#f59e0b"⟩
  else if score ≥ 60 then ⟨"C", "#f59e0b"⟩
  else if score ≥ 55 then ⟨"C-", "#f59e0b"⟩
  else if score ≥ 50 then ⟨"D+", "#ef4444"⟩
  else if score ≥ 45 then ⟨"D", "#ef4444"⟩
  else if score ≥ 40 then ⟨"D-", "#ef4444"⟩
  else ⟨"F", "#dc2626"⟩

/-- A group pushed by `generateQuickFixes`. -/
structure QuickFix where
  category : String
  issues : List EvalResult
  priority : String

/-- The number written by a list of decimal digits. -/
def digitsValue (cs : List Char) : Nat := cs.foldl (fun n c => 10 * n + (c.toNat - 48)) 0

/-- Is the property key an array index: the canonical decimal form (digits only,
no leading zero) of an integer below `2^32 - 1`?  Such keys are enumerated first,
in numeric order. -/
def isArrayIndex (key : String) : Bool :=
  let cs := key.data
  !cs.isEmpty && cs.all (fun c => decide (48 ≤ c.toNat) && decide (c.toNat ≤ 57)) &&
    (cs.length == 1 || cs.head? != some '0') && decide (digitsValue cs < 4294967295)

/-- The body of the first `forEach` of `generateQuickFixes` on the object
`categories`, kept as its own properties in creation order.  For a key that is
not an own property, `categories[key]` is the member inherited from
`Object.prototype` when there is one: it is truthy, no array is created, and
calling its missing `push` raises a `TypeError`. -/
def pushIssue (categories : List (String × List EvalResult)) (result : EvalResult) :
    Except String (List (String × List EvalResult)) :=
  if categories.any (fun kv => kv.1 == result.category) then
    .ok (categories.map fun kv =>
      if kv.1 == result.category then (kv.1, kv.2 ++ [result]) else kv)
  else if objectPrototypeKeys.contains result.category then
    .error "TypeError: categories[result.category].push is not a function"
  else
    .ok (categories ++ [(result.category, [result])])

/-- Insertion of an entry among entries with array-index keys, by numeric value. -/
def insertIndexKey (kv : String × List EvalResult) :
    List (String × List EvalResult) → List (String × List EvalResult)
  | [] => [kv]
  | x :: rest =>
    if digitsValue kv.1.data ≤ digitsValue x.1.data then kv :: x :: rest
    else x :: insertIndexKey kv rest

/-- The call `Object.entries(obj)`: the array-index keys in ascending numeric
order, then the other keys in creation order. -/
def objectEntries (own : List (String × List EvalResult)) :
    List (String × List EvalResult) :=
  (own.filter fun kv => isArrayIndex kv.1).foldr insertIndexKey [] ++
    own.filter fun kv => !isArrayIndex kv.1

/-- The table `priorityOrder` of the comparator, on the three priorities. -/
def priorityOrder (priority : String) : ℤ :=
  if priority = "high" then 0 else if priority = "medium" then 1 else 2

/-- Insertion step of the stable sort: before the first element the comparator
does not put in front of the new one. -/
def insertFix (a : QuickFix) : List QuickFix → List QuickFix
  | [] => [a]
  | b :: rest =>
    if priorityOrder a.priority - priorityOrder b.priority ≤ 0 then a :: b :: rest
    else b :: insertFix a rest

/-- The call `fixes.sort(compare)`: `Array.prototype.sort` is stable. -/
def sortFixes (fixes : List QuickFix) : List QuickFix := fixes.foldr insertFix []

/-- The group built for one entry of `categories`. -/
def makeFix (kv : String × List EvalResult) : QuickFix :=
  { category := kv.1
    issues := kv.2
    priority :=
      if kv.2.any (fun i => i.level == "error") then "high"
      else if kv.2.any (fun i => i.level == "warning") then "medium"
      else "low" }

/-- The method `generateQuickFixes`. -/
def generateQuickFixes (results : List EvalResult) : Except String (List QuickFix) := do
  let categories ← (results.filter fun r => !r.passed).foldlM pushIssue []
  let fixes := ((objectEntries categories).filter fun kv => decide (kv.2.length > 0)).map makeFix
  pure (sortFixes fixes)

/-! ## The formatter (`checker.js`, `formatHTML`) -/

/-- Worker of `splitRe`: `cur` is the piece collected since the end of the last
separator, `skip` code units of the last separator are still to be passed over.  A
separator that is empty and starts the piece is not a split point. -/
def splitReGo (r : RegExp) : Nat → Text → Option Char → Text → List Text
  | _, cur, _, [] => [cur]
  | skip + 1, cur, _, c :: s => splitReGo r skip cur (some c) s
  | 0, cur, prev, c :: s =>
    match execAt r prev (c :: s) with
    | none => splitReGo r 0 (cur ++ [c]) (some c) s
    | some (rest, _) =>
      let n := (c :: s).length - rest.length
      if n = 0 then
        if cur.isEmpty then splitReGo r 0 (cur ++ [c]) (some c) s
        else cur :: splitReGo r 0 [c] (some c) s
      else cur :: splitReGo r (n - 1) [] (some c) s

/-- The call `s.split(re)` for a pattern without capture groups. -/
def splitRe (r : RegExp) (s : Text) : List Text :=
  if s.isEmpty then
    if (execAt r none []).isSome then [] else [[]]
  else splitReGo r 0 [] none s

/-- The method `String.prototype.repeat`: a negative count raises a `RangeError`. -/
def jsRepeat (s : Text) (count : ℤ) : Except String Text :=
  if count < 0 then .error ("RangeError: Invalid count value: " ++ toString count)
  else .ok (List.replicate count.toNat s).flatten

/-- The method `Array.prototype.join` on texts. -/
def joinText (sep : Text) : List Text → Text
  | [] => []
  | [a] => a
  | a :: b :: rest => a ++ sep ++ joinText sep (b :: rest)

/-- The pattern `/>\s*</` at which `formatHTML` splits. -/
def tagGapRe : RegExp := ⟨Re.cat [Re.str ">", Re.ws, Re.str "<"], false⟩

/-- The pattern `/^\/[a-z]/i`: the line is a closing tag. -/
def closingLineRe : RegExp := ⟨Re.cat [.bos, Re.str "/", .set (.range 'a' 'z')], true⟩

/-- The pattern `/^[^\/][a-z].*[^\/]$/i`: the line is an opening tag. -/
def openingLineRe : RegExp :=
  ⟨Re.cat [.bos, .set (CSet.noneOf ['/']), .set (.range 'a' 'z'), Re.star (.set .dot),
      .set (CSet.noneOf ['/']), .eos], true⟩

/-- The pattern `/^(img|br|hr|meta|link|input)/i`: the tag is a void element. -/
def voidLineRe : RegExp :=
  ⟨Re.cat [.bos, .group 1 (.alt (Re.str "img") (.alt (Re.str "br") (.alt (Re.str "hr")
      (.alt (Re.str "meta") (.alt (Re.str "link") (Re.str "input"))))))], true⟩

/-- The callback of `lines.map` in `formatHTML` at index `i` of `n` lines: the
formatted line and the value of `indent` afterwards. -/
def formatLine (n : Nat) (indent : ℤ) (i : Nat) (line : Text) : Except String (Text × ℤ) :=
  if i = 0 then .ok (line, indent)
  else if i = n - 1 then do
    let pad ← jsRepeat (txt "  ") indent
    pure (pad ++ line, indent)
  else do
    let indent1 := if regexTest closingLineRe line then indent - 1 else indent
    let pad ← jsRepeat (txt "  ") indent1
    let result := pad ++ txt "<" ++ line ++ txt ">"
    let indent2 :=
      if regexTest openingLineRe line && !regexTest voidLineRe line then indent1 + 1
      else indent1
    pure (result, indent2)

/-- The call `lines.map(...)` of `formatHTML`, from index `i` on. -/
def formatLines (n : Nat) : Nat → ℤ → List Text → Except String (List Text)
  | _, _, [] => .ok []
  | i, indent, line :: rest => do
    let out ← formatLine n indent i line
    let outs ← formatLines n (i + 1) out.2 rest
    pure (out.1 :: outs)

/-- The method `formatHTML`. -/
def formatHTML (html : Text) : Except String Text :=
  let indent : ℤ := 0
  let lines := splitRe tagGapRe html
  if lines.length > 1 then do
    let outs ← formatLines lines.length 0 indent lines
    pure (joinText [nl] outs)
  else .ok html

/-! ## Specification-side definitions -/

/-- The severity multiplier as the specification words it. -/
def specMultiplier (level : String) : ℚ :=
  if level = "error" then 0.8
  else if level = "warning" then 0.5
  else if level = "info" then 0.2
  else 0.3

/-- The penalty sum of the specification: over the failed results only, the sum of
`weight × multiplier(level)`. -/
def specPenalty (results : List EvalResult) : ℚ :=
  ((results.filter fun r => r.passed = false).map fun r => r.weight * specMultiplier r.level).sum

/-- The score of the specification in exact arithmetic: `max(0, round(100 - S))`. -/
def specScore (results : List EvalResult) : ℤ := max 0 (round (100 - specPenalty results))

/-- The penalty of a failed result as a double: the product `weight × multiplier`. -/
def numberPenalty (r : EvalResult) : ℚ := toNumber (r.weight * toNumber (specMultiplier r.level))

/-- The penalty sum in double arithmetic: over the failed results only, in list
order, every addition rounded to a double. -/
def numberLost (results : List EvalResult) : ℚ :=
  ((results.filter fun r => r.passed = false).map numberPenalty).foldl
    (fun lost penalty => toNumber (lost + penalty)) 0

/-- The fixes of a category: the `autoFix` of every rule of the list whose category
is the given one and that defines an `autoFix`, in list order. -/
def categoryFixes (rules : List Rule) (category : String) : List (Text → Text) :=
  rules.filterMap fun r => if r.category == category then r.autoFix else none

/-- The text folded through a list of fixes, one after the other. -/
def foldFixes (fixes : List (Text → Text)) (t : Text) : Text :=
  fixes.foldl (fun cur fix => fix cur) t

/-- The number of steps of the fold whose output differs from their input. -/
def changedSteps : List (Text → Text) → Text → Nat
  | [], _ => 0
  | fix :: rest, t => (if fix t ≠ t then 1 else 0) + changedSteps rest (fix t)

/-- Is the looked-up value `undefined`? -/
def Lookup.isUndefined : Lookup → Bool
  | .undefined => true
  | _ => false


/-- The ordered grade table of the specification: grade and lower bound. -/
def gradeTable : List (String × ℤ) :=
  [("A+", 95), ("A", 90), ("A-", 85), ("B+", 80), ("B", 75), ("B-", 70), ("C+", 65),
   ("C", 60), ("C-", 55), ("D+", 50), ("D", 45), ("D-", 40)]

/-- The grade of the specification: the first entry of the table whose bound the
score meets, and `F` when there is none. -/
def specGrade (score : ℤ) : String :=
  match gradeTable.find? (fun e => decide (e.2 ≤ score)) with
  | some e => e.1
  | none => "F"

/-- Does the rule evaluate on the document: neither its test nor the resolution of
its message raises? -/
def evaluates (rule : Rule) (s : Text) : Bool :=
  match rule.test s with
  | .error _ => false
  | .ok passed =>
    match resolveMessage rule.message passed s with
    | .error _ => false
    | .ok _ => true

/-- A rule whose test always raises, for sample runs. -/
def raisingRule : Rule where
  id := "raising"
  category := "compatibility"
  weight := 10
  level := "error"
  description := "A test that raises"
  test := fun _ => .error "Error: boom"
  message := .static "unreachable"
  fix := none
  autoFix := none

/-- The quoted value of a matched attribute: what stands between the first quote
and the closing quote that ends the match. -/
def quotedValue (attr : Text) : Text :=
  ((attr.dropWhile fun c => c != dq && c != sq).drop 1).dropLast

/-- The number of matched `style` attributes whose quoted value is not empty. -/
def nonEmptyStyleCount (s : Text) : Nat :=
  ((matchAll styleAttrRe s).filter fun m => !(quotedValue m.text).isEmpty).length

/-- The distinct elements of a list in the order of their first occurrence. -/
def firstOccurrences : List String → List String
  | [] => []
  | c :: cs => c :: (firstOccurrences cs).filter (fun x => x != c)

/-- The categories that have at least one failed result, in the order in which they
first occur among the failed results. -/
def failedCategories (results : List EvalResult) : List String :=
  firstOccurrences ((results.filter fun r => !r.passed).map (·.category))

/-- The priority of a group as the specification words it. -/
def specPriority (issues : List EvalResult) : String :=
  if ∃ i ∈ issues, i.level = "error" then "high"
  else if ∃ i ∈ issues, i.level = "warning" then "medium"
  else "low"

/-- The group of a category as the specification words it: the failed results of the
category in their original order, with the priority they call for. -/
def specGroup (results : List EvalResult) (category : String) : QuickFix :=
  { category := category
    issues := results.filter fun r => !r.passed && r.category == category
    priority := specPriority (results.filter fun r => !r.passed && r.category == category) }

/-- A sample evaluation result with the given identifier, category, level and
outcome. -/
def sampleResult (id category level : String) (passed : Bool) : EvalResult :=
  { id := id, rule := doctypeRequired, passed := passed, message := "", level := level,
    weight := 1, category := category, fix := none, hasAutoFix := false }

/-- The step of `pushIssue` when nothing is raised. -/
def pushOk (categories : List (String × List EvalResult)) (result : EvalResult) :
    List (String × List EvalResult) :=
  if categories.any (fun kv => kv.1 == result.category) then
    categories.map fun kv =>
      if kv.1 == result.category then (kv.1, kv.2 ++ [result]) else kv
  else categories ++ [(result.category, [result])]

/-- Does the text start with the pattern, letter case apart? -/
def startsWithCI : Text → Text → Bool
  | _, [] => true
  | [], _ :: _ => false
  | c :: s, p :: ps => canon c == canon p && startsWithCI s ps

/-- Does the text contain the pattern in any letter case? -/
def includesCI : Text → Text → Bool
  | [], p => startsWithCI [] p
  | c :: s, p => startsWithCI (c :: s) p || includesCI s p

/-- The previous code unit after the text `u` has been passed over. -/
def lastOr (q : Option Char) (u : Text) : Option Char :=
  match u.getLast? with
  | some c => some c
  | none => q

/-- The check of one `<img>` tag as the specification words it: a quoted `src` that
starts with `https://`, is a `data:` URI, or is protocol-relative. -/
def specSecureSrc (imgTag : Text) : Bool :=
  match jsMatch ⟨Re.attrCap "src" "", true⟩ imgTag with
  | some srcMatch =>
    startsWith (srcMatch.cap 1) (txt "https://") || startsWith (srcMatch.cap 1) (txt "data:") ||
      startsWith (srcMatch.cap 1) (txt "//")
  | none => false

/-- The secure-images test as the specification words it. -/
def specSecureImages (s : Text) : Bool :=
  let imgs := matchAll imgTagRe s
  decide (imgs.length = 0) ||
    decide (4 * imgs.length ≤ 5 * (imgs.filter fun t => specSecureSrc t.text).length)

/-- Does the tag carry an attribute `name` with a value, quoted or not: white space,
the name and `=`, as the specification words it. -/
def specHasAttr (name : String) (imgTag : Text) : Bool :=
  regexTest ⟨Re.cat [Re.ws1, Re.str name, Re.ws, Re.str "="], true⟩ imgTag

/-- The img-dimensions test as the specification words it. -/
def specImgDimensions (s : Text) : Bool :=
  let imgs := matchAll imgTagRe s
  decide (imgs.length = 0) ||
    decide (7 * imgs.length ≤
      10 * (imgs.filter fun t => specHasAttr "width" t.text && specHasAttr "height" t.text).length)

/-- The penalty of a rule when it fails. -/
def rulePenalty (rule : Rule) : ℚ := rule.weight * getSeverityMultiplier rule.level

/-- A failed evaluation result with a given weight and level. -/
def failedResult (weight : ℚ) (level : String) : EvalResult :=
  { id := "sample", rule := doctypeRequired, passed := false, message := "", level := level,
    weight := weight, category := "compatibility", fix := none, hasAutoFix := false }

/-- The sum of `calculateScore` after one more failed rule. -/
def addPenalty (lost : ℚ) (rule : Rule) : ℚ :=
  toNumber (lost + toNumber (rule.weight * toNumber (getSeverityMultiplier rule.level)))

/-- The sum of `calculateScore` when every rule of the list fails, from `lost` on. -/
def lostAll (lost : ℚ) (rules : List Rule) : ℚ := rules.foldl addPenalty lost

/-- Does the sum of `calculateScore` never decrease while the rules of the list fail
one after the other? -/
def lostGrows : ℚ → List Rule → Bool
  | _, [] => true
  | lost, rule :: rest =>
    decide (lost ≤ addPenalty lost rule) && lostGrows (addPenalty lost rule) rest

/-! ## Ways to match (proof-side view of the matcher) -/

/-- A way for a term to match: `Accepts ci r p s p1 s1` says that `r`, started
with previous code unit `p` and remaining text `s`, can stop with previous code
unit `p1` and remaining text `s1`. -/
inductive Accepts (ci : Bool) : Re → Option Char → Text → Option Char → Text → Prop where
  | eps (p : Option Char) (s : Text) : Accepts ci .eps p s p s
  | set (cs : CSet) (p : Option Char) (c : Char) (s : Text) :
      cs.mem ci c = true → Accepts ci (.set cs) p (c :: s) (some c) s
  | seq {a b : Re} {p p1 p2 : Option Char} {s s1 s2 : Text} :
      Accepts ci a p s p1 s1 → Accepts ci b p1 s1 p2 s2 → Accepts ci (.seq a b) p s p2 s2
  | altL {a : Re} (b : Re) {p p1 : Option Char} {s s1 : Text} :
      Accepts ci a p s p1 s1 → Accepts ci (.alt a b) p s p1 s1
  | altR (a : Re) {b : Re} {p p1 : Option Char} {s s1 : Text} :
      Accepts ci b p s p1 s1 → Accepts ci (.alt a b) p s p1 s1
  | repDone (g : Bool) (max : Option Nat) (r : Re) (p : Option Char) (s : Text) :
      Accepts ci (.rep g 0 max r) p s p s
  | repStep {g : Bool} {min : Nat} {max : Option Nat} {r : Re} {p p1 p2 : Option Char}
      {s s1 s2 : Text} :
      max ≠ some 0 → Accepts ci r p s p1 s1 → (min = 0 → s1.length ≠ s.length) →
      Accepts ci (.rep g (min - 1) (max.map (· - 1)) r) p1 s1 p2 s2 →
      Accepts ci (.rep g min max r) p s p2 s2
  | group (i : Nat) {r : Re} {p p1 : Option Char} {s s1 : Text} :
      Accepts ci r p s p1 s1 → Accepts ci (.group i r) p s p1 s1
  | repMax (g : Bool) (min : Nat) (r : Re) (p : Option Char) (s : Text) :
      Accepts ci (.rep g min (some 0) r) p s p s
  | notAhead (r : Re) (p : Option Char) (s : Text) :
      (∀ caps, matchRe r ci p s caps (fun _ s1 c1 => some (s1, c1)) = none) →
      Accepts ci (.notAhead r) p s p s
  | wordB (p : Option Char) (s : Text) :
      ((match p with
        | some c => isWordChar c
        | none => false) !=
       (match s with
        | c :: _ => isWordChar c
        | [] => false)) = true → Accepts ci .wordB p s p s
  | bos (s : Text) : Accepts ci .bos none s none s
  | eos (p : Option Char) : Accepts ci .eos p [] p []

/-- Terms without lookahead, word boundary or anchors: whether they match depends
on the consumed text alone. -/
def Re.pure : Re → Bool
  | .eps => true
  | .set _ => true
  | .seq a b => a.pure && b.pure
  | .alt a b => a.pure && b.pure
  | .rep _ _ _ r => r.pure
  | .group _ r => r.pure
  | .notAhead _ => false
  | .wordB => false
  | .bos => false
  | .eos => false

/-! # Theorems -/

/-! ## Text lemmas -/

theorem startsWith_iff (s p : Text) : startsWith s p = true ↔ ∃ b, s = p ++ b := by
  induction p generalizing s with
  | nil => simp [startsWith]
  | cons x xs ih =>
    cases s with
    | nil => simp [startsWith]
    | cons c s =>
      simp only [startsWith, Bool.and_eq_true, beq_iff_eq, ih, List.cons_append, List.cons.injEq]
      constructor
      · rintro ⟨rfl, b, rfl⟩
        exact ⟨b, rfl, rfl⟩
      · rintro ⟨b, rfl, rfl⟩
        exact ⟨rfl, b, rfl⟩

theorem includes_iff (s p : Text) : includes s p = true ↔ ∃ a b, s = a ++ (p ++ b) := by
  induction s with
  | nil =>
    simp only [includes, startsWith_iff]
    constructor
    · rintro ⟨b, h⟩
      exact ⟨[], b, by simpa using h⟩
    · rintro ⟨a, b, h⟩
      have h1 := congrArg List.length h
      simp only [List.length_nil, List.length_append] at h1
      have ha : a = [] := List.length_eq_zero.mp (by omega)
      subst ha
      exact ⟨b, by simpa using h⟩
  | cons c s ih =>
    simp only [includes, Bool.or_eq_true, startsWith_iff, ih]
    constructor
    · rintro (⟨b, h⟩ | ⟨a, b, h⟩)
      · exact ⟨[], b, by simpa using h⟩
      · exact ⟨c :: a, b, by simp [h]⟩
    · rintro ⟨a, b, h⟩
      cases a with
      | nil => exact Or.inl ⟨b, by simpa using h⟩
      | cons x a =>
        simp only [List.cons_append, List.cons.injEq] at h
        exact Or.inr ⟨a, b, h.2⟩

theorem includes_append_left (a s p : Text) (h : includes s p = true) :
    includes (a ++ s) p = true := by
  rw [includes_iff] at h ⊢
  obtain ⟨x, y, rfl⟩ := h
  exact ⟨a ++ x, y, by simp⟩

theorem includes_append_right (s b p : Text) (h : includes s p = true) :
    includes (s ++ b) p = true := by
  rw [includes_iff] at h ⊢
  obtain ⟨x, y, rfl⟩ := h
  exact ⟨x, y ++ b, by simp⟩

theorem replaceFirst_of_includes (p r s : Text) (h : includes s p = true) :
    ∃ a b, replaceFirst p r s = a ++ (r ++ b) := by
  induction s with
  | nil =>
    have hp : p = [] := by
      cases p with
      | nil => rfl
      | cons x xs => simp [includes, startsWith] at h
    subst hp
    exact ⟨[], [], by simp [replaceFirst]⟩
  | cons c s ih =>
    unfold replaceFirst
    split
    · exact ⟨[], (c :: s).drop p.length, by simp⟩
    · rename_i hs
      simp only [includes, Bool.or_eq_true, hs, Bool.false_eq_true, false_or] at h
      obtain ⟨a, b, hab⟩ := ih h
      exact ⟨c :: a, b, by simp [hab]⟩

/-! ## Matcher lemmas -/

theorem Accepts.length_le {ci : Bool} {r : Re} {p p1 : Option Char} {s s1 : Text}
    (h : Accepts ci r p s p1 s1) : s1.length ≤ s.length := by
  induction h with
  | eps => exact le_refl _
  | set => simp
  | seq _ _ iha ihb => exact le_trans ihb iha
  | altL _ _ ih => exact ih
  | altR _ _ ih => exact ih
  | repDone => exact le_refl _
  | repStep _ _ _ _ ih1 ih2 => exact le_trans ih2 ih1
  | group _ _ ih => exact ih
  | repMax => exact le_refl _
  | notAhead => exact le_refl _
  | wordB => exact le_refl _
  | bos => exact le_refl _
  | eos => exact le_refl _

/-- Completeness of the matcher for existence: when a term can match up to a point
from which the continuation succeeds, the matcher succeeds. -/
theorem matchRe_complete {ci : Bool} {r : Re} {p p1 : Option Char} {s s1 : Text}
    (h : Accepts ci r p s p1 s1) :
    (∀ caps k, (∀ caps1, (k p1 s1 caps1).isSome = true) →
      (matchRe r ci p s caps k).isSome = true) ∧
    (∀ g min max r0, r = .rep g min max r0 → ∀ fuel, min + s.length + 1 ≤ fuel →
      ∀ caps k, (∀ caps1, (k p1 s1 caps1).isSome = true) →
        (repGo (matchRe r0 ci) g fuel min max p s caps k).isSome = true) := by
  induction h with
  | eps p s =>
    exact ⟨fun caps k hk => by simpa [matchRe] using hk caps, fun _ _ _ _ h => by cases h⟩
  | set cs p c s hc =>
    exact ⟨fun caps k hk => by simpa [matchRe, hc] using hk caps, fun _ _ _ _ h => by cases h⟩
  | @seq a b p p1 p2 s s1 s2 _ _ iha ihb =>
    refine ⟨fun caps k hk => ?_, fun _ _ _ _ h => by cases h⟩
    simp only [matchRe]
    exact iha.1 caps _ (fun caps1 => ihb.1 caps1 k hk)
  | @altL a b p p1 s s1 _ ih =>
    refine ⟨fun caps k hk => ?_, fun _ _ _ _ h => by cases h⟩
    have := ih.1 caps k hk
    simp only [matchRe]
    cases hm : matchRe a ci p s caps k with
    | none => simp [hm] at this
    | some x => simp
  | @altR a b p p1 s s1 _ ih =>
    refine ⟨fun caps k hk => ?_, fun _ _ _ _ h => by cases h⟩
    simp only [matchRe]
    cases hm : matchRe a ci p s caps k with
    | none => simpa using ih.1 caps k hk
    | some x => simp
  | repDone g max r p s =>
    have key : ∀ fuel, 0 + s.length + 1 ≤ fuel → ∀ caps k,
        (∀ caps1, (k p s caps1).isSome = true) →
        (repGo (matchRe r ci) g fuel 0 max p s caps k).isSome = true := by
      intro fuel hf caps k hk
      cases fuel with
      | zero => omega
      | succ n =>
        simp only [repGo]
        split_ifs with h1 h2 h3
        · exact hk caps
        · exact absurd rfl h2
        · cases hb : matchRe r ci p s caps _ with
          | none => simpa using hk caps
          | some x => simp
        · cases hb : k p s caps with
          | none => have := hk caps; simp [hb] at this
          | some x => simp
    refine ⟨fun caps k hk => ?_, ?_⟩
    · simp only [matchRe]
      exact key _ (by omega) caps k hk
    · intro g1 min1 max1 r1 he
      cases he
      exact key
  | @repStep g min max r p p1 p2 s s1 s2 hmax hbody hne hrest ihb ihr =>
    have hlen := hbody.length_le
    have key : ∀ fuel, min + s.length + 1 ≤ fuel → ∀ caps k,
        (∀ caps1, (k p2 s2 caps1).isSome = true) →
        (repGo (matchRe r ci) g fuel min max p s caps k).isSome = true := by
      intro fuel hf caps k hk
      cases fuel with
      | zero => omega
      | succ n =>
        let d : MCont := fun q1 t1 c1 =>
            if min = 0 ∧ t1.length = s.length then none
            else repGo (matchRe r ci) g n (min - 1) (max.map (· - 1)) q1 t1 c1 k
        have hd : ∀ caps1, (d p1 s1 caps1).isSome = true := by
          intro caps1
          have hcond : ¬ (min = 0 ∧ s1.length = s.length) := fun hc => hne hc.1 hc.2
          simp only [d, hcond, if_false]
          refine ihr.2 g (min - 1) (max.map (· - 1)) r rfl n ?_ caps1 k hk
          by_cases h0 : min = 0
          · have := hne h0
            omega
          · omega
        have hb := ihb.1 caps d hd
        simp only [repGo]
        split_ifs with h1 h2 h3
        · exact absurd h1 hmax
        · exact hb
        · cases hx : matchRe r ci p s caps _ with
          | none => simp [hx] at hb
          | some x => simp
        · cases hx : k p s caps with
          | none => simpa using hb
          | some x => simp
    refine ⟨fun caps k hk => ?_, ?_⟩
    · simp only [matchRe]
      exact key _ (by omega) caps k hk
    · intro g1 min1 max1 r1 he
      cases he
      exact key
  | @group i r p p1 s s1 _ ih =>
    refine ⟨fun caps k hk => ?_, fun _ _ _ _ h => by cases h⟩
    simp only [matchRe]
    exact ih.1 caps _ (fun caps1 => hk _)
  | repMax g min r p s =>
    have key : ∀ fuel, min + s.length + 1 ≤ fuel → ∀ caps k,
        (∀ caps1, (k p s caps1).isSome = true) →
        (repGo (matchRe r ci) g fuel min (some 0) p s caps k).isSome = true := by
      intro fuel hf caps k hk
      cases fuel with
      | zero => omega
      | succ n =>
        simp only [repGo, if_true]
        exact hk caps
    refine ⟨fun caps k hk => ?_, ?_⟩
    · simp only [matchRe]
      exact key _ (by omega) caps k hk
    · intro g1 min1 max1 r1 he
      cases he
      exact key
  | notAhead r p s hn =>
    refine ⟨fun caps k hk => ?_, fun _ _ _ _ h => by cases h⟩
    simp only [matchRe, hn caps]
    exact hk caps
  | wordB p s hw =>
    refine ⟨fun caps k hk => ?_, fun _ _ _ _ h => by cases h⟩
    simp only [matchRe, hw, if_true]
    exact hk caps
  | bos s =>
    refine ⟨fun caps k hk => ?_, fun _ _ _ _ h => by cases h⟩
    simp only [matchRe, Option.isNone_none, if_true]
    exact hk caps
  | eos p =>
    refine ⟨fun caps k hk => ?_, fun _ _ _ _ h => by cases h⟩
    simp only [matchRe, List.isEmpty_nil, if_true]
    exact hk caps

theorem repGo_sound {ci : Bool} {r : Re} (g : Bool)
    (hbody : ∀ p s caps k res, matchRe r ci p s caps k = some res →
      ∃ p1 s1 caps1, Accepts ci r p s p1 s1 ∧ k p1 s1 caps1 = some res) :
    ∀ fuel min max p s caps k res,
      repGo (matchRe r ci) g fuel min max p s caps k = some res →
      ∃ p1 s1 caps1, Accepts ci (.rep g min max r) p s p1 s1 ∧ k p1 s1 caps1 = some res := by
  intro fuel
  induction fuel with
  | zero => intro min max p s caps k res h; simp [repGo] at h
  | succ n ih =>
    intro min max p s caps k res h
    have step : ∀ res1, matchRe r ci p s caps (fun q1 t1 c1 =>
          if min = 0 ∧ t1.length = s.length then none
          else repGo (matchRe r ci) g n (min - 1) (max.map (· - 1)) q1 t1 c1 k) = some res1 →
        max ≠ some 0 →
        ∃ p1 s1 caps1, Accepts ci (.rep g min max r) p s p1 s1 ∧ k p1 s1 caps1 = some res1 := by
      intro res1 hb hmax
      obtain ⟨q1, t1, c1, hacc, hd⟩ := hbody _ _ _ _ _ hb
      by_cases hcond : min = 0 ∧ t1.length = s.length
      · simp [hcond] at hd
      · simp only [hcond, if_false] at hd
        obtain ⟨p2, s2, c2, hrest, hk⟩ := ih _ _ _ _ _ _ _ hd
        exact ⟨p2, s2, c2, Accepts.repStep hmax hacc (fun h0 hl => hcond ⟨h0, hl⟩) hrest, hk⟩
    simp only [repGo] at h
    split_ifs at h with h1 h2 h3
    · subst h1
      exact ⟨p, s, caps, Accepts.repMax g min r p s, h⟩
    · exact step res h h1
    · have h0 : min = 0 := by simpa using h2
      subst h0
      revert h
      cases hx : matchRe r ci p s caps _ with
      | none =>
        intro h
        exact ⟨p, s, caps, Accepts.repDone g max r p s, h⟩
      | some x =>
        intro h
        simp only [Option.some.injEq] at h
        subst h
        exact step x hx h1
    · have h0 : min = 0 := by simpa using h2
      subst h0
      revert h
      cases hx : k p s caps with
      | none =>
        intro h
        exact step res h h1
      | some x =>
        intro h
        simp only [Option.some.injEq] at h
        subst h
        exact ⟨p, s, caps, Accepts.repDone g max r p s, hx⟩

/-- Soundness of the matcher on pure terms: a success comes from a way to match. -/
theorem matchRe_sound {ci : Bool} (r : Re) (hp : r.pure = true) :
    ∀ p s caps k res, matchRe r ci p s caps k = some res →
      ∃ p1 s1 caps1, Accepts ci r p s p1 s1 ∧ k p1 s1 caps1 = some res := by
  induction r with
  | eps =>
    intro p s caps k res h
    exact ⟨p, s, caps, Accepts.eps p s, by simpa [matchRe] using h⟩
  | set cs =>
    intro p s caps k res h
    cases s with
    | nil => simp [matchRe] at h
    | cons c t =>
      simp only [matchRe] at h
      split_ifs at h with hc
      exact ⟨some c, t, caps, Accepts.set cs p c t hc, h⟩
  | seq a b iha ihb =>
    intro p s caps k res h
    simp only [Re.pure, Bool.and_eq_true] at hp
    simp only [matchRe] at h
    obtain ⟨p1, s1, c1, ha, h1⟩ := iha hp.1 _ _ _ _ _ h
    obtain ⟨p2, s2, c2, hb, h2⟩ := ihb hp.2 _ _ _ _ _ h1
    exact ⟨p2, s2, c2, Accepts.seq ha hb, h2⟩
  | alt a b iha ihb =>
    intro p s caps k res h
    simp only [Re.pure, Bool.and_eq_true] at hp
    simp only [matchRe] at h
    revert h
    cases hx : matchRe a ci p s caps k with
    | none =>
      intro h
      obtain ⟨p1, s1, c1, hb, h1⟩ := ihb hp.2 _ _ _ _ _ h
      exact ⟨p1, s1, c1, Accepts.altR a hb, h1⟩
    | some x =>
      intro h
      simp only [Option.some.injEq] at h
      subst h
      obtain ⟨p1, s1, c1, ha, h1⟩ := iha hp.1 _ _ _ _ _ hx
      exact ⟨p1, s1, c1, Accepts.altL b ha, h1⟩
  | rep g min max r ih =>
    intro p s caps k res h
    simp only [Re.pure] at hp
    simp only [matchRe] at h
    exact repGo_sound g (ih hp) _ _ _ _ _ _ _ _ h
  | group i r ih =>
    intro p s caps k res h
    simp only [Re.pure] at hp
    simp only [matchRe] at h
    obtain ⟨p1, s1, c1, ha, h1⟩ := ih hp _ _ _ _ _ h
    exact ⟨p1, s1, _, Accepts.group i ha, h1⟩
  | notAhead r _ => simp [Re.pure] at hp
  | wordB => simp [Re.pure] at hp
  | bos => simp [Re.pure] at hp
  | eos => simp [Re.pure] at hp

/-- A way for a pure term to match stays one when text is appended and the
previous code unit changes. -/
theorem Accepts.extend {ci : Bool} {r : Re} {p p1 : Option Char} {s s1 : Text}
    (h : Accepts ci r p s p1 s1) (b : Text) :
    r.pure = true → ∀ q, ∃ q1, Accepts ci r q (s ++ b) q1 (s1 ++ b) := by
  induction h with
  | eps p s => exact fun _ q => ⟨q, Accepts.eps q _⟩
  | set cs p c s hc => exact fun _ q => ⟨some c, Accepts.set cs q c (s ++ b) hc⟩
  | seq _ _ iha ihb =>
    intro hp q
    simp only [Re.pure, Bool.and_eq_true] at hp
    obtain ⟨q1, h1⟩ := iha hp.1 q
    obtain ⟨q2, h2⟩ := ihb hp.2 q1
    exact ⟨q2, Accepts.seq h1 h2⟩
  | altL b1 _ ih =>
    intro hp q
    simp only [Re.pure, Bool.and_eq_true] at hp
    obtain ⟨q1, h1⟩ := ih hp.1 q
    exact ⟨q1, Accepts.altL b1 h1⟩
  | altR a1 _ ih =>
    intro hp q
    simp only [Re.pure, Bool.and_eq_true] at hp
    obtain ⟨q1, h1⟩ := ih hp.2 q
    exact ⟨q1, Accepts.altR a1 h1⟩
  | repDone g max r p s => exact fun _ q => ⟨q, Accepts.repDone g max r q _⟩
  | repStep hmax _ hne _ ih1 ih2 =>
    intro hp q
    simp only [Re.pure] at hp
    obtain ⟨q1, h1⟩ := ih1 hp q
    obtain ⟨q2, h2⟩ := ih2 (by simpa [Re.pure] using hp) q1
    refine ⟨q2, Accepts.repStep hmax h1 (fun h0 => ?_) h2⟩
    have := hne h0
    simp only [List.length_append]
    omega
  | group i _ ih =>
    intro hp q
    simp only [Re.pure] at hp
    obtain ⟨q1, h1⟩ := ih hp q
    exact ⟨q1, Accepts.group i h1⟩
  | repMax g min r p s => exact fun _ q => ⟨q, Accepts.repMax g min r q _⟩
  | notAhead r p s _ => intro hp; simp [Re.pure] at hp
  | wordB p s _ => intro hp; simp [Re.pure] at hp
  | bos s => intro hp; simp [Re.pure] at hp
  | eos p => intro hp; simp [Re.pure] at hp

theorem execAt_isSome_of_accepts (r : RegExp) {p p1 : Option Char} {s s1 : Text}
    (h : Accepts r.ignoreCase r.re p s p1 s1) : (execAt r p s).isSome = true :=
  (matchRe_complete h).1 [] _ (fun _ => rfl)

theorem searchFrom_isSome_append (r : RegExp) (a s2 : Text)
    (h : ∀ q, (execAt r q s2).isSome = true) :
    ∀ p, (searchFrom r p (a ++ s2)).isSome = true := by
  induction a with
  | nil =>
    intro p
    have hp := h p
    cases s2 with
    | nil =>
      simp only [List.append_nil, searchFrom]
      cases hx : execAt r p [] with
      | none => simp [hx] at hp
      | some x => rfl
    | cons c t =>
      simp only [List.nil_append, searchFrom]
      cases hx : execAt r p (c :: t) with
      | none => simp [hx] at hp
      | some x => rfl
  | cons c a ih =>
    intro p
    simp only [List.cons_append, searchFrom]
    cases hx : execAt r p (c :: (a ++ s2)) with
    | none => exact ih (some c)
    | some x => rfl

/-- A pure pattern that matches at the start of a piece of text is found in every
document that contains the piece. -/
theorem regexTest_of_piece (r : RegExp) (hp : r.re.pure = true) (piece : Text)
    (h : (execAt r none piece).isSome = true) (a b : Text) :
    regexTest r (a ++ (piece ++ b)) = true := by
  unfold regexTest
  apply searchFrom_isSome_append
  intro q
  cases hx : execAt r none piece with
  | none => simp [hx] at h
  | some res =>
    obtain ⟨p1, s1, _, hacc, _⟩ := matchRe_sound r.re hp _ _ _ _ _ hx
    obtain ⟨q1, hq⟩ := hacc.extend b hp q
    exact execAt_isSome_of_accepts r hq


/-! ## Scoring lemmas -/

theorem getSeverityMultiplier_eq_spec (level : String) :
    getSeverityMultiplier level = specMultiplier level := by
  unfold getSeverityMultiplier specMultiplier
  split_ifs <;> norm_num

theorem getSeverityMultiplier_nonneg (level : String) : 0 ≤ getSeverityMultiplier level := by
  unfold getSeverityMultiplier
  split_ifs <;> norm_num

theorem jsRound_eq_round (x : ℚ) : jsRound x = round x := by
  unfold jsRound
  rw [round_eq]

theorem specPenalty_nonneg (results : List EvalResult)
    (h : ∀ r ∈ results, 0 ≤ r.weight) : 0 ≤ specPenalty results := by
  unfold specPenalty
  apply List.sum_nonneg
  intro x hx
  simp only [List.mem_map, List.mem_filter] at hx
  obtain ⟨r, ⟨hr, _⟩, rfl⟩ := hx
  rw [← getSeverityMultiplier_eq_spec]
  exact mul_nonneg (h r hr) (getSeverityMultiplier_nonneg _)

/-! ## Doubles -/

theorem bitLenGo_zero (fuel : Nat) : bitLenGo fuel 0 = 0 := by
  cases fuel <;> simp [bitLenGo]

theorem bitLenGo_spec : ∀ (fuel n : Nat), n ≤ fuel → n ≠ 0 →
    ∃ b, bitLenGo fuel n = b + 1 ∧ 2 ^ b ≤ n ∧ n < 2 ^ (b + 1) := by
  intro fuel
  induction fuel with
  | zero => intro n h1 h2; omega
  | succ fuel ih =>
    intro n h1 h2
    simp only [bitLenGo, h2, if_false]
    by_cases h3 : n / 2 = 0
    · refine ⟨0, by rw [h3, bitLenGo_zero], ?_, ?_⟩ <;> omega
    · obtain ⟨b, hb, hlo, hhi⟩ := ih (n / 2) (by omega) h3
      refine ⟨b + 1, by rw [hb], ?_, ?_⟩
      · rw [pow_succ]; omega
      · rw [pow_succ]; omega

theorem bitLen_spec (n : Nat) (h : n ≠ 0) :
    ∃ b, bitLen n = b + 1 ∧ 2 ^ b ≤ n ∧ n < 2 ^ (b + 1) :=
  bitLenGo_spec n n (le_refl _) h

theorem two_zpow_pos (k : ℤ) : (0 : ℚ) < 2 ^ k := zpow_pos (by norm_num) k

theorem two_zpow_mono {m n : ℤ} (h : m ≤ n) : (2 : ℚ) ^ m ≤ 2 ^ n :=
  zpow_le_zpow_right₀ (by norm_num) h

/-- The binary exponent brackets a positive rational between two powers of two. -/
theorem binExp_spec (x : ℚ) (hx : 0 < x) :
    (2 : ℚ) ^ binExp x ≤ x ∧ x < 2 ^ (binExp x + 1) := by
  have hnum : 0 < x.num := Rat.num_pos.mpr hx
  have ha0 : x.num.natAbs ≠ 0 := by
    intro h
    have := Int.natAbs_eq_zero.mp h
    omega
  obtain ⟨ba, hba, halo, hahi⟩ := bitLen_spec x.num.natAbs ha0
  obtain ⟨bd, hbd, hdlo, hdhi⟩ := bitLen_spec x.den x.den_nz
  have hdpos : (0 : ℚ) < x.den := by exact_mod_cast x.den_pos
  have hxe : x = (x.num.natAbs : ℚ) / (x.den : ℚ) := by
    have h1 : ((x.num.natAbs : ℤ) : ℚ) = (x.num : ℚ) := by
      rw [Int.natAbs_of_nonneg (le_of_lt hnum)]
    have h2 : ((x.num.natAbs : ℕ) : ℚ) = (x.num : ℚ) := by
      rw [← h1, Int.cast_natCast]
    rw [h2]
    exact (Rat.num_div_den x).symm
  have halo' : (2 : ℚ) ^ (ba : ℤ) ≤ (x.num.natAbs : ℚ) := by
    rw [zpow_natCast]; exact_mod_cast halo
  have hahi' : (x.num.natAbs : ℚ) < (2 : ℚ) ^ ((ba : ℤ) + 1) := by
    have : ((ba : ℤ) + 1) = ((ba + 1 : ℕ) : ℤ) := by push_cast; ring
    rw [this, zpow_natCast]; exact_mod_cast hahi
  have hdlo' : (2 : ℚ) ^ (bd : ℤ) ≤ (x.den : ℚ) := by
    rw [zpow_natCast]; exact_mod_cast hdlo
  have hdhi' : (x.den : ℚ) < (2 : ℚ) ^ ((bd : ℤ) + 1) := by
    have : ((bd : ℤ) + 1) = ((bd + 1 : ℕ) : ℤ) := by push_cast; ring
    rw [this, zpow_natCast]; exact_mod_cast hdhi
  have he0 : ((bitLen x.num.natAbs : ℤ) - (bitLen x.den : ℤ)) = (ba : ℤ) - bd := by
    rw [hba, hbd]; push_cast; ring
  -- the two outer bounds
  have hupper : x < (2 : ℚ) ^ ((ba : ℤ) - bd + 1) := by
    rw [hxe, div_lt_iff₀ hdpos]
    calc (x.num.natAbs : ℚ) < (2 : ℚ) ^ ((ba : ℤ) + 1) := hahi'
      _ = 2 ^ ((ba : ℤ) - bd + 1) * 2 ^ (bd : ℤ) := by
        rw [← zpow_add₀ (by norm_num : (2 : ℚ) ≠ 0)]; congr 1; ring
      _ ≤ 2 ^ ((ba : ℤ) - bd + 1) * (x.den : ℚ) :=
        mul_le_mul_of_nonneg_left hdlo' (le_of_lt (two_zpow_pos _))
  have hlower : (2 : ℚ) ^ ((ba : ℤ) - bd - 1) ≤ x := by
    rw [hxe, le_div_iff₀ hdpos]
    calc (2 : ℚ) ^ ((ba : ℤ) - bd - 1) * (x.den : ℚ)
        ≤ 2 ^ ((ba : ℤ) - bd - 1) * 2 ^ ((bd : ℤ) + 1) :=
        mul_le_mul_of_nonneg_left (le_of_lt hdhi') (le_of_lt (two_zpow_pos _))
      _ = 2 ^ (ba : ℤ) := by
        rw [← zpow_add₀ (by norm_num : (2 : ℚ) ≠ 0)]; congr 1; ring
      _ ≤ (x.num.natAbs : ℚ) := halo'
  unfold binExp
  simp only [he0, abs_of_pos hx]
  split_ifs with h
  · exact ⟨h, hupper⟩
  · refine ⟨hlower, ?_⟩
    have : (ba : ℤ) - bd - 1 + 1 = (ba : ℤ) - bd := by ring
    rw [this]
    exact lt_of_not_le h

theorem roundHalfEven_bounds (x : ℚ) :
    (roundHalfEven x = ⌊x⌋ ∨ roundHalfEven x = ⌊x⌋ + 1) ∧
    (x - ⌊x⌋ < 1 / 2 → roundHalfEven x = ⌊x⌋) ∧
    (1 / 2 < x - ⌊x⌋ → roundHalfEven x = ⌊x⌋ + 1) := by
  unfold roundHalfEven
  refine ⟨?_, ?_, ?_⟩
  · dsimp only; split_ifs <;> simp
  · intro h; dsimp only; rw [if_pos h]
  · intro h; dsimp only; rw [if_neg (not_lt.mpr (le_of_lt h)), if_pos h]

theorem roundHalfEven_mono {x y : ℚ} (h : x ≤ y) : roundHalfEven x ≤ roundHalfEven y := by
  have hf : ⌊x⌋ ≤ ⌊y⌋ := Int.floor_le_floor h
  obtain ⟨hx1, hx2, hx3⟩ := roundHalfEven_bounds x
  obtain ⟨hy1, hy2, hy3⟩ := roundHalfEven_bounds y
  rcases lt_or_eq_of_le hf with hlt | heq
  · rcases hx1 with hx | hx <;> rcases hy1 with hy | hy <;> omega
  · by_cases hxs : x - ⌊x⌋ < 1 / 2
    · rw [hx2 hxs]
      rcases hy1 with hy | hy <;> omega
    · by_cases hys : 1 / 2 < y - ⌊y⌋
      · rw [hy3 hys]
        rcases hx1 with hx | hx <;> omega
      · -- both fractional parts equal one half
        have hxy : x = y := by
          have h1 : y - ⌊y⌋ ≤ 1 / 2 := not_lt.mp hys
          have h2 : 1 / 2 ≤ x - ⌊x⌋ := not_lt.mp hxs
          have h3 : (⌊x⌋ : ℚ) = ⌊y⌋ := by exact_mod_cast heq
          linarith
        rw [hxy]

theorem roundHalfEven_intCast (n : ℤ) : roundHalfEven (n : ℚ) = n := by
  have := (roundHalfEven_bounds (n : ℚ)).2.1 (by simp)
  simpa using this

theorem toNumber_zero : toNumber 0 = 0 := by simp [toNumber]

theorem toNumber_nonneg {x : ℚ} (h : 0 ≤ x) : 0 ≤ toNumber x := by
  unfold toNumber
  split_ifs with h0
  · exact le_refl _
  · apply mul_nonneg _ (le_of_lt (two_zpow_pos _))
    have : roundHalfEven 0 ≤ roundHalfEven (x / 2 ^ (binExp x - 52)) :=
      roundHalfEven_mono (div_nonneg h (le_of_lt (two_zpow_pos _)))
    have h0' : roundHalfEven 0 = 0 := by simpa using roundHalfEven_intCast 0
    rw [h0'] at this
    exact_mod_cast this

theorem toNumber_nonpos {x : ℚ} (h : x ≤ 0) : toNumber x ≤ 0 := by
  unfold toNumber
  split_ifs with h0
  · exact le_refl _
  · apply mul_nonpos_of_nonpos_of_nonneg _ (le_of_lt (two_zpow_pos _))
    have : roundHalfEven (x / 2 ^ (binExp x - 52)) ≤ roundHalfEven 0 :=
      roundHalfEven_mono (div_nonpos_of_nonpos_of_nonneg h (le_of_lt (two_zpow_pos _)))
    have h0' : roundHalfEven 0 = 0 := by simpa using roundHalfEven_intCast 0
    rw [h0'] at this
    exact_mod_cast this

/-- The double of a positive rational lies in the closed binade of the rational. -/
theorem toNumber_bracket (x : ℚ) (hx : 0 < x) :
    (2 : ℚ) ^ binExp x ≤ toNumber x ∧ toNumber x ≤ 2 ^ (binExp x + 1) := by
  obtain ⟨hlo, hhi⟩ := binExp_spec x hx
  have hu := two_zpow_pos (binExp x - 52)
  have h52 : (2 : ℚ) ^ binExp x = ((2 ^ 52 : ℤ) : ℚ) * 2 ^ (binExp x - 52) := by
    have : ((2 ^ 52 : ℤ) : ℚ) = (2 : ℚ) ^ (52 : ℤ) := by norm_num
    rw [this, ← zpow_add₀ (by norm_num : (2 : ℚ) ≠ 0)]; congr 1; ring
  have h53 : (2 : ℚ) ^ (binExp x + 1) = ((2 ^ 53 : ℤ) : ℚ) * 2 ^ (binExp x - 52) := by
    have : ((2 ^ 53 : ℤ) : ℚ) = (2 : ℚ) ^ (53 : ℤ) := by norm_num
    rw [this, ← zpow_add₀ (by norm_num : (2 : ℚ) ≠ 0)]; congr 1; ring
  have hz1 : ((2 ^ 52 : ℤ) : ℚ) ≤ x / 2 ^ (binExp x - 52) := by
    rw [le_div_iff₀ hu, ← h52]; exact hlo
  have hz2 : x / 2 ^ (binExp x - 52) ≤ ((2 ^ 53 : ℤ) : ℚ) := by
    rw [div_le_iff₀ hu, ← h53]; exact le_of_lt hhi
  have hr1 := roundHalfEven_mono hz1
  have hr2 := roundHalfEven_mono hz2
  rw [roundHalfEven_intCast] at hr1 hr2
  unfold toNumber
  rw [if_neg (ne_of_gt hx), h52, h53]
  constructor
  · exact mul_le_mul_of_nonneg_right (by exact_mod_cast hr1) (le_of_lt hu)
  · exact mul_le_mul_of_nonneg_right (by exact_mod_cast hr2) (le_of_lt hu)

theorem binExp_mono {x y : ℚ} (hx : 0 < x) (h : x ≤ y) : binExp x ≤ binExp y := by
  by_contra hlt
  push_neg at hlt
  have h1 := (binExp_spec y (lt_of_lt_of_le hx h)).2
  have h2 := (binExp_spec x hx).1
  have h3 : (2 : ℚ) ^ (binExp y + 1) ≤ 2 ^ binExp x := two_zpow_mono (by omega)
  linarith

theorem toNumber_mono_pos {x y : ℚ} (hx : 0 < x) (h : x ≤ y) : toNumber x ≤ toNumber y := by
  have hy : 0 < y := lt_of_lt_of_le hx h
  rcases lt_or_eq_of_le (binExp_mono hx h) with hlt | heq
  · calc toNumber x ≤ 2 ^ (binExp x + 1) := (toNumber_bracket x hx).2
      _ ≤ 2 ^ binExp y := two_zpow_mono (by omega)
      _ ≤ toNumber y := (toNumber_bracket y hy).1
  · unfold toNumber
    rw [if_neg (ne_of_gt hx), if_neg (ne_of_gt hy), heq]
    have hu := two_zpow_pos (binExp y - 52)
    apply mul_le_mul_of_nonneg_right _ (le_of_lt hu)
    have := roundHalfEven_mono (div_le_div_of_nonneg_right h (le_of_lt hu))
    exact_mod_cast this

/-- Rounding to a double keeps the order of two numbers of which the larger is not
negative. -/
theorem toNumber_mono {x y : ℚ} (h : x ≤ y) (hy : 0 ≤ y) : toNumber x ≤ toNumber y := by
  rcases le_or_lt x 0 with hx | hx
  · exact le_trans (toNumber_nonpos hx) (toNumber_nonneg hy)
  · exact toNumber_mono_pos hx h

/-- Some values of `toNumber`: the doubles of the literals `0.8`, `0.5` and `0.1`, the
sum `0.1 + 0.2` in doubles, and integers around `2 ^ 53`. -/
theorem toNumber_examples :
    toNumber (8 / 10) = 3602879701896397 / 4503599627370496 ∧
    toNumber (5 / 10) = 1 / 2 ∧
    toNumber (1 / 10) = 3602879701896397 / 36028797018963968 ∧
    toNumber (toNumber (1 / 10) + toNumber (2 / 10)) = 1351079888211149 / 4503599627370496 ∧
    toNumber 100 = 100 ∧
    toNumber 9007199254740993 = 9007199254740992 ∧
    toNumber (-(1 / 3)) = -(6004799503160661 / 18014398509481984) := by
  refine ⟨by decide!, by decide!, by decide!, by decide!, by decide!, by decide!, by decide!⟩

/-! ## Scoring lemmas in double arithmetic -/

/-- The accumulator of `calculateScore` after the loop, from any start value. -/
theorem lostScore_foldl (results : List EvalResult) (init : ℚ) :
    results.foldl
      (fun lost result =>
        if !result.passed then
          toNumber (lost + toNumber (result.weight * toNumber (getSeverityMultiplier result.level)))
        else lost) init =
      ((results.filter fun r => r.passed = false).map numberPenalty).foldl
        (fun lost penalty => toNumber (lost + penalty)) init := by
  induction results generalizing init with
  | nil => rfl
  | cons r rs ih =>
    rw [List.foldl_cons, ih]
    cases hp : r.passed
    · simp [hp, numberPenalty, getSeverityMultiplier_eq_spec]
    · simp [hp]

theorem calculateScore_eq (results : List EvalResult) :
    calculateScore results = max 0 (jsRound (toNumber (100 - numberLost results))) := by
  unfold calculateScore numberLost
  simp only [lostScore_foldl]

theorem specScore_eq (results : List EvalResult) :
    specScore results = max 0 (jsRound (100 - specPenalty results)) := by
  unfold specScore
  rw [jsRound_eq_round]

theorem numberPenalty_nonneg (r : EvalResult) (h : 0 ≤ r.weight) : 0 ≤ numberPenalty r := by
  unfold numberPenalty
  apply toNumber_nonneg
  apply mul_nonneg h
  apply toNumber_nonneg
  rw [← getSeverityMultiplier_eq_spec]
  exact getSeverityMultiplier_nonneg _

theorem foldl_toNumber_nonneg (ps : List ℚ) (init : ℚ) (h0 : 0 ≤ init)
    (h : ∀ p ∈ ps, 0 ≤ p) : 0 ≤ ps.foldl (fun lost penalty => toNumber (lost + penalty)) init := by
  induction ps generalizing init with
  | nil => exact h0
  | cons p ps ih =>
    rw [List.foldl_cons]
    apply ih
    · exact toNumber_nonneg (add_nonneg h0 (h p (List.mem_cons_self _ _)))
    · intro q hq
      exact h q (List.mem_cons_of_mem _ hq)

theorem numberLost_nonneg (results : List EvalResult) (h : ∀ r ∈ results, 0 ≤ r.weight) :
    0 ≤ numberLost results := by
  unfold numberLost
  apply foldl_toNumber_nonneg _ _ (le_refl _)
  intro p hp
  simp only [List.mem_map, List.mem_filter] at hp
  obtain ⟨r, ⟨hr, _⟩, rfl⟩ := hp
  exact numberPenalty_nonneg r (h r hr)

theorem jsRound_mono {x y : ℚ} (h : x ≤ y) : jsRound x ≤ jsRound y := by
  unfold jsRound
  exact Int.floor_le_floor (by linarith)

theorem calculateScore_range (results : List EvalResult)
    (h : ∀ r ∈ results, 0 ≤ r.weight) :
    0 ≤ calculateScore results ∧ calculateScore results ≤ 100 := by
  rw [calculateScore_eq]
  refine ⟨le_max_left _ _, max_le (by norm_num) ?_⟩
  have hp := numberLost_nonneg results h
  have h1 : toNumber (100 - numberLost results) ≤ toNumber 100 :=
    toNumber_mono (by linarith) (by norm_num)
  have h100 : toNumber 100 = 100 := by decide!
  rw [h100] at h1
  have h2 := jsRound_mono h1
  have h3 : jsRound 100 = 100 := by decide!
  rw [h3] at h2
  exact h2

/-! ## The analysis pass -/

theorem runRule_weights (htmlString : Text) (rule : Rule) (st : List EvalResult × Nat)
    (hrule : 0 ≤ rule.weight) (hst : ∀ r ∈ st.1, 0 ≤ r.weight) :
    ∀ r ∈ (runRule htmlString st rule).1, 0 ≤ r.weight := by
  unfold runRule
  cases rule.test htmlString with
  | error e => exact hst
  | ok passed =>
    dsimp only
    cases resolveMessage rule.message passed htmlString with
    | error e => exact hst
    | ok message =>
      intro r hr
      simp only [List.mem_append, List.mem_singleton] at hr
      rcases hr with hr | rfl
      · exact hst r hr
      · exact hrule

theorem foldl_runRule_weights (htmlString : Text) (rules : List Rule)
    (st : List EvalResult × Nat) (hrules : ∀ rule ∈ rules, 0 ≤ rule.weight)
    (hst : ∀ r ∈ st.1, 0 ≤ r.weight) :
    ∀ r ∈ (rules.foldl (runRule htmlString) st).1, 0 ≤ r.weight := by
  induction rules generalizing st with
  | nil => exact hst
  | cons rule rest ih =>
    rw [List.foldl_cons]
    apply ih
    · intro r hr
      exact hrules r (List.mem_cons_of_mem _ hr)
    · exact runRule_weights htmlString rule st (hrules rule (List.mem_cons_self _ _)) hst

theorem getAllRules_weights : ∀ rule ∈ getAllRules, 0 < rule.weight := by
  intro rule h
  simp only [getAllRules, rules, List.map_cons, List.map_nil, List.mem_cons,
    List.mem_singleton, List.not_mem_nil, or_false] at h
  rcases h with h | h | h | h | h | h | h | h | h | h | h | h | h | h | h <;> subst h <;>
    norm_num [doctypeRequired, htmlTagRequired, tableLayout, inlineStyles, noFlexGrid,
      msoSupport, imgAltText, imgDimensions, noForbiddenTags, preheaderText, viewportMeta,
      responsiveTables, fontSizeUnits, secureImages, linkStyles]

/-! ## Catalogue lookup -/

theorem getRule_id_undefined : ∀ r ∈ getAllRules, (getRule r.id).isUndefined = true := by
  decide

theorem applyAutoFix_of_undefined (ruleId : String) (t : Text)
    (h : (getRule ruleId).isUndefined = true) : applyAutoFix ruleId t = t := by
  unfold applyAutoFix
  cases hg : getRule ruleId <;> simp_all [Lookup.isUndefined]

/-! ## Global match and test -/

theorem matchAllGo_isEmpty (r : RegExp) :
    ∀ s p, (matchAllGo r 0 p s).isEmpty = !(searchFrom r p s).isSome := by
  intro s
  induction s with
  | nil =>
    intro p
    simp only [matchAllGo, searchFrom]
    cases execAt r p [] <;> rfl
  | cons c s ih =>
    intro p
    simp only [matchAllGo, searchFrom]
    cases execAt r p (c :: s) with
    | none => exact ih (some c)
    | some x => rfl

theorem matchAll_isEmpty (r : RegExp) (s : Text) :
    (matchAll r s).isEmpty = !regexTest r s :=
  matchAllGo_isEmpty r s none

/-! ## Fixes that establish their own test -/

theorem doctypeRequired_fix_passes (t : Text) :
    ∃ fix, doctypeRequired.autoFix = some fix ∧ doctypeRequired.test (fix t) = .ok true := by
  refine ⟨_, rfl, ?_⟩
  simp only [doctypeRequired]
  split
  · have h : includes (txt "<!DOCTYPE html>\n" ++ t) (txt "<!DOCTYPE") = true :=
      includes_append_right _ t _ (by decide)
    simp [h]
  · rename_i h
    simp only [Bool.and_eq_true, Bool.not_eq_true', not_and, Bool.not_eq_false] at h
    cases h1 : includes t (txt "<!DOCTYPE") with
    | true => simp
    | false => simp [h h1]

theorem htmlTagRequired_fix_passes (t : Text) :
    ∃ fix, htmlTagRequired.autoFix = some fix ∧ htmlTagRequired.test (fix t) = .ok true := by
  refine ⟨_, rfl, ?_⟩
  simp only [htmlTagRequired]
  split
  · have h1 : includes (txt "<html>\n" ++ (t ++ txt "\n</html>")) (txt "<html") = true :=
      includes_append_right _ _ _ (by decide)
    have h2 : includes (txt "<html>\n" ++ (t ++ txt "\n</html>")) (txt "</html>") = true :=
      includes_append_left _ _ _ (includes_append_left _ _ _ (by decide))
    simp [h1, h2]
  · rename_i h
    simp only [Bool.or_eq_true, Bool.not_eq_true', not_or, Bool.not_eq_false] at h
    simp [h.1, h.2]

theorem msoSupport_fix_passes (t : Text) :
    ∃ fix, msoSupport.autoFix = some fix ∧ msoSupport.test (fix t) = .ok true := by
  refine ⟨_, rfl, ?_⟩
  simp only [msoSupport]
  split
  · have h : includes (txt msoBlock ++ t) (txt "[if mso]") = true :=
      includes_append_right _ t _ (by decide)
    simp [h]
  · rename_i h
    simp only [Bool.not_eq_true', Bool.not_eq_false] at h
    simp [h]

theorem viewportRe_piece (a b : Text) :
    regexTest viewportRe (a ++ (txt viewportTag ++ b)) = true :=
  regexTest_of_piece viewportRe (by decide) _ (by decide!) a b

theorem viewportMeta_fix_passes (t : Text) :
    ∃ fix, viewportMeta.autoFix = some fix ∧ viewportMeta.test (fix t) = .ok true := by
  refine ⟨_, rfl, ?_⟩
  simp only [viewportMeta]
  split
  · split
    · rename_i h
      obtain ⟨a, b, hab⟩ :=
        replaceFirst_of_includes (txt "<head>") (txt ("<head>\n  " ++ viewportTag)) t h
      have hr : txt ("<head>\n  " ++ viewportTag) = txt "<head>\n  " ++ txt viewportTag := by
        decide
      rw [hab, hr]
      have := viewportRe_piece (a ++ txt "<head>\n  ") b
      simp only [List.append_assoc] at this ⊢
      rw [this]
    · split
      · rename_i h
        obtain ⟨a, b, hab⟩ := replaceFirst_of_includes (txt "<html>")
          (txt ("<html>\n<head>\n  " ++ viewportTag ++ "\n</head>")) t h
        have hr : txt ("<html>\n<head>\n  " ++ viewportTag ++ "\n</head>") =
            txt "<html>\n<head>\n  " ++ (txt viewportTag ++ txt "\n</head>") := by decide
        rw [hab, hr]
        have := viewportRe_piece (a ++ txt "<html>\n<head>\n  ") (txt "\n</head>" ++ b)
        simp only [List.append_assoc] at this ⊢
        rw [this]
      · have hr : txt (viewportTag ++ "\n") = txt viewportTag ++ txt "\n" := by decide
        rw [hr]
        have := viewportRe_piece [] (txt "\n" ++ t)
        simp only [List.nil_append, List.append_assoc] at this ⊢
        rw [this]
  · rename_i h
    simp only [Bool.not_eq_true', Bool.not_eq_false] at h
    rw [h]

/-! ## Claims C1 to C10 -/

/-- C1 (counterexample). Three failed results of positive weight, 23 at level error,
29 at level warning and 7 at level error: the exact penalty sum is 38.5 and the
formula of the claim gives `round(61.5) = 62`, while `calculateScore` accumulates
38.50000000000001 in doubles and returns 61. -/
theorem calculateScore_differs_at_tie :
    calculateScore
      [failedResult 23 "error", failedResult 29 "warning", failedResult 7 "error"] = 61 ∧
    specPenalty
      [failedResult 23 "error", failedResult 29 "warning", failedResult 7 "error"] = 77 / 2 ∧
    specScore
      [failedResult 23 "error", failedResult 29 "warning", failedResult 7 "error"] = 62 ∧
    numberLost
      [failedResult 23 "error", failedResult 29 "warning", failedResult 7 "error"] =
        5418393301680129 / 140737488355328 := by
  refine ⟨by decide!, by decide!, ?_, by decide!⟩
  rw [specScore_eq]
  decide!

/-- C1 (amended). For every list of evaluation results, `calculateScore` returns
`max(0, round(100 - L))` evaluated in double arithmetic: `L` (`numberLost`) is
accumulated in list order over the results with `passed = false` only, every step
adding the double product `weight × m(level)` and rounding to a double, with
`m(error) = 0.8`, `m(warning) = 0.5`, `m(info) = 0.2` and `m = 0.3` for any other
level, and `100 - L` is rounded to a double before `Math.round`.  Results that passed
contribute nothing to the score, and with weights that are not negative the score
lies between 0 and 100. -/
theorem calculateScore_number_formula (results : List EvalResult) :
    calculateScore results = max 0 (round (toNumber (100 - numberLost results))) ∧
    calculateScore results = calculateScore (results.filter fun r => r.passed = false) ∧
    ((∀ r ∈ results, 0 ≤ r.weight) →
      0 ≤ calculateScore results ∧ calculateScore results ≤ 100) := by
  refine ⟨?_, ?_, calculateScore_range results⟩
  · rw [calculateScore_eq, jsRound_eq_round]
  · rw [calculateScore_eq, calculateScore_eq]
    simp [numberLost, List.filter_filter]

/-- C2. For every document text, the score of the report of `runChecks` is an
integer between 0 and 100. -/
theorem runChecks_score_range (s : Text) :
    0 ≤ (runChecks s).score ∧ (runChecks s).score ≤ 100 := by
  unfold runChecks runChecksOn
  apply calculateScore_range
  apply foldl_runRule_weights
  · intro rule h
    exact le_of_lt (getAllRules_weights rule h)
  · intro r hr
    cases hr

/-- C3 (the code at the failing input). `applyAutoFix` called with the `id` of a
catalogue rule, the value `handleAutoFix` passes in, returns the text unchanged for
every rule and every text, because `getRule` looks the identifier up among the
property keys; for `doctype-required` on the empty text the fix itself gives
`<!DOCTYPE html>` and a line feed, and `applyAutoFix` gives the empty text. -/
theorem applyAutoFix_by_id_noop :
    (∀ r ∈ getAllRules, ∀ t, applyAutoFix r.id t = t) ∧
    doctypeRequired ∈ getAllRules ∧
    (doctypeRequired.autoFix.map fun fix => fix []) = some (txt "<!DOCTYPE html>\n") ∧
    applyAutoFix "doctype-required" [] = [] := by
  refine ⟨fun r hr t => applyAutoFix_of_undefined r.id t (getRule_id_undefined r hr), ?_, ?_, ?_⟩
  · simp [getAllRules, rules]
  · decide
  · decide

/-- C4 (the code at the failing input). For every rule of `getAllRules()`,
`getRule(r.id)` is `undefined`: the catalogue is keyed by the property names of the
object literal (`doctypeRequired`), not by the `id` fields (`doctype-required`);
looking a property name up does return the rule. -/
theorem getRule_by_id_undefined :
    (∀ r ∈ getAllRules, (getRule r.id).isUndefined = true) ∧
    (∀ kv ∈ rules, (getRule kv.1).isUndefined = false) ∧
    (getRule "doctype-required").isUndefined = true ∧
    (getRule "doctypeRequired").isUndefined = false := by
  refine ⟨by decide, by decide, by decide, by decide⟩

/-- C5 (the code at the failing input). The string `doctypeRequired` is the `id`
of no rule of the catalogue, yet `applyAutoFix("doctypeRequired", "")` returns
`<!DOCTYPE html>` and a line feed, not the empty text. -/
theorem applyAutoFix_key_not_id :
    (∀ r ∈ getAllRules, r.id ≠ "doctypeRequired") ∧
    applyAutoFix "doctypeRequired" [] = txt "<!DOCTYPE html>\n" ∧
    applyAutoFix "doctypeRequired" [] ≠ [] := by
  refine ⟨by decide, by decide, by decide⟩

/-- C6 (counterexample). On a document with five images of which four carry a
valid alt text the `img-alt` test passes (4/5 reaches 0.8), and its fix still adds
`alt="Image"` to the fifth image, so the text changes. -/
theorem imgAltText_fix_changes_passing_text :
    imgAltText ∈ getAllRules ∧
    imgAltText.test (txt ("<img alt=\"abc\"><img alt=\"abc\"><img alt=\"abc\">" ++
      "<img alt=\"abc\"><img>")) = .ok true ∧
    (imgAltText.autoFix.map fun fix => fix (txt ("<img alt=\"abc\"><img alt=\"abc\">" ++
      "<img alt=\"abc\"><img alt=\"abc\"><img>"))) =
      some (txt ("<img alt=\"abc\"><img alt=\"abc\"><img alt=\"abc\"><img alt=\"abc\">" ++
        "<img alt=\"Image\">")) ∧
    txt ("<img alt=\"abc\"><img alt=\"abc\"><img alt=\"abc\"><img alt=\"abc\">" ++
        "<img alt=\"Image\">") ≠
      txt ("<img alt=\"abc\"><img alt=\"abc\"><img alt=\"abc\"><img alt=\"abc\"><img>") := by
  refine ⟨by simp [getAllRules, rules], by decide!, by decide!, by decide⟩

/-- C6 (amended). For the rules `doctype-required`, `html-tag-required`,
`table-layout` and `viewport-meta`, whose fix is guarded by the negation of their
own test, and every document text on which the test passes, the fix returns the
text unchanged. -/
theorem guarded_fix_keeps_passing_text :
    ∀ r ∈ [doctypeRequired, htmlTagRequired, tableLayout, viewportMeta],
      ∀ fix, r.autoFix = some fix → ∀ t, r.test t = .ok true → fix t = t := by
  intro r hr fix hfix t ht
  simp only [List.mem_cons, List.mem_singleton, List.not_mem_nil, or_false] at hr
  rcases hr with rfl | rfl | rfl | rfl
  · simp only [doctypeRequired, Option.some.injEq] at hfix ht
    subst hfix
    simp only [Except.ok.injEq] at ht
    simp only [Bool.or_eq_true] at ht
    rcases ht with h | h <;> simp [h]
  · simp only [htmlTagRequired, Option.some.injEq] at hfix ht
    subst hfix
    simp only [Except.ok.injEq, Bool.and_eq_true] at ht
    simp [ht.1, ht.2]
  · simp only [tableLayout, Option.some.injEq] at hfix ht
    subst hfix
    simp only [Except.ok.injEq, Bool.and_eq_true, matchAll_isEmpty, Bool.not_not] at ht
    simp [ht.1]
  · simp only [viewportMeta, Option.some.injEq] at hfix ht
    subst hfix
    simp only [Except.ok.injEq] at ht
    simp [ht]

/-- C6 (witness). The document `<!DOCTYPE html>` passes `doctype-required` and its
fix returns it unchanged. -/
theorem guarded_fix_keeps_passing_text_witness :
    doctypeRequired.test (txt "<!DOCTYPE html>") = .ok true ∧
    (doctypeRequired.autoFix.map fun fix => fix (txt "<!DOCTYPE html>")) =
      some (txt "<!DOCTYPE html>") :=
  ⟨by decide,
   by
    cases h : doctypeRequired.autoFix with
    | none => simp [doctypeRequired] at h
    | some fix =>
      simp only [Option.map_some']
      exact congrArg some
        (guarded_fix_keeps_passing_text doctypeRequired (by simp) fix h _ (by decide))⟩

/-- C7 (the code at the failing input). The fix of `inline-css` applied to a plain
link adds a style attribute, and applied to its own output adds a second one: the
replacement for `<a href=...>` lacks the `(?!\s+style)` guard its four siblings
carry, so the second application changes the text again.  The fix of
`no-forbidden-tags` likewise removes on a second application what its first
application uncovered. -/
theorem inlineStyles_fix_not_idempotent :
    inlineStyles ∈ getAllRules ∧
    (inlineStyles.autoFix.map fun fix => fix (txt "<a href=\"https://example.com\">Link</a>")) =
      some (txt ("<a href=\"https://example.com\" " ++
        "style=\"color:#3b82f6; text-decoration:none;\">Link</a>")) ∧
    (inlineStyles.autoFix.map fun fix =>
        fix (fix (txt "<a href=\"https://example.com\">Link</a>"))) =
      some (txt ("<a href=\"https://example.com\" " ++
        "style=\"color:#3b82f6; text-decoration:none;\" " ++
        "style=\"color:#3b82f6; text-decoration:none;\">Link</a>")) ∧
    (inlineStyles.autoFix.map fun fix =>
        fix (fix (txt "<a href=\"https://example.com\">Link</a>"))) ≠
      (inlineStyles.autoFix.map fun fix => fix (txt "<a href=\"https://example.com\">Link</a>")) ∧
    (noForbiddenTags.autoFix.map fun fix => fix (txt "<scr<input>ipt>alert(1)</script>")) =
      some (txt "<script>alert(1)</script>") ∧
    (noForbiddenTags.autoFix.map fun fix =>
        fix (fix (txt "<scr<input>ipt>alert(1)</script>"))) = some [] := by
  refine ⟨by simp [getAllRules, rules], by decide!, by decide!, by decide!, by decide!,
    by decide!⟩

/-- C8 (counterexample). The document `<p>Hello</p>` fails `table-layout`; its fix
returns documents of at most 100 code units unchanged, so the test still fails on
the fixed text. -/
theorem tableLayout_fix_leaves_short_text_failing :
    tableLayout ∈ getAllRules ∧
    tableLayout.test (txt "<p>Hello</p>") = .ok false ∧
    (tableLayout.autoFix.map fun fix => fix (txt "<p>Hello</p>")) =
      some (txt "<p>Hello</p>") ∧
    (tableLayout.autoFix.map fun fix => tableLayout.test (fix (txt "<p>Hello</p>"))) =
      some (.ok false) := by
  refine ⟨by simp [getAllRules, rules], by decide, by decide, by decide⟩

theorem tableLayout_fix_passes (t : Text) (hlen : 100 < t.length) :
    ∃ fix, tableLayout.autoFix = some fix ∧ tableLayout.test (fix t) = .ok true := by
  refine ⟨_, rfl, ?_⟩
  have hpiece : ∀ b, regexTest tableTagRe (txt tableWrapOpen ++ b) = true := fun b =>
    regexTest_of_piece tableTagRe (by decide) (txt tableWrapOpen) (by decide!) [] b
  simp only [tableLayout]
  split
  · have h := hpiece (t ++ txt tableWrapClose)
    simp only [List.append_assoc, matchAll_isEmpty, h]
    have h2 := matchAll_isEmpty tableTagRe (txt tableWrapOpen ++ (t ++ txt tableWrapClose))
    rw [h] at h2
    cases hm : matchAll tableTagRe (txt tableWrapOpen ++ (t ++ txt tableWrapClose)) with
    | nil => simp [hm] at h2
    | cons x xs => simp
  · rename_i hg
    simp only [Bool.and_eq_true, Bool.not_eq_true', decide_eq_true_eq, not_and, not_lt] at hg
    have ht : regexTest tableTagRe t = true := by
      cases hr : regexTest tableTagRe t with
      | true => rfl
      | false => have := hg hr; omega
    have h2 := matchAll_isEmpty tableTagRe t
    rw [ht] at h2
    cases hm : matchAll tableTagRe t with
    | nil => simp [hm] at h2
    | cons x xs => simp

/-- C8 (amended). For the rules `doctype-required`, `html-tag-required`,
`mso-support` and `viewport-meta`, and every document text on which the rule's test
fails, the test passes on the fixed text; for `table-layout` the same holds for every
failing document longer than 100 code units (shorter ones are returned unchanged). -/
theorem fix_repairs_failing_text :
    (∀ r ∈ [doctypeRequired, htmlTagRequired, msoSupport, viewportMeta],
      ∀ fix, r.autoFix = some fix → ∀ t, r.test t = .ok false → r.test (fix t) = .ok true) ∧
    (∀ fix, tableLayout.autoFix = some fix → ∀ t, tableLayout.test t = .ok false →
      100 < t.length → tableLayout.test (fix t) = .ok true) := by
  constructor
  · intro r hr fix hfix t _
    simp only [List.mem_cons, List.mem_singleton, List.not_mem_nil, or_false] at hr
    rcases hr with rfl | rfl | rfl | rfl
    · obtain ⟨f, hf, h⟩ := doctypeRequired_fix_passes t
      rw [hfix] at hf
      cases hf
      exact h
    · obtain ⟨f, hf, h⟩ := htmlTagRequired_fix_passes t
      rw [hfix] at hf
      cases hf
      exact h
    · obtain ⟨f, hf, h⟩ := msoSupport_fix_passes t
      rw [hfix] at hf
      cases hf
      exact h
    · obtain ⟨f, hf, h⟩ := viewportMeta_fix_passes t
      rw [hfix] at hf
      cases hf
      exact h
  · intro fix hfix t _ hlen
    obtain ⟨f, hf, h⟩ := tableLayout_fix_passes t hlen
    rw [hfix] at hf
    cases hf
    exact h

/-- C8 (witness). The document `<p>Hello</p>` fails `viewport-meta` and passes it
once fixed. -/
theorem fix_repairs_failing_text_witness :
    viewportMeta.test (txt "<p>Hello</p>") = .ok false ∧
    (viewportMeta.autoFix.map fun fix => viewportMeta.test (fix (txt "<p>Hello</p>"))) =
      some (.ok true) :=
  ⟨by decide,
   by
    cases h : viewportMeta.autoFix with
    | none => simp [viewportMeta] at h
    | some fix =>
      simp only [Option.map_some']
      exact congrArg some
        (fix_repairs_failing_text.1 viewportMeta (by simp) fix h _ (by decide))⟩

/-- C9 (counterexample). `runChecks` on the empty string runs the whole catalogue:
the score of the report is not 0 and its results list is not empty. -/
theorem runChecks_empty_not_reset :
    (runChecks []).score ≠ 0 ∧ (runChecks []).results.length ≠ 0 := by
  refine ⟨by decide!, by decide⟩

/-- C9 (amended). `runChecks` on the empty string returns a report with score 51
and one result for each of the 15 catalogue rules; the reset state (score 0 and
every counter 0) is what `analyzeContent` shows for a text area value that is empty
or white space only, without running the rules. -/
theorem runChecks_empty_report :
    (runChecks []).score = 51 ∧ (runChecks []).results.length = 15 ∧
    (runChecks []).totalChecks = 15 ∧
    (∀ value, trim value = [] → analyzeContent value = ⟨0, 0, 0, 0, 0⟩) := by
  refine ⟨by decide!, by decide, by decide, ?_⟩
  intro value h
  simp [analyzeContent, h, resetDisplay]

/-- C9 (witness). A text area holding two spaces and a line feed is shown as the
reset state. -/
theorem runChecks_empty_report_witness :
    trim (txt "  \n") = [] ∧ analyzeContent (txt "  \n") = ⟨0, 0, 0, 0, 0⟩ :=
  ⟨by decide, runChecks_empty_report.2.2.2 _ (by decide)⟩

/-! ## Applying all fixes of a category -/

theorem categoryFixes_cons_some (r : Rule) (rs : List Rule) (category : String)
    (fix : Text → Text) (hc : (r.category == category) = true) (hf : r.autoFix = some fix) :
    categoryFixes (r :: rs) category = fix :: categoryFixes rs category := by
  unfold categoryFixes
  rw [List.filterMap_cons]
  simp only [hc, if_true, hf]

theorem categoryFixes_cons_skip (r : Rule) (rs : List Rule) (category : String)
    (h : (r.category == category) = false ∨ r.autoFix = none) :
    categoryFixes (r :: rs) category = categoryFixes rs category := by
  unfold categoryFixes
  rw [List.filterMap_cons]
  rcases h with h | h
  · simp only [h, Bool.false_eq_true, if_false]
  · simp only [h, ite_self]

theorem applyAllFixesOn_foldl (rules : List Rule) (category : String) (t : Text) (n : Nat) :
    rules.foldl
      (fun (st : Text × Nat) rule =>
        if rule.category == category then
          match rule.autoFix with
          | some autoFix =>
            let newHtml := autoFix st.1
            if newHtml ≠ st.1 then (newHtml, st.2 + 1) else st
          | none => st
        else st)
      (t, n) =
    (foldFixes (categoryFixes rules category) t,
      n + changedSteps (categoryFixes rules category) t) := by
  induction rules generalizing t n with
  | nil => simp [categoryFixes, foldFixes, changedSteps]
  | cons r rs ih =>
    rw [List.foldl_cons]
    cases hc : r.category == category with
    | false =>
      rw [categoryFixes_cons_skip r rs category (Or.inl hc)]
      simp only [Bool.false_eq_true, if_false]
      exact ih t n
    | true =>
      cases hf : r.autoFix with
      | none =>
        rw [categoryFixes_cons_skip r rs category (Or.inr hf)]
        simp only [if_true]
        exact ih t n
      | some fix =>
        rw [categoryFixes_cons_some r rs category fix hc hf]
        simp only [if_true]
        by_cases hne : fix t = t
        · simp only [hne, ne_eq, not_true_eq_false, if_false]
          rw [ih]
          simp [foldFixes, changedSteps, hne]
        · simp only [ne_eq, hne, not_false_eq_true, if_true]
          rw [ih]
          simp [foldFixes, changedSteps, hne, Nat.add_assoc]

theorem applyAllFixesOn_eq (rules : List Rule) (category : String) (t : Text) :
    applyAllFixesOn rules category t =
      (foldFixes (categoryFixes rules category) t,
        changedSteps (categoryFixes rules category) t) := by
  unfold applyAllFixesOn
  rw [applyAllFixesOn_foldl]
  simp

theorem foldFixes_of_no_change (fixes : List (Text → Text)) (t : Text)
    (h : changedSteps fixes t = 0) : foldFixes fixes t = t := by
  induction fixes generalizing t with
  | nil => rfl
  | cons fix rest ih =>
    simp only [changedSteps] at h
    have h1 : fix t = t := by
      by_contra hne
      simp [hne] at h
    have h2 : changedSteps rest (fix t) = 0 := by omega
    simp only [foldFixes, List.foldl_cons]
    have := ih (fix t) h2
    simp only [foldFixes] at this
    rw [this, h1]

/-- C10. For every category and document text, `applyAllFixes` leaves the text
obtained by folding the document, in catalogue order, through the `autoFix` of
every catalogue rule of that category that defines one, and `fixedCount` is the
number of those steps whose output differs from their input; when `fixedCount` is 0
the text is unchanged, and when the category has two fixes of which exactly one
changes its input, `fixedCount` is 1 (as for `security` on `<input>`). -/
theorem applyAllFixes_fold (c : String) (t : Text) :
    (applyAllFixes c t).1 = foldFixes (categoryFixes getAllRules c) t ∧
    (applyAllFixes c t).2 = changedSteps (categoryFixes getAllRules c) t ∧
    ((applyAllFixes c t).2 = 0 → (applyAllFixes c t).1 = t) ∧
    (∀ f g, categoryFixes getAllRules c = [f, g] →
      ((f t ≠ t ∧ g (f t) = f t) ∨ (f t = t ∧ g (f t) ≠ f t)) → (applyAllFixes c t).2 = 1) ∧
    applyAllFixes "security" (txt "<input>") = ([], 1) := by
  have hcount : (applyAllFixes c t).2 = changedSteps (categoryFixes getAllRules c) t := by
    simp [applyAllFixes, applyAllFixesOn_eq]
  have htext : (applyAllFixes c t).1 = foldFixes (categoryFixes getAllRules c) t := by
    simp only [applyAllFixes, applyAllFixesOn_eq]
    split
    · rfl
    · rename_i h
      exact (foldFixes_of_no_change _ _ (by omega)).symm
  refine ⟨htext, hcount, ?_, ?_, by decide!⟩
  · intro h0
    rw [htext]
    exact foldFixes_of_no_change _ _ (by rw [← hcount]; exact h0)
  · intro f g hfg hone
    rw [hcount, hfg]
    simp only [changedSteps]
    rcases hone with ⟨h1, h2⟩ | ⟨h1, h2⟩
    · simp [h1, h2]
    · rw [h1] at h2
      simp [h1, h2]

/-! ## Claims C11 to C20 -/

/-- C16. For every integer score, the grade of `getGrade(score)` is the first grade
of the ordered table A+ (95), A (90), A- (85), B+ (80), B (75), B- (70), C+ (65),
C (60), C- (55), D+ (50), D (45), D- (40) whose bound the score meets, and it is F
exactly when the score is below 40; the result is a function of the score alone. -/
theorem getGrade_table (score : ℤ) :
    (getGrade score).grade = specGrade score ∧
    ((getGrade score).grade = "F" ↔ score < 40) := by
  unfold getGrade specGrade gradeTable
  by_cases h0 : score ≥ 95
  · have g0 : 95 ≤ score := h0
    simp only [List.find?, h0, g0, if_true, if_false, decide_True, decide_False]
    exact ⟨trivial, by constructor <;> intro hh <;> first | (exact absurd hh (by decide)) | omega⟩
  have n0 : ¬ 95 ≤ score := h0
  by_cases h1 : score ≥ 90
  · have g1 : 90 ≤ score := h1
    simp only [List.find?, h0, n0, h1, g1, if_true, if_false, decide_True, decide_False]
    exact ⟨trivial, by constructor <;> intro hh <;> first | (exact absurd hh (by decide)) | omega⟩
  have n1 : ¬ 90 ≤ score := h1
  by_cases h2 : score ≥ 85
  · have g2 : 85 ≤ score := h2
    simp only [List.find?, h0, n0, h1, n1, h2, g2, if_true, if_false, decide_True, decide_False]
    exact ⟨trivial, by constructor <;> intro hh <;> first | (exact absurd hh (by decide)) | omega⟩
  have n2 : ¬ 85 ≤ score := h2
  by_cases h3 : score ≥ 80
  · have g3 : 80 ≤ score := h3
    simp only [List.find?, h0, n0, h1, n1, h2, n2, h3, g3, if_true, if_false, decide_True, decide_False]
    exact ⟨trivial, by constructor <;> intro hh <;> first | (exact absurd hh (by decide)) | omega⟩
  have n3 : ¬ 80 ≤ score := h3
  by_cases h4 : score ≥ 75
  · have g4 : 75 ≤ score := h4
    simp only [List.find?, h0, n0, h1, n1, h2, n2, h3, n3, h4, g4, if_true, if_false, decide_True, decide_False]
    exact ⟨trivial, by constructor <;> intro hh <;> first | (exact absurd hh (by decide)) | omega⟩
  have n4 : ¬ 75 ≤ score := h4
  by_cases h5 : score ≥ 70
  · have g5 : 70 ≤ score := h5
    simp only [List.find?, h0, n0, h1, n1, h2, n2, h3, n3, h4, n4, h5, g5, if_true, if_false, decide_True, decide_False]
    exact ⟨trivial, by constructor <;> intro hh <;> first | (exact absurd hh (by decide)) | omega⟩
  have n5 : ¬ 70 ≤ score := h5
  by_cases h6 : score ≥ 65
  · have g6 : 65 ≤ score := h6
    simp only [List.find?, h0, n0, h1, n1, h2, n2, h3, n3, h4, n4, h5, n5, h6, g6, if_true, if_false, decide_True, decide_False]
    exact ⟨trivial, by constructor <;> intro hh <;> first | (exact absurd hh (by decide)) | omega⟩
  have n6 : ¬ 65 ≤ score := h6
  by_cases h7 : score ≥ 60
  · have g7 : 60 ≤ score := h7
    simp only [List.find?, h0, n0, h1, n1, h2, n2, h3, n3, h4, n4, h5, n5, h6, n6, h7, g7, if_true, if_false, decide_True, decide_False]
    exact ⟨trivial, by constructor <;> intro hh <;> first | (exact absurd hh (by decide)) | omega⟩
  have n7 : ¬ 60 ≤ score := h7
  by_cases h8 : score ≥ 55
  · have g8 : 55 ≤ score := h8
    simp only [List.find?, h0, n0, h1, n1, h2, n2, h3, n3, h4, n4, h5, n5, h6, n6, h7, n7, h8, g8, if_true, if_false, decide_True, decide_False]
    exact ⟨trivial, by constructor <;> intro hh <;> first | (exact absurd hh (by decide)) | omega⟩
  have n8 : ¬ 55 ≤ score := h8
  by_cases h9 : score ≥ 50
  · have g9 : 50 ≤ score := h9
    simp only [List.find?, h0, n0, h1, n1, h2, n2, h3, n3, h4, n4, h5, n5, h6, n6, h7, n7, h8, n8, h9, g9, if_true, if_false, decide_True, decide_False]
    exact ⟨trivial, by constructor <;> intro hh <;> first | (exact absurd hh (by decide)) | omega⟩
  have n9 : ¬ 50 ≤ score := h9
  by_cases h10 : score ≥ 45
  · have g10 : 45 ≤ score := h10
    simp only [List.find?, h0, n0, h1, n1, h2, n2, h3, n3, h4, n4, h5, n5, h6, n6, h7, n7, h8, n8, h9, n9, h10, g10, if_true, if_false, decide_True, decide_False]
    exact ⟨trivial, by constructor <;> intro hh <;> first | (exact absurd hh (by decide)) | omega⟩
  have n10 : ¬ 45 ≤ score := h10
  by_cases h11 : score ≥ 40
  · have g11 : 40 ≤ score := h11
    simp only [List.find?, h0, n0, h1, n1, h2, n2, h3, n3, h4, n4, h5, n5, h6, n6, h7, n7, h8, n8, h9, n9, h10, n10, h11, g11, if_true, if_false, decide_True, decide_False]
    exact ⟨trivial, by constructor <;> intro hh <;> first | (exact absurd hh (by decide)) | omega⟩
  have n11 : ¬ 40 ≤ score := h11
  simp only [List.find?, h0, n0, h1, n1, h2, n2, h3, n3, h4, n4, h5, n5, h6, n6, h7, n7, h8, n8, h9, n9, h10, n10, h11, n11, if_true, if_false, decide_True, decide_False]
  exact ⟨trivial, by constructor <;> intro _ <;> first | trivial | rfl | omega⟩

/-! ## Category breakdown -/

theorem categoryScores_foldl (results : List EvalResult)
    (scores : List (String × CategoryScore)) :
    results.foldl
      (fun scores result =>
        let category := result.rule.category
        scores.map fun kv =>
          if kv.1 == category then
            (kv.1, ⟨if result.passed then kv.2.passed + 1 else kv.2.passed, kv.2.total + 1,
              kv.2.weight⟩)
          else kv)
      scores =
    scores.map fun kv =>
      (kv.1,
        ⟨kv.2.passed + (results.filter fun r => r.rule.category == kv.1 && r.passed).length,
         kv.2.total + (results.filter fun r => r.rule.category == kv.1).length,
         kv.2.weight⟩) := by
  induction results generalizing scores with
  | nil => simp
  | cons r rs ih =>
    rw [List.foldl_cons, ih, List.map_map]
    apply List.map_congr_left
    intro kv _
    simp only [Function.comp]
    by_cases hc : kv.1 = r.rule.category
    · have h1 : (r.rule.category == kv.1) = true := by simp [hc]
      have h2 : (kv.1 == r.rule.category) = true := by simp [hc]
      cases hp : r.passed <;>
        simp [h2, hp, List.filter_cons, ← hc, Nat.add_assoc, Nat.add_comm 1]
    · have h1 : (r.rule.category == kv.1) = false := by
        simp only [beq_eq_false_iff_ne, ne_eq]
        exact fun h => hc h.symm
      have h2 : (kv.1 == r.rule.category) = false := by simpa using hc
      simp [h1, h2, List.filter_cons]

theorem length_filter_or_of_disjoint {α : Type} (l : List α) (p q : α → Bool)
    (h : ∀ x, ¬ (p x = true ∧ q x = true)) :
    (l.filter fun x => p x || q x).length = (l.filter p).length + (l.filter q).length := by
  induction l with
  | nil => rfl
  | cons x xs ih =>
    have hx := h x
    cases hp : p x <;> cases hq : q x <;> simp [List.filter_cons, hp, hq, ih] at hx ⊢ <;> omega

theorem sum_counts_of_nodup {α : Type} (l : List α) (key : α → String) (keys : List String)
    (hk : keys.Nodup) :
    (keys.map fun k => (l.filter fun x => key x == k).length).sum =
      (l.filter fun x => keys.contains (key x)).length := by
  induction keys with
  | nil => simp
  | cons k ks ih =>
    rw [List.nodup_cons] at hk
    rw [List.map_cons, List.sum_cons, ih hk.2]
    have := length_filter_or_of_disjoint l (fun x => key x == k) (fun x => ks.contains (key x))
      (by
        intro x hx
        simp only [beq_iff_eq, List.contains_iff_exists_mem_beq] at hx
        obtain ⟨h1, y, hy, h2⟩ := hx
        rw [h1] at h2
        have : k = y := by simpa using h2
        exact hk.1 (this ▸ hy))
    rw [← this]
    exact congrArg List.length (List.filter_congr (fun x _ => by
        simp only [List.contains_cons]))


theorem runRule_category (htmlString : Text) (rule : Rule) (st : List EvalResult × Nat)
    (hst : ∀ r ∈ st.1, r.category = r.rule.category) :
    ∀ r ∈ (runRule htmlString st rule).1, r.category = r.rule.category := by
  unfold runRule
  cases rule.test htmlString with
  | error e => exact hst
  | ok passed =>
    dsimp only
    cases resolveMessage rule.message passed htmlString with
    | error e => exact hst
    | ok message =>
      intro r hr
      simp only [List.mem_append, List.mem_singleton] at hr
      rcases hr with hr | rfl
      · exact hst r hr
      · rfl

theorem foldl_runRule_category (htmlString : Text) (rules : List Rule)
    (st : List EvalResult × Nat) (hst : ∀ r ∈ st.1, r.category = r.rule.category) :
    ∀ r ∈ (rules.foldl (runRule htmlString) st).1, r.category = r.rule.category := by
  induction rules generalizing st with
  | nil => exact hst
  | cons rule rest ih =>
    rw [List.foldl_cons]
    exact ih _ (runRule_category htmlString rule st hst)

/-- C15. For every list of evaluation results, `calculateCategoryScores` returns
exactly one entry per declared category, in declaration order; the entry of a
category holds as `total` the number of results of that category, as `passed` the
number of those with `passed` true and as `weight` the declared weight of the
category; hence `passed ≤ total` in every entry and the totals sum to the number of
results whose category is declared.  The category of a result is the one of its rule
(`result.rule.category`), which `runChecks` copies into `result.category`. -/
theorem calculateCategoryScores_counts (results : List EvalResult) :
    calculateCategoryScores results =
      categories.map (fun kv =>
        (kv.1,
          ⟨(results.filter fun r => r.rule.category == kv.1 && r.passed).length,
           (results.filter fun r => r.rule.category == kv.1).length,
           kv.2.weight⟩)) ∧
    (calculateCategoryScores results).map (·.1) =
      ["compatibility", "accessibility", "performance", "security", "bestPractice"] ∧
    (∀ kv ∈ calculateCategoryScores results, kv.2.passed ≤ kv.2.total) ∧
    ((calculateCategoryScores results).map (·.2.total)).sum =
      (results.filter fun r => (categories.map (·.1)).contains r.rule.category).length ∧
    (∀ rules s, ∀ r ∈ (runChecksOn rules s).results, r.category = r.rule.category) := by
  have hmain : calculateCategoryScores results =
      categories.map (fun kv =>
        (kv.1,
          ⟨(results.filter fun r => r.rule.category == kv.1 && r.passed).length,
           (results.filter fun r => r.rule.category == kv.1).length,
           kv.2.weight⟩)) := by
    unfold calculateCategoryScores
    simp only [categoryScores_foldl, List.map_map]
    apply List.map_congr_left
    intro kv _
    simp
  refine ⟨hmain, ?_, ?_, ?_, ?_⟩
  · rw [hmain, List.map_map]
    rfl
  · rw [hmain]
    intro kv hkv
    simp only [List.mem_map] at hkv
    obtain ⟨c, _, rfl⟩ := hkv
    simp only
    have : ∀ x : EvalResult, (x.rule.category == c.1 && x.passed) = true →
        (x.rule.category == c.1) = true := by
      intro x hx
      simp only [Bool.and_eq_true] at hx
      exact hx.1
    exact (List.monotone_filter_right results this).length_le
  · rw [hmain, List.map_map]
    have := sum_counts_of_nodup results (fun r => r.rule.category) (categories.map (·.1))
      (by decide)
    rw [← this, List.map_map]
    rfl
  · intro rules s r hr
    exact foldl_runRule_category s rules ([], 0) (by intro r hr; cases hr) r hr

/-! ## Matches and the text they consume -/

theorem Accepts.consumed {ci : Bool} {r : Re} {p p1 : Option Char} {s s1 : Text}
    (h : Accepts ci r p s p1 s1) : ∃ u, s = u ++ s1 := by
  induction h with
  | eps => exact ⟨[], rfl⟩
  | set cs p c s _ => exact ⟨[c], rfl⟩
  | seq _ _ iha ihb =>
    obtain ⟨u, rfl⟩ := iha
    obtain ⟨v, rfl⟩ := ihb
    exact ⟨u ++ v, by simp⟩
  | altL _ _ ih => exact ih
  | altR _ _ ih => exact ih
  | repDone => exact ⟨[], rfl⟩
  | repStep _ _ _ _ ih1 ih2 =>
    obtain ⟨u, rfl⟩ := ih1
    obtain ⟨v, rfl⟩ := ih2
    exact ⟨u ++ v, by simp⟩
  | group _ _ ih => exact ih
  | repMax => exact ⟨[], rfl⟩
  | notAhead => exact ⟨[], rfl⟩
  | wordB => exact ⟨[], rfl⟩
  | bos => exact ⟨[], rfl⟩
  | eos => exact ⟨[], rfl⟩

theorem matchedText_append (u rest : Text) : matchedText (u ++ rest) rest = u := by
  simp [matchedText]

theorem accepts_seq_inv {ci : Bool} {a b : Re} {p p2 : Option Char} {s s2 : Text}
    (h : Accepts ci (.seq a b) p s p2 s2) :
    ∃ p1 s1, Accepts ci a p s p1 s1 ∧ Accepts ci b p1 s1 p2 s2 := by
  cases h with
  | seq ha hb => exact ⟨_, _, ha, hb⟩

theorem accepts_set_inv {ci : Bool} {cs : CSet} {p p1 : Option Char} {s s1 : Text}
    (h : Accepts ci (.set cs) p s p1 s1) :
    ∃ c, s = c :: s1 ∧ p1 = some c ∧ cs.mem ci c = true := by
  cases h with
  | set _ _ c _ hc => exact ⟨c, rfl, rfl, hc⟩

theorem accepts_eps_inv {ci : Bool} {p p1 : Option Char} {s s1 : Text}
    (h : Accepts ci .eps p s p1 s1) : p1 = p ∧ s1 = s := by
  cases h with
  | eps => exact ⟨rfl, rfl⟩

/-- Every match of a global operation is a success of one match attempt. -/
theorem matchAllGo_mem (r : RegExp) (m : Match) :
    ∀ s skip p, m ∈ matchAllGo r skip p s →
      ∃ q t rest caps, execAt r q t = some (rest, caps) ∧ m.text = matchedText t rest := by
  intro s
  induction s with
  | nil =>
    intro skip p hm
    cases skip <;>
    · simp only [matchAllGo] at hm
      cases hx : execAt r p [] with
      | none => simp [hx] at hm
      | some x =>
        simp only [hx, List.mem_singleton] at hm
        exact ⟨p, [], x.1, x.2, hx, by simp [hm, matchedText]⟩
  | cons c s ih =>
    intro skip p hm
    cases skip with
    | succ n =>
      simp only [matchAllGo] at hm
      exact ih _ _ hm
    | zero =>
      simp only [matchAllGo] at hm
      cases hx : execAt r p (c :: s) with
      | none =>
        simp only [hx] at hm
        exact ih _ _ hm
      | some x =>
        simp only [hx, List.mem_cons] at hm
        rcases hm with hm | hm
        · exact ⟨p, c :: s, x.1, x.2, hx, by simp [hm]⟩
        · exact ih _ _ hm

/-- Every match of a pure pattern is the text consumed by a way to match. -/
theorem matchAll_mem_accepts (r : RegExp) (hp : r.re.pure = true) (s : Text) (m : Match)
    (hm : m ∈ matchAll r s) :
    ∃ q p1 rest, Accepts r.ignoreCase r.re q (m.text ++ rest) p1 rest := by
  obtain ⟨q, t, rest, caps, hx, ht⟩ := matchAllGo_mem r m s 0 none hm
  obtain ⟨p1, s1, c1, hacc, hk⟩ := matchRe_sound r.re hp _ _ _ _ _ hx
  simp only [Option.some.injEq, Prod.mk.injEq] at hk
  obtain ⟨u, hu⟩ := hacc.consumed
  rw [hk.1] at hacc hu
  subst hu
  rw [matchedText_append] at ht
  rw [ht]
  exact ⟨q, p1, rest, hacc⟩

theorem splitGo_ne_nil (sep : Char) (s cur : Text) : splitGo sep s cur ≠ [] := by
  induction s generalizing cur with
  | nil => simp [splitGo]
  | cons c s ih =>
    simp only [splitGo]
    split
    · simp
    · exact ih _

theorem splitGo_second (sep : Char) (s cur : Text) (h : sep ∈ s) :
    ∃ v, (splitGo sep s cur)[1]? = some v := by
  induction s generalizing cur with
  | nil => cases h
  | cons c s ih =>
    simp only [splitGo]
    by_cases hc : (c == sep) = true
    · simp only [hc, if_true]
      cases hs : splitGo sep s [] with
      | nil => exact absurd hs (splitGo_ne_nil sep s [])
      | cons x xs => exact ⟨x, by simp⟩
    · simp only [hc, if_false]
      apply ih
      rcases List.mem_cons.mp h with h | h
      · exact absurd (by simp [h]) hc
      · exact h

theorem canon_eq_colon (c : Char) (h : (canon c == canon ':') = true) : c = ':' := by
  have hc : canon ':' = ':' := by decide
  rw [hc, beq_iff_eq] at h
  simp only [canon, Char.toUpper] at h
  split_ifs at h with hr
  · exfalso
    obtain ⟨h1, h2⟩ := hr
    generalize c.toNat = n at h h1 h2
    interval_cases n <;> exact absurd h (by decide)
  · exact h


/-! ## No rule of the catalogue raises -/

theorem fontSizeRe_match_has_colon (s : Text) (m : Match) (hm : m ∈ matchAll fontSizeRe s) :
    ':' ∈ m.text := by
  obtain ⟨q, p1, rest, hacc⟩ := matchAll_mem_accepts fontSizeRe (by decide) s m hm
  have e : fontSizeRe.re =
      .seq (.seq (Re.str "font-size") (.seq Re.ws (.seq (.seq (.set (.chr ':')) .eps)
        (.seq Re.ws .eps))))
        (.seq (Re.plus (.set (CSet.noneOf [';']))) .eps) := rfl
  rw [e] at hacc
  obtain ⟨pa, sa, hdecl, htail⟩ := accepts_seq_inv hacc
  obtain ⟨pb, sb, hlit, hrest1⟩ := accepts_seq_inv hdecl
  obtain ⟨pc, sc, hws, hrest2⟩ := accepts_seq_inv hrest1
  obtain ⟨pd, sd, hcolon, hrest3⟩ := accepts_seq_inv hrest2
  obtain ⟨pe, se, hset, heps⟩ := accepts_seq_inv hcolon
  obtain ⟨c, hc1, -, hc3⟩ := accepts_set_inv hset
  obtain ⟨-, hse⟩ := accepts_eps_inv heps
  have hcc : c = ':' := canon_eq_colon c (by simpa [CSet.mem] using hc3)
  obtain ⟨u1, h1⟩ := hlit.consumed
  obtain ⟨u2, h2⟩ := hws.consumed
  obtain ⟨u3, h3⟩ := hrest3.consumed
  obtain ⟨u4, h4⟩ := htail.consumed
  have hall : m.text ++ rest = (u1 ++ u2 ++ ':' :: u3 ++ u4) ++ rest := by
    rw [h1, h2, hc1, hcc, ← hse, h3, h4]
    simp
  rw [List.append_cancel_right hall]
  simp

theorem isAbsoluteUnit_ok (declaration : Text) (h : ':' ∈ declaration) :
    ∃ b, isAbsoluteUnit declaration = .ok b := by
  obtain ⟨v, hv⟩ := splitGo_second ':' declaration [] h
  unfold isAbsoluteUnit split
  rw [hv]
  exact ⟨_, rfl⟩

theorem foldlM_isAbsoluteUnit_ok (ms : List Match)
    (h : ∀ m ∈ ms, ∃ b, isAbsoluteUnit m.text = .ok b) (n : Nat) :
    ∃ k, ms.foldlM (m := Except String)
      (fun (n : Nat) (declaration : Match) => do
        let ok ← isAbsoluteUnit declaration.text
        pure (if ok then n + 1 else n)) n = .ok k := by
  induction ms generalizing n with
  | nil => exact ⟨n, rfl⟩
  | cons m ms ih =>
    obtain ⟨b, hb⟩ := h m (List.mem_cons_self _ _)
    rw [List.foldlM_cons, hb]
    exact ih (fun x hx => h x (List.mem_cons_of_mem _ hx)) _

theorem fontSizeUnits_test_ok (s : Text) : ∃ b, fontSizeUnits.test s = .ok b := by
  simp only [fontSizeUnits]
  split
  · exact ⟨true, rfl⟩
  · obtain ⟨k, hk⟩ := foldlM_isAbsoluteUnit_ok (matchAll fontSizeRe s)
      (fun m hm => isAbsoluteUnit_ok m.text (fontSizeRe_match_has_colon s m hm)) 0
    simp only [bind, Except.bind] at hk ⊢
    rw [hk]
    exact ⟨_, rfl⟩

theorem getAllRules_test_ok (s : Text) : ∀ r ∈ getAllRules, ∃ b, r.test s = .ok b := by
  intro r hr
  simp only [getAllRules, rules, List.map_cons, List.map_nil, List.mem_cons,
    List.mem_singleton, List.not_mem_nil, or_false] at hr
  rcases hr with h | h | h | h | h | h | h | h | h | h | h | h | h | h | h <;> subst h
  · exact ⟨_, rfl⟩
  · exact ⟨_, rfl⟩
  · exact ⟨_, rfl⟩
  · exact ⟨_, rfl⟩
  · exact ⟨_, rfl⟩
  · exact ⟨_, rfl⟩
  · simp only [imgAltText]; split <;> exact ⟨_, rfl⟩
  · simp only [imgDimensions]; split <;> exact ⟨_, rfl⟩
  · exact ⟨_, rfl⟩
  · exact ⟨_, rfl⟩
  · exact ⟨_, rfl⟩
  · simp only [responsiveTables]; split <;> exact ⟨_, rfl⟩
  · exact fontSizeUnits_test_ok s
  · simp only [secureImages]; split <;> exact ⟨_, rfl⟩
  · simp only [linkStyles]; split <;> exact ⟨_, rfl⟩

theorem getAllRules_message_ok (s : Text) :
    ∀ r ∈ getAllRules, ∀ b, ∃ m, resolveMessage r.message b s = .ok m := by
  intro r hr b
  simp only [getAllRules, rules, List.map_cons, List.map_nil, List.mem_cons,
    List.mem_singleton, List.not_mem_nil, or_false] at hr
  rcases hr with h | h | h | h | h | h | h | h | h | h | h | h | h | h | h <;> subst h
  · exact ⟨_, rfl⟩
  · exact ⟨_, rfl⟩
  · exact ⟨_, rfl⟩
  · exact ⟨_, rfl⟩
  · exact ⟨_, rfl⟩
  · exact ⟨_, rfl⟩
  · simp only [imgAltText, resolveMessage]; split <;> exact ⟨_, rfl⟩
  · simp only [imgDimensions, resolveMessage]; split <;> exact ⟨_, rfl⟩
  · simp only [noForbiddenTags, resolveMessage]; split <;> exact ⟨_, rfl⟩
  · exact ⟨_, rfl⟩
  · exact ⟨_, rfl⟩
  · exact ⟨_, rfl⟩
  · exact ⟨_, rfl⟩
  · simp only [secureImages, resolveMessage]; split <;> exact ⟨_, rfl⟩
  · exact ⟨_, rfl⟩


theorem runRule_rules (s : Text) (rule : Rule) (st : List EvalResult × Nat) :
    (runRule s st rule).1.map (·.rule) =
      st.1.map (·.rule) ++ (if evaluates rule s then [rule] else []) := by
  unfold runRule evaluates
  cases rule.test s with
  | error e => simp
  | ok passed =>
    dsimp only
    cases resolveMessage rule.message passed s with
    | error e => simp
    | ok message => simp

theorem foldl_runRule_rules (s : Text) (rules : List Rule) (st : List EvalResult × Nat) :
    (rules.foldl (runRule s) st).1.map (·.rule) =
      st.1.map (·.rule) ++ rules.filter (fun r => evaluates r s) := by
  induction rules generalizing st with
  | nil => simp
  | cons rule rest ih =>
    rw [List.foldl_cons, ih, runRule_rules, List.filter_cons]
    split <;> simp

theorem runRule_id (s : Text) (rule : Rule) (st : List EvalResult × Nat)
    (hst : ∀ r ∈ st.1, r.id = r.rule.id) :
    ∀ r ∈ (runRule s st rule).1, r.id = r.rule.id := by
  unfold runRule
  cases rule.test s with
  | error e => exact hst
  | ok passed =>
    dsimp only
    cases resolveMessage rule.message passed s with
    | error e => exact hst
    | ok message =>
      intro r hr
      simp only [List.mem_append, List.mem_singleton] at hr
      rcases hr with hr | rfl
      · exact hst r hr
      · rfl

theorem foldl_runRule_id (s : Text) (rules : List Rule) (st : List EvalResult × Nat)
    (hst : ∀ r ∈ st.1, r.id = r.rule.id) :
    ∀ r ∈ (rules.foldl (runRule s) st).1, r.id = r.rule.id := by
  induction rules generalizing st with
  | nil => exact hst
  | cons rule rest ih =>
    rw [List.foldl_cons]
    exact ih _ (runRule_id s rule st hst)

theorem runRule_of_test_error (s : Text) (rule : Rule) (st : List EvalResult × Nat)
    (e : String) (h : rule.test s = .error e) : runRule s st rule = st := by
  unfold runRule
  rw [h]

theorem getAllRules_evaluates (s : Text) : ∀ r ∈ getAllRules, evaluates r s = true := by
  intro r hr
  obtain ⟨b, hb⟩ := getAllRules_test_ok s r hr
  obtain ⟨m, hm⟩ := getAllRules_message_ok s r hr b
  simp [evaluates, hb, hm]

/-- C13. For every string, no test and no message function of the catalogue raises,
so the results of `runChecks` hold exactly one entry per catalogue rule, in catalogue
order, and `results.length = totalChecks`. -/
theorem runChecks_total (s : Text) :
    (∀ r ∈ getAllRules,
      (∃ b, r.test s = .ok b) ∧ ∀ b, ∃ m, resolveMessage r.message b s = .ok m) ∧
    (runChecks s).results.map (·.rule) = getAllRules ∧
    (runChecks s).results.map (·.id) = getAllRules.map (·.id) ∧
    (runChecks s).results.length = (runChecks s).totalChecks := by
  have hrules : (runChecks s).results.map (·.rule) = getAllRules := by
    simp only [runChecks, runChecksOn, foldl_runRule_rules, List.map_nil, List.nil_append]
    exact List.filter_eq_self.mpr (getAllRules_evaluates s)
  have hid : ∀ r ∈ (runChecks s).results, r.id = r.rule.id :=
    foldl_runRule_id s getAllRules ([], 0) (by intro r hr; cases hr)
  refine ⟨fun r hr => ⟨getAllRules_test_ok s r hr, getAllRules_message_ok s r hr⟩,
    hrules, ?_, ?_⟩
  · rw [← hrules, List.map_map]
    exact List.map_congr_left hid
  · have := congrArg List.length hrules
    rw [List.length_map] at this
    rw [this]
    rfl

/-- C14. For any rule list and any document, when the test of a rule raises, the run
still returns a report, and its results, score, `passedCount` and category breakdown
are those of the run over the list without that rule; only `totalChecks` counts the
rule.  In every run the results belong, in list order, to exactly the rules that did
not raise. -/
theorem runChecksOn_skips_raising_rule (before after : List Rule) (rule : Rule) (s : Text)
    (e : String) (h : rule.test s = .error e) :
    (runChecksOn (before ++ rule :: after) s).results =
      (runChecksOn (before ++ after) s).results ∧
    (runChecksOn (before ++ rule :: after) s).score =
      (runChecksOn (before ++ after) s).score ∧
    (runChecksOn (before ++ rule :: after) s).passedCount =
      (runChecksOn (before ++ after) s).passedCount ∧
    (runChecksOn (before ++ rule :: after) s).categoryScores =
      (runChecksOn (before ++ after) s).categoryScores ∧
    (runChecksOn (before ++ rule :: after) s).totalChecks =
      (runChecksOn (before ++ after) s).totalChecks + 1 ∧
    (runChecksOn (before ++ rule :: after) s).results.map (·.rule) =
      (before ++ rule :: after).filter (fun r => evaluates r s) := by
  have hst : (before ++ rule :: after).foldl (runRule s) ([], 0) =
      (before ++ after).foldl (runRule s) ([], 0) := by
    rw [List.foldl_append, List.foldl_cons, runRule_of_test_error s rule _ e h,
      ← List.foldl_append]
  refine ⟨?_, ?_, ?_, ?_, ?_, ?_⟩
  · simp only [runChecksOn, hst]
  · simp only [runChecksOn, hst]
  · simp only [runChecksOn, hst]
  · simp only [runChecksOn, hst]
  · simp [runChecksOn]
    omega
  · simp only [runChecksOn, foldl_runRule_rules, List.map_nil, List.nil_append]

/-- C14 (witness). With a rule whose test raises between `doctype-required` and
`html-tag-required`, the run on the empty document gives the results and the score of
the run over the two other rules, and counts three checks. -/
theorem runChecksOn_skips_raising_rule_witness :
    raisingRule.test [] = .error "Error: boom" ∧
    (runChecksOn [doctypeRequired, raisingRule, htmlTagRequired] []).results =
      (runChecksOn [doctypeRequired, htmlTagRequired] []).results ∧
    (runChecksOn [doctypeRequired, raisingRule, htmlTagRequired] []).score =
      (runChecksOn [doctypeRequired, htmlTagRequired] []).score ∧
    (runChecksOn [doctypeRequired, raisingRule, htmlTagRequired] []).totalChecks = 3 :=
  ⟨rfl,
   (runChecksOn_skips_raising_rule [doctypeRequired] [htmlTagRequired] raisingRule []
      "Error: boom" rfl).1,
   (runChecksOn_skips_raising_rule [doctypeRequired] [htmlTagRequired] raisingRule []
      "Error: boom" rfl).2.1,
   by decide⟩


/-! ## Thresholds of the rule tests -/

theorem ratio_ge_iff (v n : Nat) (hn : 0 < n) :
    ((v : ℚ) / (n : ℚ) ≥ 8 / 10) ↔ 4 * n ≤ 5 * v := by
  have hq : (0 : ℚ) < n := by exact_mod_cast hn
  rw [ge_iff_le, le_div_iff₀ hq]
  constructor
  · intro h
    have h2 : (4 : ℚ) * n ≤ 5 * v := by linarith
    exact_mod_cast h2
  · intro h
    have h2 : (4 : ℚ) * n ≤ 5 * v := by exact_mod_cast h
    linarith

/-- The threshold of the `img-alt` test.  For every document the test returns a
boolean, and it passes if and only if the document has no `<img ...>` tag (no match of
`<img[^>]*>`) or at least 80% of these tags satisfy `hasValidAlt`, the boundary
included: `4 × total ≤ 5 × valid`.  Four such tags out of five pass, three out of five
fail. -/
theorem imgAltText_threshold (s : Text) :
    (∃ b, imgAltText.test s = .ok b) ∧
    (imgAltText.test s = .ok true ↔
      ((matchAll imgTagRe s).length = 0 ∨
        4 * (matchAll imgTagRe s).length ≤
          5 * ((matchAll imgTagRe s).filter fun t => hasValidAlt t.text).length)) ∧
    imgAltText.test (txt ("<img alt=\"abc\"><img alt=\"abc\"><img alt=\"abc\">" ++
      "<img alt=\"abc\"><img alt=\"ab\">")) = .ok true ∧
    imgAltText.test (txt ("<img alt=\"abc\"><img alt=\"abc\"><img alt=\"abc\">" ++
      "<img alt=\"  \"><img>")) = .ok false := by
  refine ⟨?_, ?_, by decide!, by decide!⟩
  · simp only [imgAltText]
    split <;> exact ⟨_, rfl⟩
  · simp only [imgAltText]
    cases hm : matchAll imgTagRe s with
    | nil => simp
    | cons x xs =>
      have hn : 0 < (x :: xs).length := by simp
      simp only [List.isEmpty_cons, Bool.false_eq_true, if_false, Except.ok.injEq,
        Bool.or_eq_true, beq_iff_eq, decide_eq_true_eq]
      rw [ratio_ge_iff _ _ hn]


/-- C19 (the code at the failing input). On `<p style="font-size:2em">Accept</p>`
the `font-size-units` test passes although the only `font-size:` declaration is in
em: the declaration pattern `[^;]+` runs past the closing quote to the end of the
document and the value `2em">Accept</p>` contains the letters `pt`.  The fix of the
same rule does see the em declaration and rewrites it; with a terminating semicolon
the test fails. -/
theorem fontSizeUnits_passes_em :
    fontSizeUnits.test (txt "<p style=\"font-size:2em\">Accept</p>") = .ok true ∧
    (matchAll fontSizeRe (txt "<p style=\"font-size:2em\">Accept</p>")).map (·.text) =
      [txt "font-size:2em\">Accept</p>"] ∧
    (fontSizeUnits.autoFix.map fun fix => fix (txt "<p style=\"font-size:2em\">Accept</p>")) =
      some (txt "<p style=\"font-size: 2px\">Accept</p>") ∧
    fontSizeUnits.test (txt "<p style=\"font-size:2em;\">Accept</p>") = .ok false := by
  refine ⟨by decide, by decide, by decide, by decide⟩

/-- C20 (counterexample). Three `style` attributes with an empty value make the
`inline-css` test pass, and none of them has a non-empty quoted value. -/
theorem inlineStyles_counts_empty_values :
    inlineStyles.test (txt "<p style=\"\"><p style=\"\"><p style=\"\">") = .ok true ∧
    nonEmptyStyleCount (txt "<p style=\"\"><p style=\"\"><p style=\"\">") = 0 := by
  refine ⟨by decide, by decide⟩

/-- C20 (amended). For every document the `inline-css` test returns a boolean, and it
passes if and only if the document holds at least 3 matches of the pattern
`style\s*=\s*["'][^"']*["']`, that is, at least 3 occurrences of a `style` attribute
with a quoted value, empty or not. -/
theorem inlineStyles_threshold (s : Text) :
    (∃ b, inlineStyles.test s = .ok b) ∧
    (inlineStyles.test s = .ok true ↔ 3 ≤ (matchAll styleAttrRe s).length) ∧
    nonEmptyStyleCount s ≤ (matchAll styleAttrRe s).length := by
  refine ⟨⟨_, rfl⟩, ?_, List.length_filter_le _ _⟩
  simp only [inlineStyles, Except.ok.injEq, Bool.and_eq_true, Bool.not_eq_true',
    decide_eq_true_eq, ge_iff_le]
  constructor
  · exact fun h => h.2
  · intro h
    refine ⟨?_, h⟩
    cases hm : matchAll styleAttrRe s with
    | nil => simp [hm] at h
    | cons x xs => rfl



/-! ## Quick fixes -/

theorem any_key_iff (cats : List (String × List EvalResult)) (c : String) :
    (cats.any fun kv => kv.1 == c) = true ↔ c ∈ cats.map (·.1) := by
  simp only [List.any_eq_true, beq_iff_eq, List.mem_map]

theorem pushIssue_eq_pushOk (cats : List (String × List EvalResult)) (r : EvalResult)
    (h : objectPrototypeKeys.contains r.category = false) :
    pushIssue cats r = .ok (pushOk cats r) := by
  unfold pushIssue pushOk
  split
  · rfl
  · rw [h]
    rfl

theorem foldlM_pushIssue (rs : List EvalResult)
    (h : ∀ r ∈ rs, objectPrototypeKeys.contains r.category = false)
    (cats : List (String × List EvalResult)) :
    rs.foldlM pushIssue cats = .ok (rs.foldl pushOk cats) := by
  induction rs generalizing cats with
  | nil => rfl
  | cons r rs ih =>
    rw [List.foldlM_cons, pushIssue_eq_pushOk cats r (h r (List.mem_cons_self _ _))]
    exact ih (fun x hx => h x (List.mem_cons_of_mem _ hx)) _

theorem pushOk_present (cats : List (String × List EvalResult)) (r : EvalResult)
    (h : r.category ∈ cats.map (·.1)) :
    pushOk cats r =
      cats.map fun kv => (kv.1, kv.2 ++ [r].filter fun x => x.category == kv.1) := by
  unfold pushOk
  rw [if_pos ((any_key_iff cats r.category).mpr h)]
  apply List.map_congr_left
  intro kv _
  by_cases he : kv.1 = r.category
  · simp [he, List.filter_cons]
  · have he2 : ¬ r.category = kv.1 := fun h => he h.symm
    simp [he, he2, List.filter_cons]

theorem pushOk_absent (cats : List (String × List EvalResult)) (r : EvalResult)
    (h : r.category ∉ cats.map (·.1)) :
    pushOk cats r =
      (cats.map fun kv => (kv.1, kv.2 ++ [r].filter fun x => x.category == kv.1)) ++
        [(r.category, [r])] := by
  unfold pushOk
  rw [if_neg (fun hh => h ((any_key_iff cats r.category).mp hh))]
  congr 1
  symm
  conv_rhs => rw [← List.map_id cats]
  apply List.map_congr_left
  intro kv hkv
  have hne : ¬ r.category = kv.1 := by
    intro he
    exact h (List.mem_map.mpr ⟨kv, hkv, he.symm⟩)
  simp [List.filter_cons, hne]

theorem filter_cons_split (r : EvalResult) (rs : List EvalResult) (c : String) :
    (r :: rs).filter (fun x => x.category == c) =
      ([r].filter fun x => x.category == c) ++ rs.filter fun x => x.category == c := by
  rw [← List.filter_append]
  rfl

theorem foldl_pushOk (rs : List EvalResult) (cats : List (String × List EvalResult)) :
    rs.foldl pushOk cats =
      (cats.map fun kv => (kv.1, kv.2 ++ rs.filter fun r => r.category == kv.1)) ++
      ((firstOccurrences (rs.map (·.category))).filter
        fun c => decide (c ∉ cats.map (·.1))).map
        fun c => (c, rs.filter fun r => r.category == c) := by
  induction rs generalizing cats with
  | nil => simp [firstOccurrences]
  | cons r rs ih =>
    rw [List.foldl_cons, ih]
    by_cases hk : r.category ∈ cats.map (·.1)
    · rw [pushOk_present cats r hk]
      have hkeys : (cats.map fun kv =>
          (kv.1, kv.2 ++ [r].filter fun x => x.category == kv.1)).map (·.1) =
          cats.map (·.1) := by
        rw [List.map_map]
        rfl
      rw [hkeys, List.map_map]
      congr 1
      · apply List.map_congr_left
        intro kv _
        simp only [Function.comp, List.append_assoc, ← filter_cons_split]
      · have hfo : (firstOccurrences ((r :: rs).map (·.category))).filter
            (fun c => decide (c ∉ cats.map (·.1))) =
            (firstOccurrences (rs.map (·.category))).filter
              (fun c => decide (c ∉ cats.map (·.1))) := by
          simp only [List.map_cons, firstOccurrences, List.filter_cons, hk, not_true_eq_false,
            decide_False, Bool.false_eq_true, if_false, List.filter_filter]
          apply List.filter_congr
          intro c _
          by_cases hc : c ∈ cats.map (·.1)
          · simp [hc]
          · have : c ≠ r.category := fun h => hc (h ▸ hk)
            simp [hc, this]
        rw [hfo]
        apply List.map_congr_left
        intro c hc
        simp only [List.mem_filter, decide_eq_true_eq] at hc
        have hne : ¬ r.category = c := fun h => hc.2 (h ▸ hk)
        simp [List.filter_cons, hne]
    · rw [pushOk_absent cats r hk]
      have hkeys : ((cats.map fun kv =>
          (kv.1, kv.2 ++ [r].filter fun x => x.category == kv.1)) ++
            [(r.category, [r])]).map (·.1) = cats.map (·.1) ++ [r.category] := by
        rw [List.map_append, List.map_map]
        rfl
      rw [hkeys, List.map_append, List.map_map, List.append_assoc]
      congr 1
      · apply List.map_congr_left
        intro kv _
        simp only [Function.comp, List.append_assoc, ← filter_cons_split]
      · have hfo : (firstOccurrences ((r :: rs).map (·.category))).filter
            (fun c => decide (c ∉ cats.map (·.1))) =
            r.category :: (firstOccurrences (rs.map (·.category))).filter
              (fun c => decide (c ∉ cats.map (·.1) ++ [r.category])) := by
          simp only [List.map_cons, firstOccurrences, List.filter_cons, hk, not_false_eq_true,
            decide_True, if_true, List.filter_filter, List.cons.injEq, true_and]
          apply List.filter_congr
          intro c _
          by_cases hc : c ∈ cats.map (·.1)
          · simp [hc]
          · by_cases hc2 : c = r.category
            · simp [hc2]
            · simp [hc, hc2]
        rw [hfo, List.map_cons, List.map_cons, List.map_nil, List.singleton_append]
        congr 1
        · simp [List.filter_cons]
        · apply List.map_congr_left
          intro c hc
          simp only [List.mem_filter, decide_eq_true_eq, List.mem_append, List.mem_singleton,
            not_or] at hc
          have hne : ¬ r.category = c := fun h => hc.2.2 h.symm
          simp [List.filter_cons, hne]

theorem mem_firstOccurrences (xs : List String) (c : String) :
    c ∈ firstOccurrences xs ↔ c ∈ xs := by
  induction xs with
  | nil => simp [firstOccurrences]
  | cons x xs ih =>
    simp only [firstOccurrences, List.mem_cons, List.mem_filter, ih, bne_iff_ne, ne_eq]
    constructor
    · rintro (h | ⟨h, _⟩)
      · exact Or.inl h
      · exact Or.inr h
    · intro h
      by_cases hc : c = x
      · exact Or.inl hc
      · rcases h with h | h
        · exact absurd h hc
        · exact Or.inr ⟨h, hc⟩

theorem nodup_firstOccurrences (xs : List String) : (firstOccurrences xs).Nodup := by
  induction xs with
  | nil => simp [firstOccurrences]
  | cons x xs ih =>
    simp only [firstOccurrences, List.nodup_cons, List.mem_filter, bne_self_eq_false,
      Bool.false_eq_true, and_false, not_false_eq_true, true_and]
    exact ih.filter _

theorem insertFix_perm (a : QuickFix) (l : List QuickFix) : (insertFix a l).Perm (a :: l) := by
  induction l with
  | nil => exact List.Perm.refl _
  | cons b rest ih =>
    simp only [insertFix]
    split
    · exact List.Perm.refl _
    · exact ((List.Perm.cons b ih).trans (List.Perm.swap a b rest))

theorem sortFixes_perm (l : List QuickFix) : (sortFixes l).Perm l := by
  induction l with
  | nil => exact List.Perm.refl _
  | cons a rest ih =>
    simp only [sortFixes, List.foldr_cons]
    exact (insertFix_perm a _).trans (List.Perm.cons a ih)

theorem insertFix_sorted (a : QuickFix) (l : List QuickFix)
    (h : l.Pairwise fun x y => priorityOrder x.priority ≤ priorityOrder y.priority) :
    (insertFix a l).Pairwise fun x y => priorityOrder x.priority ≤ priorityOrder y.priority := by
  induction l with
  | nil => simp [insertFix]
  | cons b rest ih =>
    simp only [insertFix]
    rw [List.pairwise_cons] at h
    split
    · rename_i hab
      refine List.Pairwise.cons ?_ (List.Pairwise.cons h.1 h.2)
      intro y hy
      rcases List.mem_cons.mp hy with rfl | hy
      · omega
      · have := h.1 y hy
        omega
    · rename_i hab
      refine List.Pairwise.cons ?_ (ih h.2)
      intro y hy
      rcases List.mem_cons.mp ((insertFix_perm a rest).subset hy) with rfl | hy
      · omega
      · exact h.1 y hy

theorem sortFixes_sorted (l : List QuickFix) :
    (sortFixes l).Pairwise fun x y => priorityOrder x.priority ≤ priorityOrder y.priority := by
  induction l with
  | nil => simp [sortFixes]
  | cons a rest ih =>
    simp only [sortFixes, List.foldr_cons]
    exact insertFix_sorted a _ ih

theorem insertFix_filter (a : QuickFix) (l : List QuickFix) (p : String) :
    (insertFix a l).filter (fun g => g.priority == p) =
      (a :: l).filter (fun g => g.priority == p) := by
  induction l with
  | nil => rfl
  | cons b rest ih =>
    simp only [insertFix]
    split
    · rfl
    · rename_i hab
      have hne : a.priority ≠ b.priority := by
        intro h
        rw [h] at hab
        omega
      rw [List.filter_cons, ih]
      by_cases ha : a.priority = p
      · have hb : ¬ b.priority = p := fun hb => hne (ha.trans hb.symm)
        simp [List.filter_cons, ha, hb]
      · simp [List.filter_cons, ha]

theorem sortFixes_filter (l : List QuickFix) (p : String) :
    (sortFixes l).filter (fun g => g.priority == p) = l.filter (fun g => g.priority == p) := by
  induction l with
  | nil => rfl
  | cons a rest ih =>
    simp only [sortFixes, List.foldr_cons]
    rw [insertFix_filter, List.filter_cons, List.filter_cons]
    simp only [sortFixes] at ih
    rw [ih]

theorem insertIndexKey_perm (kv : String × List EvalResult)
    (l : List (String × List EvalResult)) : (insertIndexKey kv l).Perm (kv :: l) := by
  induction l with
  | nil => exact List.Perm.refl _
  | cons b rest ih =>
    simp only [insertIndexKey]
    split
    · exact List.Perm.refl _
    · exact ((List.Perm.cons b ih).trans (List.Perm.swap kv b rest))

theorem objectEntries_perm (own : List (String × List EvalResult)) :
    (objectEntries own).Perm own := by
  unfold objectEntries
  have h1 : ((own.filter fun kv => isArrayIndex kv.1).foldr insertIndexKey []).Perm
      (own.filter fun kv => isArrayIndex kv.1) := by
    generalize own.filter (fun kv => isArrayIndex kv.1) = l
    induction l with
    | nil => exact List.Perm.refl _
    | cons a rest ih =>
      simp only [List.foldr_cons]
      exact (insertIndexKey_perm a _).trans (List.Perm.cons a ih)
  exact (List.Perm.append_right _ h1).trans (List.filter_append_perm _ own)

theorem objectEntries_of_no_index (own : List (String × List EvalResult))
    (h : ∀ kv ∈ own, isArrayIndex kv.1 = false) : objectEntries own = own := by
  unfold objectEntries
  have h1 : own.filter (fun kv => isArrayIndex kv.1) = [] := by
    rw [List.filter_eq_nil_iff]
    intro kv hkv
    simp [h kv hkv]
  have h2 : own.filter (fun kv => !isArrayIndex kv.1) = own := by
    rw [List.filter_eq_self]
    intro kv hkv
    simp [h kv hkv]
  rw [h1, h2]
  rfl

theorem makeFix_eq_specGroup (results : List EvalResult) (c : String) :
    makeFix (c, (results.filter fun r => !r.passed).filter fun r => r.category == c) =
      specGroup results c := by
  have hf : ((results.filter fun r => !r.passed).filter fun r => r.category == c) =
      results.filter fun r => !r.passed && r.category == c := by
    rw [List.filter_filter]
    apply List.filter_congr
    intro x _
    exact Bool.and_comm _ _
  rw [hf]
  unfold makeFix specGroup specPriority
  congr 1
  simp only [List.any_eq_true, beq_iff_eq]

theorem grouped_entries (results : List EvalResult)
    (h : ∀ r ∈ results, r.passed = false → objectPrototypeKeys.contains r.category = false) :
    (results.filter fun r => !r.passed).foldlM pushIssue [] =
      .ok ((failedCategories results).map fun c =>
        (c, (results.filter fun r => !r.passed).filter fun r => r.category == c)) := by
  rw [foldlM_pushIssue _ (by
    intro r hr
    simp only [List.mem_filter, Bool.not_eq_true'] at hr
    exact h r hr.1 hr.2), foldl_pushOk]
  simp [failedCategories]

theorem mem_failedCategories (results : List EvalResult) (c : String) :
    c ∈ failedCategories results ↔ ∃ r ∈ results, r.passed = false ∧ r.category = c := by
  unfold failedCategories
  rw [mem_firstOccurrences]
  simp only [List.mem_map, List.mem_filter, Bool.not_eq_true']
  constructor
  · rintro ⟨r, ⟨h1, h2⟩, h3⟩
    exact ⟨r, h1, h2, h3⟩
  · rintro ⟨r, h1, h2, h3⟩
    exact ⟨r, ⟨h1, h2⟩, h3⟩

theorem generateQuickFixes_perm (results : List EvalResult)
    (h : ∀ r ∈ results, r.passed = false → objectPrototypeKeys.contains r.category = false) :
    ∃ groups, generateQuickFixes results = .ok groups ∧
      groups.Perm ((failedCategories results).map (specGroup results)) := by
  have hok : generateQuickFixes results =
      .ok (sortFixes (((objectEntries ((failedCategories results).map fun c =>
        (c, (results.filter fun r => !r.passed).filter fun r => r.category == c))).filter
          fun kv => decide (kv.2.length > 0)).map makeFix)) := by
    unfold generateQuickFixes
    rw [grouped_entries results h]
    rfl
  refine ⟨_, hok, ?_⟩
  have hnonempty : ∀ kv ∈ objectEntries ((failedCategories results).map fun c =>
      (c, (results.filter fun r => !r.passed).filter fun r => r.category == c)),
      decide (kv.2.length > 0) = true := by
    intro kv hkv
    have hkv2 := (objectEntries_perm _).subset hkv
    simp only [List.mem_map] at hkv2
    obtain ⟨c, hc, rfl⟩ := hkv2
    obtain ⟨r, hr, hp, hcat⟩ := (mem_failedCategories results c).mp hc
    simp only [decide_eq_true_eq, gt_iff_lt, List.length_pos]
    apply List.ne_nil_of_mem (a := r)
    simp [hr, hp, hcat]
  rw [List.filter_eq_self.mpr hnonempty]
  refine (sortFixes_perm _).trans ?_
  refine ((objectEntries_perm _).map makeFix).trans ?_
  rw [List.map_map]
  exact List.Perm.of_eq (List.map_congr_left fun c _ => makeFix_eq_specGroup results c)

theorem generateQuickFixes_sorted (results : List EvalResult)
    (h : ∀ r ∈ results, r.passed = false → objectPrototypeKeys.contains r.category = false)
    (hidx : ∀ r ∈ results, r.passed = false → isArrayIndex r.category = false) :
    generateQuickFixes results =
      .ok (sortFixes ((failedCategories results).map (specGroup results))) := by
  unfold generateQuickFixes
  rw [grouped_entries results h]
  have hno : ∀ kv ∈ (failedCategories results).map (fun c =>
      (c, (results.filter fun r => !r.passed).filter fun r => r.category == c)),
      isArrayIndex kv.1 = false := by
    intro kv hkv
    simp only [List.mem_map] at hkv
    obtain ⟨c, hc, rfl⟩ := hkv
    obtain ⟨r, hr, hp, hcat⟩ := (mem_failedCategories results c).mp hc
    exact hcat ▸ hidx r hr hp
  have hnonempty : ∀ kv ∈ (failedCategories results).map (fun c =>
      (c, (results.filter fun r => !r.passed).filter fun r => r.category == c)),
      decide (kv.2.length > 0) = true := by
    intro kv hkv
    simp only [List.mem_map] at hkv
    obtain ⟨c, hc, rfl⟩ := hkv
    obtain ⟨r, hr, hp, hcat⟩ := (mem_failedCategories results c).mp hc
    simp only [decide_eq_true_eq, gt_iff_lt, List.length_pos]
    apply List.ne_nil_of_mem (a := r)
    simp [hr, hp, hcat]
  show Except.ok (sortFixes (((objectEntries _).filter _).map makeFix)) = _
  rw [objectEntries_of_no_index _ hno, List.filter_eq_self.mpr hnonempty, List.map_map]
  congr 2
  exact List.map_congr_left fun c _ => makeFix_eq_specGroup results c


theorem priorityOrder_eq_zero (p : String) : priorityOrder p = 0 ↔ p = "high" := by
  unfold priorityOrder
  split_ifs with h1 h2
  · simp [h1]
  · simp [h1]
  · simp [h1]

theorem specPriority_high (issues : List EvalResult) :
    specPriority issues = "high" ↔ ∃ i ∈ issues, i.level = "error" := by
  unfold specPriority
  split_ifs with h1 h2
  · simp [h1]
  · simp only [h1, iff_false]
    decide
  · simp only [h1, iff_false]
    decide

/-! ## Claim C17: removal of a forbidden element -/

theorem lastOr_cons (q : Option Char) (c : Char) (u : Text) :
    lastOr q (c :: u) = lastOr (some c) u := by
  cases u with
  | nil => rfl
  | cons d u =>
    simp only [lastOr, List.getLast?_cons_cons]
    cases h : (d :: u).getLast? with
    | none => simp at h
    | some x => rfl

theorem matchRe_literal (lit : List Char) (q : Option Char) (t : Text) (caps : Caps)
    (k : MCont) :
    matchRe (lit.foldr (fun c r => Re.seq (.set (.chr c)) r) .eps) true q t caps k =
      if startsWithCI t lit then k (lastOr q (t.take lit.length)) (t.drop lit.length) caps
      else none := by
  induction lit generalizing q t with
  | nil => simp [matchRe, startsWithCI, lastOr]
  | cons l ls ih =>
    cases t with
    | nil => simp [matchRe, startsWithCI]
    | cons c t =>
      simp only [List.foldr_cons, matchRe, CSet.mem, if_true, startsWithCI,
        List.length_cons, List.take_succ_cons, List.drop_succ_cons, lastOr_cons]
      by_cases hc : (canon c == canon l) = true
      · simp only [hc, if_true, Bool.true_and]
        exact ih (some c) t
      · simp [hc]

theorem matchRe_str (lit : String) (q : Option Char) (t : Text) (caps : Caps) (k : MCont) :
    matchRe (Re.str lit) true q t caps k =
      if startsWithCI t lit.data then
        k (lastOr q (t.take lit.data.length)) (t.drop lit.data.length) caps
      else none :=
  matchRe_literal lit.data q t caps k

theorem startsWithCI_append (a b lit : Text) (h : startsWithCI a lit = true) :
    startsWithCI (a ++ b) lit = true := by
  induction lit generalizing a with
  | nil => cases a <;> simp [startsWithCI]
  | cons l ls ih =>
    cases a with
    | nil => simp [startsWithCI] at h
    | cons c a =>
      simp only [startsWithCI, Bool.and_eq_true, List.cons_append] at h ⊢
      exact ⟨h.1, ih a h.2⟩

/-- The matcher on a literal at a text that begins with a spelling of it. -/
theorem matchRe_str_head (lit : String) (a b : Text) (q : Option Char) (caps : Caps)
    (k : MCont) (hlen : a.length = lit.data.length) (h : startsWithCI a lit.data = true) :
    matchRe (Re.str lit) true q (a ++ b) caps k = k (lastOr q a) b caps := by
  rw [matchRe_str, startsWithCI_append a b _ h, if_pos rfl, ← hlen, List.take_left,
    List.drop_left]

/-- Greedy `[set]*` takes the longest run of members when the rest of the pattern
matches after it. -/
theorem repGo_set_greedy (cs : CSet) (ci : Bool) (v : Text) (caps : Caps) (k : MCont)
    (res : Text × Caps) (hv : ∀ c ∈ v.head?, cs.mem ci c = false) :
    ∀ (u : Text) (q : Option Char) (fuel : Nat), u.length < fuel →
      (∀ c ∈ u, cs.mem ci c = true) → k (lastOr q u) v caps = some res →
      repGo (matchRe (.set cs) ci) true fuel 0 none q (u ++ v) caps k = some res := by
  intro u
  induction u with
  | nil =>
    intro q fuel hf _ hk
    obtain ⟨f, rfl⟩ : ∃ f, fuel = f + 1 := ⟨fuel - 1, by simp at hf; omega⟩
    have hbody : ∀ d, matchRe (.set cs) ci q v caps d = none := by
      intro d
      cases v with
      | nil => simp [matchRe]
      | cons c v =>
        have := hv c (by simp)
        simp [matchRe, this]
    simp only [List.nil_append, repGo, hbody]
    simpa [lastOr] using hk
  | cons c u ih =>
    intro q fuel hf hu hk
    obtain ⟨f, rfl⟩ : ∃ f, fuel = f + 1 := ⟨fuel - 1, by simp at hf; omega⟩
    have hc : cs.mem ci c = true := hu c (by simp)
    have hrec := ih (some c) f (by simpa using hf) (fun x hx => hu x (by simp [hx]))
      (by rw [← lastOr_cons]; exact hk)
    have hbody : ∀ d, matchRe (.set cs) ci q (c :: (u ++ v)) caps d =
        d (some c) (u ++ v) caps := by
      intro d
      simp only [matchRe, hc, if_true]
    simp only [List.cons_append, repGo, hbody]
    simp [hrec]

theorem matchRe_star_set (cs : CSet) (ci : Bool) (u v : Text) (q : Option Char) (caps : Caps)
    (k : MCont) (res : Text × Caps) (hu : ∀ c ∈ u, cs.mem ci c = true)
    (hv : ∀ c ∈ v.head?, cs.mem ci c = false) (hk : k (lastOr q u) v caps = some res) :
    matchRe (Re.star (.set cs)) ci q (u ++ v) caps k = some res := by
  simp only [Re.star, matchRe]
  exact repGo_set_greedy cs ci v caps k res hv u q _ (by simp; omega) hu hk

/-- A star whose body cannot match at all matches the empty text. -/
theorem matchRe_star_of_body_fails (r : Re) (ci : Bool) (q : Option Char) (t : Text)
    (caps : Caps) (k : MCont) (h : ∀ d, matchRe r ci q t caps d = none) :
    matchRe (Re.star r) ci q t caps k = k q t caps := by
  simp only [Re.star, matchRe, Nat.zero_add]
  rw [show t.length + 2 = (t.length + 1) + 1 from rfl]
  simp only [repGo, h]
  simp

/-- A pattern that opens with a literal fails where the text does not start with it. -/
theorem execAt_none_of_opener (r : RegExp) (lit : String) (rest : Re)
    (hre : r.re = .seq (Re.str lit) rest) (hci : r.ignoreCase = true) (q : Option Char)
    (t : Text) (h : startsWithCI t lit.data = false) : execAt r q t = none := by
  unfold execAt
  rw [hre, hci]
  simp only [matchRe]
  rw [matchRe_str, h]
  rfl

/-- A global replacement leaves a text alone in which the opening literal of the
pattern does not occur. -/
theorem replaceGo_of_no_opener (r : RegExp) (lit : String) (rest : Re)
    (hre : r.re = .seq (Re.str lit) rest) (hci : r.ignoreCase = true) (f : Match → Text) :
    ∀ t q, includesCI t lit.data = false → replaceGo r f 0 q t = t := by
  intro t
  induction t with
  | nil =>
    intro q h
    simp only [includesCI] at h
    simp only [replaceGo, execAt_none_of_opener r lit rest hre hci q [] h]
  | cons c t ih =>
    intro q h
    simp only [includesCI, Bool.or_eq_false_iff] at h
    simp only [replaceGo, execAt_none_of_opener r lit rest hre hci q (c :: t) h.1]
    rw [ih (some c) h.2]

theorem replaceAll_of_no_opener (r : RegExp) (lit : String) (rest : Re)
    (hre : r.re = .seq (Re.str lit) rest) (hci : r.ignoreCase = true) (f : Match → Text)
    (t : Text) (h : includesCI t lit.data = false) : replaceAll r f t = t :=
  replaceGo_of_no_opener r lit rest hre hci f t none h


theorem replaceGo_cons_of_none (r : RegExp) (f : Match → Text) (q : Option Char) (c : Char)
    (t : Text) (h : execAt r q (c :: t) = none) :
    replaceGo r f 0 q (c :: t) = c :: replaceGo r f 0 (some c) t := by
  simp only [replaceGo, h]

theorem matchRe_seq (a b : Re) (ci : Bool) (q : Option Char) (t : Text) (caps : Caps)
    (k : MCont) :
    matchRe (.seq a b) ci q t caps k =
      matchRe a ci q t caps (fun p1 s1 c1 => matchRe b ci p1 s1 c1 k) := by
  simp only [matchRe]

theorem matchRe_notAhead_of_some (r : Re) (ci : Bool) (q : Option Char) (t : Text)
    (caps : Caps) (k : MCont) (res : Text × Caps)
    (h : matchRe r ci q t caps (fun _ s1 c1 => some (s1, c1)) = some res) :
    matchRe (.notAhead r) ci q t caps k = none := by
  simp only [matchRe, h]

theorem replaceGo_skip (r : RegExp) (f : Match → Text) (v : Text) :
    ∀ (u : Text) (q : Option Char),
      replaceGo r f u.length q (u ++ v) = replaceGo r f 0 (lastOr q u) v := by
  intro u
  induction u with
  | nil => intro q; rfl
  | cons c u ih =>
    intro q
    rw [lastOr_cons, ← ih (some c)]
    rfl

/-- A spelling of a literal cannot begin in `u` and run into a following `<` when the
literal holds no `<`. -/
theorem startsWithCI_no_straddle (y s : Text) :
    ∀ (lit u : Text), (∀ l ∈ lit, canon l ≠ '<') →
      startsWithCI (u ++ '<' :: y) lit = true → startsWithCI (u ++ s) lit = true := by
  intro lit
  induction lit with
  | nil => intro u _ _; cases h : u ++ s <;> simp [startsWithCI]
  | cons l ls ih =>
    intro u hl h
    cases u with
    | nil =>
      simp only [List.nil_append, startsWithCI, Bool.and_eq_true, beq_iff_eq] at h
      exact absurd h.1.symm (by simpa using hl l (by simp))
    | cons c u =>
      simp only [List.cons_append, startsWithCI, Bool.and_eq_true] at h ⊢
      exact ⟨h.1, ih u (fun x hx => hl x (by simp [hx])) h.2⟩

theorem includesCI_of_append (p s lit : Text) (h : includesCI (p ++ s) lit = false) :
    includesCI s lit = false := by
  induction p with
  | nil => simpa using h
  | cons c p ih =>
    simp only [List.cons_append, includesCI, Bool.or_eq_false_iff] at h
    exact ih h.2

/-- A global replacement copies the text before an element that starts with `<`
when the opening literal of the pattern does not occur around the element. -/
theorem replaceGo_scan (r : RegExp) (lit : String) (rest : Re) (l0 : Char) (ls : Text)
    (hre : r.re = .seq (Re.str lit) rest) (hci : r.ignoreCase = true) (f : Match → Text)
    (hlit : lit.data = l0 :: ls) (hls : ∀ l ∈ ls, canon l ≠ '<') (y s : Text) :
    ∀ (p : Text) (q : Option Char), includesCI (p ++ s) lit.data = false →
      replaceGo r f 0 q (p ++ '<' :: y) = p ++ replaceGo r f 0 (lastOr q p) ('<' :: y) := by
  intro p
  induction p with
  | nil => intro q _; rfl
  | cons c p ih =>
    intro q h
    change includesCI (c :: (p ++ s)) lit.data = false at h
    rw [includesCI, Bool.or_eq_false_iff] at h
    have hno : startsWithCI (c :: (p ++ '<' :: y)) lit.data = false := by
      rw [Bool.eq_false_iff]
      intro hyes
      rw [hlit] at hyes h
      simp only [startsWithCI, Bool.and_eq_true] at hyes
      have := startsWithCI_no_straddle y s ls p hls hyes.2
      simp [startsWithCI, hyes.1, this] at h
    rw [List.cons_append, replaceGo_cons_of_none r f q c _
      (execAt_none_of_opener r lit rest hre hci q _ hno), ih (some c) h.2, lastOr_cons,
      List.cons_append]

theorem startsWithCI_of_startsWith (t lit : Text) (h : startsWith t lit = true) :
    startsWithCI t lit = true := by
  induction lit generalizing t with
  | nil => cases t <;> simp [startsWithCI]
  | cons l ls ih =>
    cases t with
    | nil => simp [startsWith] at h
    | cons c t =>
      simp only [startsWith, Bool.and_eq_true, beq_iff_eq] at h
      simp only [startsWithCI, Bool.and_eq_true, beq_iff_eq]
      exact ⟨by rw [h.1], ih t h.2⟩

theorem includesCI_of_includes (t lit : Text) (h : includes t lit = true) :
    includesCI t lit = true := by
  induction t with
  | nil => exact startsWithCI_of_startsWith _ _ h
  | cons c t ih =>
    simp only [includes, Bool.or_eq_true] at h
    simp only [includesCI, Bool.or_eq_true]
    rcases h with h | h
    · exact Or.inl (startsWithCI_of_startsWith _ _ h)
    · exact Or.inr (ih h)

/-- The pattern for `script` elements matches the element `<script>alert(1)</script>`
where it stands, whatever follows. -/
theorem execAt_script_element (q : Option Char) (s : Text) :
    execAt (pairedTagRe "script") q (txt "<script>alert(1)</script>" ++ s) = some (s, []) := by
  have hX : txt "<script>alert(1)</script>" ++ s =
      txt "<script" ++ (txt ">alert(1)" ++ (txt "</script>" ++ s)) := by
    simp [txt]
  rw [hX]
  have h1 : ("<" ++ "script" : String) = "<script" := by decide
  have h2 : ("</" ++ "script" ++ ">" : String) = "</script>" := by decide
  unfold execAt pairedTagRe
  simp only [Re.cat, List.foldr, h1, h2, matchRe_seq]
  rw [matchRe_str_head _ _ _ _ _ _ (by decide) (by decide)]
  have hprev : lastOr q (txt "<script") = some 't' := by
    unfold lastOr; rfl
  rw [hprev]
  have hw : ∀ (k : MCont) (b : Text), matchRe .wordB true (some 't') ('>' :: b) [] k =
      k (some 't') ('>' :: b) [] := by
    intro k b
    simp only [matchRe]
    rw [if_pos (by decide)]
  have hB : txt ">alert(1)" ++ (txt "</script>" ++ s) =
      '>' :: (txt "alert(1)" ++ (txt "</script>" ++ s)) := rfl
  rw [hB, hw, ← hB]
  unfold Re.upTo
  apply matchRe_star_set _ _ _ _ _ _ _ _ (by decide) (by simp [txt, CSet.noneOf, CSet.mem, canon])
  have hprev2 : lastOr (some 't') (txt ">alert(1)") = some ')' := by
    unfold lastOr; rfl
  rw [hprev2, matchRe_star_of_body_fails]
  · rw [matchRe_str_head _ _ _ _ _ _ (by decide) (by decide)]
    simp only [matchRe]
  · intro d
    rw [matchRe_seq]
    apply matchRe_notAhead_of_some _ _ _ _ _ _ (s, [])
    rw [matchRe_str_head _ _ _ _ _ _ (by decide) (by decide)]

/-- The removal of `script` elements maps `p ++ <script>alert(1)</script> ++ s` to
`p ++ s` when no `<script` occurs in `p ++ s`. -/
theorem replaceAll_script_element (p s : Text)
    (h : includesCI (p ++ s) (txt "<script") = false) :
    replaceAll (pairedTagRe "script") (fun _ => [])
      (p ++ (txt "<script>alert(1)</script>" ++ s)) = p ++ s := by
  have hX : txt "<script>alert(1)</script>" ++ s =
      '<' :: (txt "script>alert(1)</script>" ++ s) := rfl
  have hscan := replaceGo_scan (pairedTagRe "script") "<script" _ '<' (txt "script") rfl rfl
    (fun _ => []) rfl (by decide) (txt "script>alert(1)</script>" ++ s) s p none h
  have hexec := execAt_script_element (lastOr none p) s
  rw [hX] at hexec
  have hlen : ('<' :: (txt "script>alert(1)</script>" ++ s)).length - s.length - 1 =
      (txt "script>alert(1)</script>").length := by
    simp only [List.length_cons, List.length_append]
    omega
  have hne : ¬ ('<' :: (txt "script>alert(1)</script>" ++ s)).length - s.length = 0 := by
    simp only [List.length_cons, List.length_append]
    omega
  have hgo : replaceGo (pairedTagRe "script") (fun _ => []) 0 (lastOr none p)
      ('<' :: (txt "script>alert(1)</script>" ++ s)) = s := by
    simp only [replaceGo, hexec, List.nil_append]
    rw [if_neg hne, hlen, replaceGo_skip]
    exact replaceGo_of_no_opener (pairedTagRe "script") "<script" _ rfl rfl _ s _
      (includesCI_of_append p s _ h)
  unfold replaceAll
  rw [hX, hscan, hgo]

/-- Claim C17: for all texts `p` and `s` such that `p ++ s` contains none of the ten
openers in any letter case, the test of `noForbiddenTags` fails on
`p ++ "<script>alert(1)</script>" ++ s`, the autoFix of the rule maps that document to
exactly `p ++ s`, and the test passes on the result. -/
theorem noForbiddenTags_removes_script_element (p s : Text)
    (h : ∀ o ∈ ["<script", "<form", "<video", "<iframe", "<audio", "<object", "<embed",
      "<input", "<textarea", "<button"], includesCI (p ++ s) (txt o) = false) :
    noForbiddenTags.test (p ++ txt "<script>alert(1)</script>" ++ s) = .ok false ∧
    (noForbiddenTags.autoFix.map fun fix => fix (p ++ txt "<script>alert(1)</script>" ++ s))
      = some (p ++ s) ∧
    noForbiddenTags.test (p ++ s) = .ok true := by
  refine ⟨?_, ?_, ?_⟩
  · have hin : includes (p ++ txt "<script>alert(1)</script>" ++ s) (txt "<script") = true :=
      includes_append_right _ _ _ (includes_append_left _ _ _ (by decide))
    have hany : (forbiddenTags.any fun tag =>
        includes (p ++ txt "<script>alert(1)</script>" ++ s) (txt tag.1)) = true :=
      List.any_eq_true.mpr ⟨("<script", "script"), by simp [forbiddenTags], hin⟩
    simp only [noForbiddenTags, hany, Bool.not_true]
  · simp only [noForbiddenTags, Option.map_some', forbiddenRemovals, List.foldl,
      List.append_assoc]
    rw [replaceAll_script_element p s (h _ (by simp)),
      replaceAll_of_no_opener (pairedTagRe "iframe") "<iframe" _ rfl rfl _ _ (h _ (by simp)),
      replaceAll_of_no_opener (pairedTagRe "form") "<form" _ rfl rfl _ _ (h _ (by simp)),
      replaceAll_of_no_opener (pairedTagRe "video") "<video" _ rfl rfl _ _ (h _ (by simp)),
      replaceAll_of_no_opener (pairedTagRe "audio") "<audio" _ rfl rfl _ _ (h _ (by simp)),
      replaceAll_of_no_opener (pairedTagRe "object") "<object" _ rfl rfl _ _ (h _ (by simp)),
      replaceAll_of_no_opener (pairedTagRe "embed") "<embed" _ rfl rfl _ _ (h _ (by simp)),
      replaceAll_of_no_opener ⟨Re.openTag "input", true⟩ "<input" _ rfl rfl _ _
        (h _ (by simp)),
      replaceAll_of_no_opener (lazyTagRe "textarea") "<textarea" _ rfl rfl _ _
        (h _ (by simp)),
      replaceAll_of_no_opener (lazyTagRe "button") "<button" _ rfl rfl _ _ (h _ (by simp))]
  · have hnone : (forbiddenTags.any fun tag => includes (p ++ s) (txt tag.1)) = false := by
      rw [Bool.eq_false_iff]
      intro hyes
      obtain ⟨o, ho, hinc⟩ := List.any_eq_true.mp hyes
      have hci := includesCI_of_includes _ _ hinc
      have hmem : o.1 ∈ ["<script", "<form", "<video", "<iframe", "<audio", "<object",
          "<embed", "<input", "<textarea", "<button"] := by
        simp only [forbiddenTags, List.mem_cons, List.mem_singleton, List.not_mem_nil,
          or_false] at ho
        rcases ho with rfl | rfl | rfl | rfl | rfl | rfl | rfl | rfl | rfl | rfl <;> simp
      rw [h o.1 hmem] at hci
      exact Bool.noConfusion hci
    simp only [noForbiddenTags, hnone, Bool.not_false]

theorem noForbiddenTags_removes_script_element_witness :
    (∀ o ∈ ["<script", "<form", "<video", "<iframe", "<audio", "<object", "<embed",
      "<input", "<textarea", "<button"],
        includesCI (txt "<P>Hi " ++ txt "there</P>") (txt o) = false) ∧
    noForbiddenTags.test (txt "<P>Hi " ++ txt "<script>alert(1)</script>" ++ txt "there</P>")
      = .ok false ∧
    (noForbiddenTags.autoFix.map fun fix =>
      fix (txt "<P>Hi " ++ txt "<script>alert(1)</script>" ++ txt "there</P>"))
      = some (txt "<P>Hi " ++ txt "there</P>") ∧
    noForbiddenTags.test (txt "<P>Hi " ++ txt "there</P>") = .ok true :=
  ⟨by decide, noForbiddenTags_removes_script_element (txt "<P>Hi ") (txt "there</P>")
    (by decide)⟩

/-! ## Claims C21 to C30 -/

/-- C22. For every document, the `no-forbidden-tags` test fails if and only if the
document contains, at any place, the character `<` immediately followed by one of the
ten denylisted names in lower case, and it passes if and only if the document
contains none of these ten substrings; nothing else of the document is looked at. -/
theorem noForbiddenTags_test_iff (s : Text) :
    (noForbiddenTags.test s = .ok false ↔
      ∃ name ∈ ["script", "form", "video", "iframe", "audio", "object", "embed", "input",
        "textarea", "button"], ∃ a b, s = a ++ (txt ("<" ++ name) ++ b)) ∧
    (noForbiddenTags.test s = .ok true ↔
      ∀ name ∈ ["script", "form", "video", "iframe", "audio", "object", "embed", "input",
        "textarea", "button"], includes s (txt ("<" ++ name)) = false) := by
  have h1 : ∀ name : String, txt ("<" ++ name) = '<' :: txt name := fun _ => rfl
  constructor
  · simp only [noForbiddenTags, forbiddenTags, ← includes_iff, Except.ok.injEq,
      Bool.not_eq_false', List.any_cons, List.any_nil, Bool.or_false, Bool.or_eq_true,
      List.mem_cons, List.mem_singleton, List.not_mem_nil, or_false, exists_eq_or_imp,
      exists_eq_left, h1]
    constructor <;> intro h <;> simpa [txt, or_assoc] using h
  · simp only [noForbiddenTags, forbiddenTags, Except.ok.injEq,
      Bool.not_eq_true', List.any_cons, List.any_nil, Bool.or_false, Bool.or_eq_false_iff,
      List.mem_cons, List.mem_singleton, List.not_mem_nil, or_false, forall_eq_or_imp,
      forall_eq, h1]
    constructor <;> intro h <;> simpa [txt, and_assoc] using h

/-- C24. The `id` fields of the rules returned by `getAllRules` are pairwise distinct. -/
theorem getAllRules_ids_nodup : (getAllRules.map (·.id)).Nodup := by
  decide

/-- C30. For each of the rules `doctype-required`, `html-tag-required`, `mso-support`
and `viewport-meta` and every document text `t`, the rule defines an `autoFix` and its
test passes on `autoFix(t)`. -/
theorem structural_fixes_always_pass (t : Text) :
    (doctypeRequired.id = "doctype-required" ∧
      ∃ fix, doctypeRequired.autoFix = some fix ∧ doctypeRequired.test (fix t) = .ok true) ∧
    (htmlTagRequired.id = "html-tag-required" ∧
      ∃ fix, htmlTagRequired.autoFix = some fix ∧ htmlTagRequired.test (fix t) = .ok true) ∧
    (msoSupport.id = "mso-support" ∧
      ∃ fix, msoSupport.autoFix = some fix ∧ msoSupport.test (fix t) = .ok true) ∧
    (viewportMeta.id = "viewport-meta" ∧
      ∃ fix, viewportMeta.autoFix = some fix ∧ viewportMeta.test (fix t) = .ok true) :=
  ⟨⟨rfl, doctypeRequired_fix_passes t⟩, ⟨rfl, htmlTagRequired_fix_passes t⟩,
    ⟨rfl, msoSupport_fix_passes t⟩, ⟨rfl, viewportMeta_fix_passes t⟩⟩

/-! ## Fields and counters of a run -/

theorem runRule_severity (s : Text) (rule : Rule) (st : List EvalResult × Nat)
    (hst : ∀ r ∈ st.1, r.weight = r.rule.weight ∧ r.level = r.rule.level) :
    ∀ r ∈ (runRule s st rule).1, r.weight = r.rule.weight ∧ r.level = r.rule.level := by
  unfold runRule
  cases rule.test s with
  | error e => exact hst
  | ok passed =>
    dsimp only
    cases resolveMessage rule.message passed s with
    | error e => exact hst
    | ok message =>
      intro r hr
      simp only [List.mem_append, List.mem_singleton] at hr
      rcases hr with hr | rfl
      · exact hst r hr
      · exact ⟨rfl, rfl⟩

theorem foldl_runRule_severity (s : Text) (rules : List Rule) (st : List EvalResult × Nat)
    (hst : ∀ r ∈ st.1, r.weight = r.rule.weight ∧ r.level = r.rule.level) :
    ∀ r ∈ (rules.foldl (runRule s) st).1,
      r.weight = r.rule.weight ∧ r.level = r.rule.level := by
  induction rules generalizing st with
  | nil => exact hst
  | cons rule rest ih =>
    rw [List.foldl_cons]
    exact ih _ (runRule_severity s rule st hst)

theorem runChecks_severity (s : Text) :
    ∀ r ∈ (runChecks s).results, r.weight = r.rule.weight ∧ r.level = r.rule.level :=
  foldl_runRule_severity s getAllRules ([], 0) (by intro r hr; cases hr)

theorem runChecks_rules (s : Text) : (runChecks s).results.map (·.rule) = getAllRules := by
  simp only [runChecks, runChecksOn, foldl_runRule_rules, List.map_nil, List.nil_append]
  exact List.filter_eq_self.mpr (getAllRules_evaluates s)

theorem runChecks_rule_mem (s : Text) : ∀ r ∈ (runChecks s).results, r.rule ∈ getAllRules := by
  intro r hr
  rw [← runChecks_rules s]
  exact List.mem_map_of_mem _ hr

theorem getAllRules_levels :
    ∀ r ∈ getAllRules, r.level ∈ ["error", "warning", "info"] := by
  decide

theorem getAllRules_categories :
    ∀ r ∈ getAllRules, r.category ∈ getCategories.map (·.1) := by
  decide

/-- C25. Every rule of the catalogue is well formed: its category is a key of
`getCategories()`, its weight is positive and its level is one of `error`, `warning`,
`info`.  Hence every result of a run over the catalogue has one of these three levels
and the multiplier applied to it is 0.8, 0.5 or 0.2, never the fallback 0.3. -/
theorem getAllRules_well_formed :
    (∀ r ∈ getAllRules,
      r.category ∈ getCategories.map (·.1) ∧ 0 < r.weight ∧
        r.level ∈ ["error", "warning", "info"]) ∧
    (∀ s, ∀ res ∈ (runChecks s).results,
      res.level ∈ ["error", "warning", "info"] ∧
        getSeverityMultiplier res.level ∈ [(8 / 10 : ℚ), 5 / 10, 2 / 10]) := by
  refine ⟨fun r hr => ⟨getAllRules_categories r hr, getAllRules_weights r hr,
    getAllRules_levels r hr⟩, ?_⟩
  intro s res hres
  have hl : res.level ∈ ["error", "warning", "info"] := by
    rw [(runChecks_severity s res hres).2]
    exact getAllRules_levels _ (runChecks_rule_mem s res hres)
  refine ⟨hl, ?_⟩
  simp only [List.mem_cons, List.mem_singleton, List.not_mem_nil, or_false] at hl
  rcases hl with h | h | h <;> rw [h] <;> simp [getSeverityMultiplier]

theorem runRule_passedCount (s : Text) (rule : Rule) (st : List EvalResult × Nat)
    (hm : ∀ b, rule.test s = .ok b → ∃ m, resolveMessage rule.message b s = .ok m)
    (hst : st.2 = (st.1.filter (·.passed)).length) :
    (runRule s st rule).2 = ((runRule s st rule).1.filter (·.passed)).length := by
  unfold runRule
  cases ht : rule.test s with
  | error e => exact hst
  | ok passed =>
    obtain ⟨m, hmsg⟩ := hm passed ht
    simp only [hmsg]
    cases passed <;> simp [List.filter_append, hst]

theorem foldl_runRule_passedCount (s : Text) (rules : List Rule) (st : List EvalResult × Nat)
    (hm : ∀ rule ∈ rules, ∀ b, rule.test s = .ok b →
      ∃ m, resolveMessage rule.message b s = .ok m)
    (hst : st.2 = (st.1.filter (·.passed)).length) :
    (rules.foldl (runRule s) st).2 =
      ((rules.foldl (runRule s) st).1.filter (·.passed)).length := by
  induction rules generalizing st with
  | nil => exact hst
  | cons rule rest ih =>
    rw [List.foldl_cons]
    exact ih _ (fun r hr => hm r (List.mem_cons_of_mem _ hr))
      (runRule_passedCount s rule st (hm rule (List.mem_cons_self _ _)) hst)

theorem runRule_length_le (s : Text) (rule : Rule) (st : List EvalResult × Nat) :
    (runRule s st rule).1.length ≤ st.1.length + 1 := by
  unfold runRule
  cases rule.test s with
  | error e => simp
  | ok passed =>
    dsimp only
    cases resolveMessage rule.message passed s with
    | error e => simp
    | ok message => simp

theorem foldl_runRule_length_le (s : Text) (rules : List Rule) (st : List EvalResult × Nat) :
    (rules.foldl (runRule s) st).1.length ≤ st.1.length + rules.length := by
  induction rules generalizing st with
  | nil => simp
  | cons rule rest ih =>
    rw [List.foldl_cons]
    have h1 := ih (runRule s st rule)
    have h2 := runRule_length_le s rule st
    simp only [List.length_cons]
    omega

/-! ## The lowest score of a run -/

theorem specPenalty_le_total (results : List EvalResult)
    (h : ∀ r ∈ results, 0 ≤ r.weight) :
    specPenalty results ≤ (results.map fun r => r.weight * getSeverityMultiplier r.level).sum := by
  induction results with
  | nil => simp [specPenalty]
  | cons r rs ih =>
    have hrs := ih (fun x hx => h x (List.mem_cons_of_mem _ hx))
    have hr : 0 ≤ r.weight * getSeverityMultiplier r.level :=
      mul_nonneg (h r (List.mem_cons_self _ _)) (getSeverityMultiplier_nonneg _)
    rw [getSeverityMultiplier_eq_spec] at hr
    simp only [getSeverityMultiplier_eq_spec] at hrs ⊢
    unfold specPenalty at hrs ⊢
    cases hp : r.passed
    · simp only [List.filter_cons, hp, decide_True, if_true, List.map_cons, List.sum_cons]
      linarith
    · simp only [List.filter_cons, hp, Bool.true_eq_false, decide_False, Bool.false_eq_true,
        if_false, List.map_cons, List.sum_cons]
      linarith

theorem getAllRules_total_penalty : (getAllRules.map rulePenalty).sum = 407 / 5 := by
  decide!

theorem runChecks_penalty_le (s : Text) : specPenalty (runChecks s).results ≤ 407 / 5 := by
  have h1 := specPenalty_le_total (runChecks s).results (fun r hr => by
    rw [(runChecks_severity s r hr).1]
    exact le_of_lt (getAllRules_weights _ (runChecks_rule_mem s r hr)))
  have h2 : ((runChecks s).results.map fun r => r.weight * getSeverityMultiplier r.level) =
      ((runChecks s).results.map (·.rule)).map rulePenalty := by
    rw [List.map_map]
    apply List.map_congr_left
    intro r hr
    simp only [Function.comp, rulePenalty, (runChecks_severity s r hr).1,
      (runChecks_severity s r hr).2]
  rw [h2, runChecks_rules, getAllRules_total_penalty] at h1
  exact h1

/-- The sum of a result list stays below the sum of its rule list when all rules
fail, provided that sum never decreases. -/
theorem foldl_le_lostAll (results : List EvalResult)
    (h : ∀ r ∈ results, r.weight = r.rule.weight ∧ r.level = r.rule.level)
    (hw : ∀ r ∈ results, 0 ≤ r.weight) :
    ∀ (lost bound : ℚ), 0 ≤ lost → lost ≤ bound →
      lostGrows bound (results.map (·.rule)) = true →
      ((results.filter fun r => r.passed = false).map numberPenalty).foldl
          (fun lost penalty => toNumber (lost + penalty)) lost ≤
        lostAll bound (results.map (·.rule)) := by
  induction results with
  | nil =>
    intro lost bound _ hle _
    simpa [lostAll] using hle
  | cons r rs ih =>
    intro lost bound h0 hle hg
    have hrs := ih (fun x hx => h x (List.mem_cons_of_mem _ hx))
      (fun x hx => hw x (List.mem_cons_of_mem _ hx))
    have hr := h r (List.mem_cons_self _ _)
    have hp : 0 ≤ numberPenalty r := numberPenalty_nonneg r (hw r (List.mem_cons_self _ _))
    have hpen : addPenalty bound r.rule = toNumber (bound + numberPenalty r) := by
      simp [addPenalty, numberPenalty, hr.1, hr.2, getSeverityMultiplier_eq_spec]
    simp only [List.map_cons, lostGrows, Bool.and_eq_true, decide_eq_true_eq] at hg
    simp only [List.map_cons, lostAll, List.foldl_cons]
    cases hpass : r.passed
    · have hstep : toNumber (lost + numberPenalty r) ≤ addPenalty bound r.rule := by
        rw [hpen]
        exact toNumber_mono (by linarith) (by linarith)
      have := hrs (toNumber (lost + numberPenalty r)) (addPenalty bound r.rule)
        (toNumber_nonneg (by linarith)) hstep hg.2
      simpa [List.filter_cons, hpass, lostAll] using this
    · have := hrs lost (addPenalty bound r.rule) h0 (le_trans hle hg.1) hg.2
      simpa [List.filter_cons, hpass, lostAll] using this

theorem catalogue_lost_grows : lostGrows 0 getAllRules = true := by
  decide!

/-- With all fifteen rules failing, the sum in doubles is at most 100 and leaves a
remainder of at least 18.5. -/
theorem catalogue_lost_all :
    lostAll 0 getAllRules ≤ 100 ∧ 37 / 2 ≤ toNumber (100 - lostAll 0 getAllRules) := by
  refine ⟨by decide!, by decide!⟩

theorem runChecks_lost_le (s : Text) :
    numberLost (runChecks s).results ≤ lostAll 0 getAllRules := by
  have h := foldl_le_lostAll (runChecks s).results (runChecks_severity s)
    (fun r hr => by
      rw [(runChecks_severity s r hr).1]
      exact le_of_lt (getAllRules_weights _ (runChecks_rule_mem s r hr)))
    0 0 (le_refl _) (le_refl _)
  rw [runChecks_rules] at h
  exact h catalogue_lost_grows

/-- C29. For every document text the score of `runChecks` over the built-in catalogue
is at least 19: the penalties of all fifteen rules add up to
0.8 × 65 + 0.5 × 54 + 0.2 × 12 = 81.4, so the penalty of a run is at most 81.4 and the
score is at least `round(18.6) = 19`. -/
theorem runChecks_score_ge_19 (s : Text) :
    19 ≤ (runChecks s).score ∧
    (getAllRules.map rulePenalty).sum = 8 / 10 * 65 + 5 / 10 * 54 + 2 / 10 * 12 ∧
    specPenalty (runChecks s).results ≤ 814 / 10 := by
  have hp := runChecks_penalty_le s
  refine ⟨?_, ?_, by linarith⟩
  · have hs : (runChecks s).score = calculateScore (runChecks s).results := rfl
    rw [hs, calculateScore_eq]
    apply le_max_of_le_right
    have hle := runChecks_lost_le s
    have h1 : toNumber (100 - lostAll 0 getAllRules) ≤
        toNumber (100 - numberLost (runChecks s).results) :=
      toNumber_mono (by linarith) (by linarith [catalogue_lost_all.1])
    have h2 : (37 / 2 : ℚ) ≤ toNumber (100 - numberLost (runChecks s).results) :=
      le_trans catalogue_lost_all.2 h1
    unfold jsRound
    apply Int.le_floor.mpr
    push_cast
    linarith
  · rw [getAllRules_total_penalty]
    norm_num

/-! ## Image rules of the security and performance categories -/

theorem ratio_ge_seven_iff (v n : Nat) (hn : 0 < n) :
    ((v : ℚ) / (n : ℚ) ≥ 7 / 10) ↔ 7 * n ≤ 10 * v := by
  have hq : (0 : ℚ) < n := by exact_mod_cast hn
  rw [ge_iff_le, le_div_iff₀ hq]
  constructor
  · intro h
    have h2 : (7 : ℚ) * n ≤ 10 * v := by linarith
    exact_mod_cast h2
  · intro h
    have h2 : (7 : ℚ) * n ≤ 10 * v := by exact_mod_cast h
    linarith

theorem startsWith_slash_of_double (src : Text) (h : startsWith src (txt "//") = true) :
    startsWith src (txt "/") = true := by
  rw [startsWith_iff] at h ⊢
  obtain ⟨b, rfl⟩ := h
  exact ⟨txt "/" ++ b, rfl⟩

/-- C21 (counterexample). The document `<img src="/logo.png">` passes the
`secure-images` test although the src of its only image neither starts with
`https://`, nor is a `data:` URI, nor is protocol-relative. -/
theorem secureImages_counts_root_relative :
    secureImages.test (txt "<img src=\"/logo.png\">") = .ok true ∧
    (matchAll imgTagRe (txt "<img src=\"/logo.png\">")).map (·.text) =
      [txt "<img src=\"/logo.png\">"] ∧
    specSecureSrc (txt "<img src=\"/logo.png\">") = false ∧
    specSecureImages (txt "<img src=\"/logo.png\">") = false := by
  refine ⟨by decide!, by decide, by decide, by decide⟩

/-- C21 (amended). For every document the `secure-images` test returns a boolean, and
it passes if and only if the document has no `<img ...>` tag or at least 80% of these
tags are secure, the boundary included: `4 × total ≤ 5 × secure`.  A tag is secure
exactly when the first quoted `src=` found in it has a value that starts with
`https://`, with `data:` or with `/`; this covers the protocol-relative sources and
the root-relative ones as well.  A tag with another src or without a quoted src is not
secure. -/
theorem secureImages_threshold (s : Text) :
    (∃ b, secureImages.test s = .ok b) ∧
    (secureImages.test s = .ok true ↔
      ((matchAll imgTagRe s).length = 0 ∨
        4 * (matchAll imgTagRe s).length ≤
          5 * ((matchAll imgTagRe s).filter fun t => hasSecureSrc t.text).length)) ∧
    (∀ imgTag, hasSecureSrc imgTag = true ↔
      ∃ m, jsMatch ⟨Re.attrCap "src" "", true⟩ imgTag = some m ∧
        (startsWith (m.cap 1) (txt "https://") = true ∨
          startsWith (m.cap 1) (txt "data:") = true ∨ startsWith (m.cap 1) (txt "/") = true)) ∧
    (∀ imgTag, specSecureSrc imgTag = true → hasSecureSrc imgTag = true) ∧
    hasSecureSrc (txt "<img src=\"//cdn.example.com/a.png\">") = true ∧
    hasSecureSrc (txt "<img src=\"http://example.com/a.png\">") = false ∧
    hasSecureSrc (txt "<img alt=\"logo\">") = false := by
  refine ⟨?_, ?_, ?_, ?_, by decide, by decide, by decide⟩
  · simp only [secureImages]
    split <;> exact ⟨_, rfl⟩
  · simp only [secureImages]
    cases hm : matchAll imgTagRe s with
    | nil => simp
    | cons x xs =>
      have hn : 0 < (x :: xs).length := by simp
      simp only [List.isEmpty_cons, Bool.false_eq_true, if_false, Except.ok.injEq,
        Bool.or_eq_true, beq_iff_eq, decide_eq_true_eq]
      rw [ratio_ge_iff _ _ hn]
  · intro imgTag
    unfold hasSecureSrc
    cases jsMatch ⟨Re.attrCap "src" "", true⟩ imgTag with
    | none => simp
    | some m => simp [or_assoc]
  · intro imgTag
    unfold hasSecureSrc specSecureSrc
    cases jsMatch ⟨Re.attrCap "src" "", true⟩ imgTag with
    | none => simp
    | some m =>
      simp only [Bool.or_eq_true]
      rintro ((h | h) | h)
      · exact Or.inl (Or.inl h)
      · exact Or.inl (Or.inr h)
      · exact Or.inr (startsWith_slash_of_double _ h)

/-- C23 (counterexample). The only `<img ...>` tag of the document
`<img src="a.png" width=600 height=400>` carries a width attribute and a height
attribute, both unquoted, and the `img-dimensions` test fails on it. -/
theorem imgDimensions_ignores_unquoted_values :
    imgDimensions.test (txt "<img src=\"a.png\" width=600 height=400>") = .ok false ∧
    (matchAll imgTagRe (txt "<img src=\"a.png\" width=600 height=400>")).map (·.text) =
      [txt "<img src=\"a.png\" width=600 height=400>"] ∧
    specHasAttr "width" (txt "<img src=\"a.png\" width=600 height=400>") = true ∧
    specHasAttr "height" (txt "<img src=\"a.png\" width=600 height=400>") = true ∧
    specImgDimensions (txt "<img src=\"a.png\" width=600 height=400>") = true := by
  refine ⟨by decide!, by decide, by decide, by decide, by decide⟩

/-- C23 (amended). For every document the `img-dimensions` test returns a boolean, and
it passes if and only if the document has no `<img ...>` tag or at least 70% of these
tags are dimensioned, the boundary included: `7 × total ≤ 10 × dimensioned`.  A tag is
dimensioned exactly when it holds a match of `width\s*=\s*["'][^"']*["']` and a match
of `height\s*=\s*["'][^"']*["']`, that is, a quoted width value and a quoted height
value.  Seven dimensioned tags out of ten pass, six out of ten fail. -/
theorem imgDimensions_threshold (s : Text) :
    (∃ b, imgDimensions.test s = .ok b) ∧
    (imgDimensions.test s = .ok true ↔
      ((matchAll imgTagRe s).length = 0 ∨
        7 * (matchAll imgTagRe s).length ≤
          10 * ((matchAll imgTagRe s).filter fun t => hasDimensions t.text).length)) ∧
    (∀ imgTag, hasDimensions imgTag = true ↔
      (regexTest ⟨Re.attr "width", true⟩ imgTag = true ∧
        regexTest ⟨Re.attr "height", true⟩ imgTag = true)) ∧
    hasDimensions (txt "<img width=\"600\" height=\"400\">") = true ∧
    hasDimensions (txt "<img width=\"600\">") = false ∧
    imgDimensions.test ((List.replicate 7 (txt "<img width=\"1\" height=\"1\">")).flatten ++
      (List.replicate 3 (txt "<img>")).flatten) = .ok true ∧
    imgDimensions.test ((List.replicate 6 (txt "<img width=\"1\" height=\"1\">")).flatten ++
      (List.replicate 4 (txt "<img>")).flatten) = .ok false := by
  refine ⟨?_, ?_, ?_, by decide, by decide, by decide!, by decide!⟩
  · simp only [imgDimensions]
    split <;> exact ⟨_, rfl⟩
  · simp only [imgDimensions]
    cases hm : matchAll imgTagRe s with
    | nil => simp
    | cons x xs =>
      have hn : 0 < (x :: xs).length := by simp
      simp only [List.isEmpty_cons, Bool.false_eq_true, if_false, Except.ok.injEq,
        Bool.or_eq_true, beq_iff_eq, decide_eq_true_eq]
      rw [ratio_ge_seven_iff _ _ hn]
  · intro imgTag
    simp [hasDimensions]

/-- C26 (the code at the failing input). On `<p>x</p></div><p>` the method
`formatHTML` raises: the text splits into the lines `<p>x</p`, `/div` and `p>`, the
middle line is a closing tag, `indent` goes from 0 to -1 and `'  '.repeat(-1)` raises
a `RangeError`.  The same happens on the balanced text
`<div><p>x</p></div><p>y</p>`, because the first line never raises `indent`. -/
theorem formatHTML_raises_on_closing_tag :
    splitRe tagGapRe (txt "<p>x</p></div><p>") = [txt "<p>x</p", txt "/div", txt "p>"] ∧
    regexTest closingLineRe (txt "/div") = true ∧
    jsRepeat (txt "  ") (0 - 1) = .error "RangeError: Invalid count value: -1" ∧
    formatHTML (txt "<p>x</p></div><p>") = .error "RangeError: Invalid count value: -1" ∧
    formatHTML (txt "<div><p>x</p></div><p>y</p>") =
      .error "RangeError: Invalid count value: -1" := by
  refine ⟨by decide, by decide, by decide, by decide, by decide⟩

/-- C27 (the code at the failing input). The `no-forbidden-tags` test passes on
`<SCRIPT>alert(1)</SCRIPT>`: its `includes` calls compare code units, and the document
holds none of the ten lower-case openers.  The autoFix of the same rule, whose patterns
carry the `i` flag, removes the element; in lower case the test fails. -/
theorem noForbiddenTags_passes_upper_case :
    noForbiddenTags.test (txt "<SCRIPT>alert(1)</SCRIPT>") = .ok true ∧
    (noForbiddenTags.autoFix.map fun fix => fix (txt "<SCRIPT>alert(1)</SCRIPT>")) = some [] ∧
    noForbiddenTags.test (txt "<script>alert(1)</script>") = .ok false ∧
    includesCI (txt "<SCRIPT>alert(1)</SCRIPT>") (txt "<script") = true := by
  refine ⟨by decide, by decide, by decide, by decide⟩

/-! ## The alt text of images -/

/-- C18 (the code at the failing input). The only image of `<img alt="it's ok">`
carries a quoted alt attribute whose value is 7 characters long, and the `img-alt`
test fails on the document with the message `1 images missing alt text`: the
pattern `alt\s*=\s*["']([^"']*)["']` ends the value at the first quote character of
either kind, here the apostrophe, so the captured value is `it`, of length 2.  The
autoFix of the rule leaves the document as it is.  In the other direction
`<img data-alt="long text" alt="">` passes, the pattern matching inside `data-alt`. -/
theorem imgAltText_stops_at_apostrophe :
    imgAltText.test (txt "<img alt=\"it" ++ sq :: txt "s ok\">") = .ok false ∧
    (matchAll imgTagRe (txt "<img alt=\"it" ++ sq :: txt "s ok\">")).map (·.text) =
      [txt "<img alt=\"it" ++ sq :: txt "s ok\">"] ∧
    (jsMatch ⟨Re.attrCap "alt" "", true⟩ (txt "<img alt=\"it" ++ sq :: txt "s ok\">")).map
      (fun m => m.cap 1) = some (txt "it") ∧
    resolveMessage imgAltText.message false (txt "<img alt=\"it" ++ sq :: txt "s ok\">") =
      .ok "1 images missing alt text" ∧
    (imgAltText.autoFix.map fun fix => fix (txt "<img alt=\"it" ++ sq :: txt "s ok\">")) =
      some (txt "<img alt=\"it" ++ sq :: txt "s ok\">") ∧
    imgAltText.test (txt "<img data-alt=\"long text\" alt=\"\">") = .ok true ∧
    imgAltText.test (txt "<img alt=\"its ok\">") = .ok true := by
  refine ⟨by decide!, by decide, by decide, by decide!, by decide, by decide!, by decide!⟩

/-! ## Quick fixes of a run -/

theorem declared_category_plain (c : String) (h : c ∈ getCategories.map (·.1)) :
    c ∉ objectPrototypeKeys ∧ isArrayIndex c = false := by
  simp only [getCategories, categories, List.map_cons, List.map_nil, List.mem_cons,
    List.mem_singleton, List.not_mem_nil, or_false] at h
  rcases h with h | h | h | h | h <;> subst h <;> exact ⟨by decide, by decide⟩

theorem runChecks_categories_declared (s : Text) :
    ∀ r ∈ (runChecks s).results, r.category ∈ getCategories.map (·.1) := by
  intro r hr
  have h1 : r.category = r.rule.category :=
    foldl_runRule_category s getAllRules ([], 0) (by intro x hx; cases hx) r hr
  rw [h1]
  exact getAllRules_categories _ (runChecks_rule_mem s r hr)

/-- C11. For every list of evaluation results, each carrying one of the declared
categories as every result of a run does, `generateQuickFixes` returns exactly one
group per category that has at least one failed result; the issues of a group are
exactly the failed results of its category in their original order, so no group is
empty and none holds a passed result; and the priority of a group is `high` if it
holds an error-level result, otherwise `medium` if it holds a warning-level result,
otherwise `low`. -/
theorem generateQuickFixes_groups (results : List EvalResult)
    (h : ∀ r ∈ results, r.category ∈ getCategories.map (·.1)) :
    (∃ groups, generateQuickFixes results = .ok groups ∧
      groups.Perm ((failedCategories results).map (specGroup results)) ∧
      (failedCategories results).Nodup ∧
      (∀ c, c ∈ failedCategories results ↔
        ∃ r ∈ results, r.passed = false ∧ r.category = c) ∧
      (∀ g ∈ groups, g.issues ≠ [] ∧
        g.issues = results.filter (fun r => !r.passed && r.category == g.category) ∧
        g.priority = specPriority g.issues ∧
        (g.priority = "high" ↔ ∃ i ∈ g.issues, i.level = "error"))) ∧
    (∀ s, ∀ r ∈ (runChecks s).results, r.category ∈ getCategories.map (·.1)) := by
  refine ⟨?_, runChecks_categories_declared⟩
  obtain ⟨groups, hok, hperm⟩ := generateQuickFixes_perm results (by
    intro r hr hp
    simpa using (declared_category_plain _ (h r hr)).1)
  refine ⟨groups, hok, hperm, nodup_firstOccurrences _, mem_failedCategories results, ?_⟩
  intro g hg
  have hg2 := hperm.subset hg
  simp only [List.mem_map] at hg2
  obtain ⟨c, hc, rfl⟩ := hg2
  obtain ⟨r, hr, hp, hcat⟩ := (mem_failedCategories results c).mp hc
  refine ⟨?_, rfl, rfl, specPriority_high _⟩
  apply List.ne_nil_of_mem (a := r)
  simp [specGroup, hr, hp, hcat]

/-- C11 (witness). Four results in three declared categories, one of them passed: the
groups are `security` (high), then `accessibility` (medium) with its two failed
results in order. -/
theorem generateQuickFixes_groups_witness :
    (∀ r ∈ [sampleResult "a" "accessibility" "info" false,
        sampleResult "b" "security" "error" false,
        sampleResult "c" "accessibility" "warning" false,
        sampleResult "d" "performance" "error" true],
      r.category ∈ getCategories.map (·.1)) ∧
    ∃ groups,
      generateQuickFixes [sampleResult "a" "accessibility" "info" false,
        sampleResult "b" "security" "error" false,
        sampleResult "c" "accessibility" "warning" false,
        sampleResult "d" "performance" "error" true] = .ok groups ∧
      groups.map (fun g => (g.category, g.priority, g.issues.map (·.id))) =
        [("security", "high", ["b"]), ("accessibility", "medium", ["a", "c"])] :=
  ⟨by decide,
   by
    obtain ⟨⟨groups, hok, -⟩, -⟩ := generateQuickFixes_groups
      [sampleResult "a" "accessibility" "info" false,
        sampleResult "b" "security" "error" false,
        sampleResult "c" "accessibility" "warning" false,
        sampleResult "d" "performance" "error" true] (by decide)
    refine ⟨groups, hok, ?_⟩
    have h2 : generateQuickFixes [sampleResult "a" "accessibility" "info" false,
        sampleResult "b" "security" "error" false,
        sampleResult "c" "accessibility" "warning" false,
        sampleResult "d" "performance" "error" true] = .ok _ := rfl
    rw [h2] at hok
    cases hok
    decide⟩

/-- C12. For every list of evaluation results, each carrying one of the declared
categories as every result of a run does, the groups returned by `generateQuickFixes`
are ordered by non-decreasing priority rank (high, medium, low), and the groups of
each priority appear in the order in which their categories first occur among the
failed results; when some failed result is of error level, the first group has
priority `high` and holds an error-level result. -/
theorem generateQuickFixes_order (results : List EvalResult)
    (h : ∀ r ∈ results, r.category ∈ getCategories.map (·.1)) :
    (∃ groups, generateQuickFixes results = .ok groups ∧
      groups.Pairwise (fun a b => priorityOrder a.priority ≤ priorityOrder b.priority) ∧
      (∀ p, (groups.filter fun g => g.priority == p).map (·.category) =
        (failedCategories results).filter fun c => (specGroup results c).priority == p) ∧
      ((∃ r ∈ results, r.passed = false ∧ r.level = "error") →
        ∃ g rest, groups = g :: rest ∧ g.priority = "high" ∧
          ∃ i ∈ g.issues, i.level = "error")) ∧
    priorityOrder "high" < priorityOrder "medium" ∧
    priorityOrder "medium" < priorityOrder "low" ∧
    (∀ s, ∀ r ∈ (runChecks s).results, r.category ∈ getCategories.map (·.1)) := by
  refine ⟨?_, by decide, by decide, runChecks_categories_declared⟩
  have hok := generateQuickFixes_sorted results
    (by intro r hr hp; simpa using (declared_category_plain _ (h r hr)).1)
    (fun r hr hp => (declared_category_plain _ (h r hr)).2)
  refine ⟨_, hok, sortFixes_sorted _, ?_, ?_⟩
  · intro p
    rw [sortFixes_filter, List.filter_map, List.map_map]
    have : ((fun g : QuickFix => g.category) ∘ specGroup results) = id := by
      funext c
      rfl
    rw [this, List.map_id]
    rfl
  · rintro ⟨r, hr, hp, hlevel⟩
    have hmem : specGroup results r.category ∈
        sortFixes ((failedCategories results).map (specGroup results)) := by
      apply (sortFixes_perm _).symm.subset
      exact List.mem_map.mpr
        ⟨r.category, (mem_failedCategories results _).mpr ⟨r, hr, hp, rfl⟩, rfl⟩
    have hhigh : (specGroup results r.category).priority = "high" := by
      simp only [specGroup]
      rw [specPriority_high]
      exact ⟨r, by simp [hr, hp], hlevel⟩
    cases hs : sortFixes ((failedCategories results).map (specGroup results)) with
    | nil => rw [hs] at hmem; cases hmem
    | cons g rest =>
      have hsorted := sortFixes_sorted ((failedCategories results).map (specGroup results))
      rw [hs] at hsorted hmem
      have hg : g.priority = "high" := by
        rcases List.mem_cons.mp hmem with he | he
        · rw [← he]; exact hhigh
        · have := (List.pairwise_cons.mp hsorted).1 _ he
          rw [hhigh, (priorityOrder_eq_zero "high").mpr rfl] at this
          have h0 : priorityOrder g.priority = 0 := by
            have : 0 ≤ priorityOrder g.priority := by
              unfold priorityOrder
              split_ifs <;> omega
            omega
          exact (priorityOrder_eq_zero _).mp h0
      refine ⟨g, rest, rfl, hg, ?_⟩
      have hgmem : g ∈ (failedCategories results).map (specGroup results) := by
        apply (sortFixes_perm _).subset
        rw [hs]
        exact List.mem_cons_self _ _
      obtain ⟨c, -, rfl⟩ := List.mem_map.mp hgmem
      exact (specPriority_high _).mp hg

/-- C12 (witness). An info-level failure in `accessibility` followed by an error-level
failure in `security`: the first group is `security`, with priority `high`. -/
theorem generateQuickFixes_order_witness :
    (∀ r ∈ [sampleResult "img-alt" "accessibility" "info" false,
        sampleResult "no-forbidden-tags" "security" "error" false],
      r.category ∈ getCategories.map (·.1)) ∧
    ∃ groups,
      generateQuickFixes [sampleResult "img-alt" "accessibility" "info" false,
        sampleResult "no-forbidden-tags" "security" "error" false] = .ok groups ∧
      groups.map (fun g => (g.category, g.priority, g.issues.map (·.id))) =
        [("security", "high", ["no-forbidden-tags"]), ("accessibility", "low", ["img-alt"])] :=
  ⟨by decide,
   by
    obtain ⟨⟨groups, hok, -⟩, -⟩ := generateQuickFixes_order
      [sampleResult "img-alt" "accessibility" "info" false,
        sampleResult "no-forbidden-tags" "security" "error" false] (by decide)
    refine ⟨groups, hok, ?_⟩
    have h2 : generateQuickFixes [sampleResult "img-alt" "accessibility" "info" false,
        sampleResult "no-forbidden-tags" "security" "error" false] = .ok _ := rfl
    rw [h2] at hok
    cases hok
    decide⟩

/-! ## The counters of a run -/

/-- C28. In the report of `runChecks` on every document, `passedCount` is the number of
results with `passed = true`, hence `passedCount ≤ results.length ≤ totalChecks`.
The same holds for the run over any rule list, rules whose test raises included,
provided no message function raises once its test has returned, as is the case for
every rule of the catalogue: the counter is raised before the message function is
called, and a result is pushed only when that call returns. -/
theorem runChecks_passedCount (s : Text) :
    (runChecks s).passedCount = ((runChecks s).results.filter (·.passed)).length ∧
    (runChecks s).passedCount ≤ (runChecks s).results.length ∧
    (runChecks s).results.length ≤ (runChecks s).totalChecks ∧
    (∀ rules, (∀ rule ∈ rules, ∀ b, rule.test s = .ok b →
        ∃ m, resolveMessage rule.message b s = .ok m) →
      (runChecksOn rules s).passedCount =
        ((runChecksOn rules s).results.filter (·.passed)).length ∧
      (runChecksOn rules s).passedCount ≤ (runChecksOn rules s).results.length ∧
      (runChecksOn rules s).results.length ≤ (runChecksOn rules s).totalChecks) := by
  have hgen : ∀ rules, (∀ rule ∈ rules, ∀ b, rule.test s = .ok b →
        ∃ m, resolveMessage rule.message b s = .ok m) →
      (runChecksOn rules s).passedCount =
        ((runChecksOn rules s).results.filter (·.passed)).length ∧
      (runChecksOn rules s).passedCount ≤ (runChecksOn rules s).results.length ∧
      (runChecksOn rules s).results.length ≤ (runChecksOn rules s).totalChecks := by
    intro rules hm
    have h1 : (runChecksOn rules s).passedCount =
        ((runChecksOn rules s).results.filter (·.passed)).length :=
      foldl_runRule_passedCount s rules ([], 0) hm rfl
    refine ⟨h1, ?_, ?_⟩
    · rw [h1]
      exact List.length_filter_le _ _
    · have := foldl_runRule_length_le s rules ([], 0)
      simpa [runChecksOn] using this
  have hcat := hgen getAllRules (fun r hr b _ => getAllRules_message_ok s r hr b)
  exact ⟨hcat.1, hcat.2.1, hcat.2.2, hgen⟩

end EmailChecker
